import Mathlib

/-!
Verification of the conversion engine of the obsidian-to-quarto exporter
(`src/main.ts`).

The TypeScript source is shallowly embedded: each TypeScript function
becomes a Lean definition of the same name operating on `String`
(internally on `List Char`); external collaborators (the vault lookup, the
metadata cache's tag list, the file-stat timestamp) become explicit
parameters; and the JavaScript string/regex primitives are modelled by
executable Lean functions whose semantics follow the ECMAScript behaviour
of the exact call sites (string-pattern `replace` rewrites only the first
occurrence, lazy/greedy quantifier behaviour of the specific regexes, the
`m` and `i` flags where present).

Definitions whose name ends in `Spec` are *not* read off the source: they
restate sentences of the specification document and are compared with the
source-derived definitions in the theorems below.
-/

namespace O2Q

/-- JS `\s` (whitespace class) restricted to the ASCII range; this also
covers what `String.prototype.trim` strips for the inputs in scope. -/
def jsSpace (c : Char) : Bool :=
  c = ' ' || c = '\t' || c = '\n' || c = '\r' || c = '\x0b' || c = '\x0c'

/-- JS `String.prototype.trim` on char lists. -/
def jsTrimL (cs : List Char) : List Char :=
  ((cs.dropWhile jsSpace).reverse.dropWhile jsSpace).reverse

/-- JS `String.prototype.trim`. -/
def jsTrim (s : String) : String := ⟨jsTrimL s.data⟩

/-- JS `String.prototype.padStart(2, '0')`. -/
def padStart2 (s : String) : String :=
  if s.length < 2 then ⟨List.replicate (2 - s.length) '0'⟩ ++ s else s

/-- Boolean "the first list is a prefix of the second". -/
def listPref : List Char → List Char → Bool
  | [], _ => true
  | _ :: _, [] => false
  | p :: ps, c :: cs => p = c && listPref ps cs

/-- JS `String.prototype.replace(pat, rep)` with a *string* pattern, on
char lists: only the first occurrence of `pat` is replaced (the
replacement is inserted literally — no `$`-patterns occur at the modelled
call sites). -/
def replaceFirstL (pat rep : List Char) : List Char → List Char
  | [] => if listPref pat [] then rep else []
  | c :: cs =>
      if listPref pat (c :: cs) then rep ++ (c :: cs).drop pat.length
      else c :: replaceFirstL pat rep cs

/-- JS `s.replace(pat, rep)` with a string pattern. -/
def jsReplaceFirst (s pat rep : String) : String :=
  ⟨replaceFirstL pat.data rep.data s.data⟩

/-- ASCII lower-casing, the effect of JS `toLowerCase` on the inputs in
scope. -/
def toLowerStr (s : String) : String := ⟨s.data.map Char.toLower⟩

/-- The `dateOption` setting (src/main.ts:4). -/
inductive DateOption
  | none
  | created
  | modified
deriving DecidableEq

/-- The plugin settings record (src/main.ts:3-9). -/
structure ObsidianToQuartoSettings where
  dateOption : DateOption
  dateFormat : String
  outputFolder : String
  overwriteExisting : Bool
  importTags : Bool

/-- `DEFAULT_SETTINGS` (src/main.ts:11-17). -/
def DEFAULT_SETTINGS : ObsidianToQuartoSettings :=
  ⟨DateOption.none, "YYYY-MM-DD", "", false, true⟩

/-- The six local-calendar fields the source reads off a JS `Date`
(`getFullYear`, `getMonth` (0-based), `getDate`, `getHours`,
`getMinutes`, `getSeconds`); the timestamp→local-field conversion itself
happens in the host runtime and is taken as given. -/
structure JsDate where
  fullYear : Nat
  monthIdx : Nat
  dayOfMonth : Nat
  hours : Nat
  minutes : Nat
  seconds : Nat

/-- `formatDate` (src/main.ts:187-196): chained string-pattern `replace`
calls on the user's date-format pattern. -/
def formatDate (dateFormat : String) (d : JsDate) : String :=
  jsReplaceFirst
    (jsReplaceFirst
      (jsReplaceFirst
        (jsReplaceFirst
          (jsReplaceFirst
            (jsReplaceFirst dateFormat "YYYY" (toString d.fullYear))
            "MM" (padStart2 (toString (d.monthIdx + 1))))
          "DD" (padStart2 (toString d.dayOfMonth)))
        "HH" (padStart2 (toString d.hours)))
      "mm" (padStart2 (toString d.minutes)))
    "ss" (padStart2 (toString d.seconds))

/-- `getFileTags` (src/main.ts:163-170).  The tag sequence delivered by the
host's `getAllTags(fileCache)` is an external input and is a parameter
here; the function maps JS `tag.replace('#','')` (first occurrence only)
over it. -/
def getFileTags (allTags : List String) : List String :=
  allTags.map fun t => jsReplaceFirst t "#" ""

/-- `mapCalloutType` (src/main.ts:275-290). -/
def mapCalloutType (obsidianType : String) : String :=
  let t := toLowerStr obsidianType
  if t = "note" then "note"
  else if t = "info" then "info"
  else if t = "tip" then "tip"
  else if t = "success" then "success"
  else if t = "question" then "question"
  else if t = "warning" then "warning"
  else if t = "failure" then "error"
  else if t = "danger" then "warning"
  else if t = "bug" then "bug"
  else if t = "example" then "example"
  else if t = "quote" then "quote"
  else "note"

/-- Spec-side first-occurrence index of a pattern in a char list. -/
def firstOccIdx (pat cs : List Char) : Option Nat :=
  (List.range (cs.length + 1)).find? fun i => listPref pat (cs.drop i)

/-- Spec-side single first-occurrence replacement, formulated by splitting
at the first occurrence index (independently of `replaceFirstL`). -/
def replaceFirstSpecL (pat rep cs : List Char) : List Char :=
  match firstOccIdx pat cs with
  | Option.none => cs
  | Option.some i => cs.take i ++ rep ++ cs.drop (i + pat.length)

/-- Spec-side date formatter: "substitutes the first occurrence of each
recognized token, in the order YYYY, MM, DD, HH, mm, ss, with the
corresponding numeric field, MM/DD/HH/mm/ss zero-padded to 2 digits and
YYYY rendered unpadded". -/
def formatDateSpec (dateFormat : String) (d : JsDate) : String :=
  let r := fun (s : String) (pat rep : String) =>
    (⟨replaceFirstSpecL pat.data rep.data s.data⟩ : String)
  r (r (r (r (r (r dateFormat "YYYY" (toString d.fullYear))
        "MM" (padStart2 (toString (d.monthIdx + 1))))
      "DD" (padStart2 (toString d.dayOfMonth)))
    "HH" (padStart2 (toString d.hours)))
  "mm" (padStart2 (toString d.minutes)))
  "ss" (padStart2 (toString d.seconds))

/-- Spec-side tag normalisation: drop the first `#` character, if any. -/
def eraseFirstHashL : List Char → List Char
  | [] => []
  | c :: cs => if c = '#' then cs else c :: eraseFirstHashL cs

theorem firstOccIdx_cons (pat : List Char) (c : Char) (cs : List Char) :
    firstOccIdx pat (c :: cs) =
      if listPref pat (c :: cs) then Option.some 0
      else (firstOccIdx pat cs).map (· + 1) := by
  unfold firstOccIdx
  by_cases h : listPref pat (c :: cs)
  · simp [List.range_succ_eq_map, List.find?_cons, h]
  · simp only [List.length_cons, List.range_succ_eq_map, List.find?_cons,
      List.drop_zero, h, Bool.false_eq_true, if_false]
    rw [List.find?_map]
    rfl

theorem replaceFirstL_eq_spec (pat rep cs : List Char) :
    replaceFirstL pat rep cs = replaceFirstSpecL pat rep cs := by
  induction cs with
  | nil =>
      have h1 : List.range 1 = [0] := rfl
      cases pat with
      | nil =>
          simp [replaceFirstL, replaceFirstSpecL, firstOccIdx, listPref, h1]
      | cons p ps =>
          simp [replaceFirstL, replaceFirstSpecL, firstOccIdx, listPref, h1]
  | cons c cs ih =>
      rw [replaceFirstL, replaceFirstSpecL, firstOccIdx_cons]
      by_cases h : listPref pat (c :: cs)
      · simp [h]
      · simp only [h, Bool.false_eq_true, if_false]
        rw [ih, replaceFirstSpecL]
        cases hf : firstOccIdx pat cs with
        | none => simp
        | some i =>
            show c :: (cs.take i ++ rep ++ cs.drop (i + pat.length)) =
              (c :: cs).take (i + 1) ++ rep ++ (c :: cs).drop (i + 1 + pat.length)
            rw [List.take_succ_cons, Nat.add_right_comm, List.drop_succ_cons]
            simp

theorem replaceFirstL_hash (cs : List Char) :
    replaceFirstL ['#'] [] cs = eraseFirstHashL cs := by
  induction cs with
  | nil => rfl
  | cons c cs ih =>
      rw [replaceFirstL, eraseFirstHashL]
      by_cases h : c = '#'
      · subst h; simp [listPref]
      · simp only [listPref, List.drop]
        have : (('#' : Char) = c) = False := by
          simp [eq_comm, h]
        simp [this, ih, h]

theorem firstOccIdx_none_id (pat rep cs : List Char)
    (h : firstOccIdx pat cs = Option.none) :
    replaceFirstSpecL pat rep cs = cs := by
  simp [replaceFirstSpecL, h]

/-- C2 — the claim as stated is false on the code: `formatDate` replaces
only the *first* occurrence of each token (pattern `"MM-MM"` keeps a
literal `MM`), and the year is not zero-padded to 4 digits (year 507
renders as `"507"`). -/
theorem formatDate_not_every_occurrence :
    formatDate "MM-MM" ⟨2024, 6, 5, 4, 3, 2⟩ = "07-MM" ∧
    formatDate "MM-MM" ⟨2024, 6, 5, 4, 3, 2⟩ ≠ "07-07" ∧
    formatDate "YYYY" ⟨507, 0, 1, 0, 0, 0⟩ = "507" ∧
    formatDate "YYYY" ⟨507, 0, 1, 0, 0, 0⟩ ≠ "0507" := by
  refine ⟨by decide, by decide, by decide, by decide⟩

/-- C2 (amended) — for every timestamp's local fields and *every* pattern,
`formatDate` equals the spec-side formatter that substitutes the *first*
occurrence of each recognized token (in the order YYYY, MM, DD, HH, mm,
ss; each occurrence located independently by its first-occurrence index)
with the corresponding numeric field, MM/DD/HH/mm/ss zero-padded to 2
digits and YYYY unpadded; tokens absent from the pattern are ignored, and
when no recognized token occurs the pattern passes through verbatim. -/
theorem formatDate_first_occurrence (d : JsDate) (fmt : String) :
    formatDate fmt d = formatDateSpec fmt d ∧
    ((∀ tok ∈ (["YYYY", "MM", "DD", "HH", "mm", "ss"] : List String),
        firstOccIdx (String.data tok) fmt.data = Option.none) →
      formatDate fmt d = fmt) := by
  have heq : ∀ f : String, formatDate f d = formatDateSpec f d := by
    intro f
    simp only [formatDate, formatDateSpec, jsReplaceFirst, replaceFirstL_eq_spec]
  refine ⟨heq fmt, ?_⟩
  intro habsent
  rw [heq fmt]
  simp only [formatDateSpec]
  rw [firstOccIdx_none_id _ _ _ (habsent "YYYY" (by simp))]
  rw [firstOccIdx_none_id _ _ _ (habsent "MM" (by simp))]
  rw [firstOccIdx_none_id _ _ _ (habsent "DD" (by simp))]
  rw [firstOccIdx_none_id _ _ _ (habsent "HH" (by simp))]
  rw [firstOccIdx_none_id _ _ _ (habsent "mm" (by simp))]
  rw [firstOccIdx_none_id _ _ _ (habsent "ss" (by simp))]

/-- Witness for the amended C2 theorem: the default token-bearing pattern
`YYYY-MM-DD` (first-occurrence substitution, evaluated on both sides) and
a token-free pattern passing through verbatim. -/
theorem formatDate_first_occurrence_witness :
    formatDate "YYYY-MM-DD" ⟨2024, 6, 5, 4, 3, 2⟩ =
      formatDateSpec "YYYY-MM-DD" ⟨2024, 6, 5, 4, 3, 2⟩ ∧
    formatDate "YYYY-MM-DD" ⟨2024, 6, 5, 4, 3, 2⟩ = "2024-07-05" ∧
    formatDate "MM-MM" ⟨2024, 6, 5, 4, 3, 2⟩ =
      formatDateSpec "MM-MM" ⟨2024, 6, 5, 4, 3, 2⟩ ∧
    formatDate "at %H" ⟨2024, 6, 5, 4, 3, 2⟩ = "at %H" :=
  ⟨(formatDate_first_occurrence ⟨2024, 6, 5, 4, 3, 2⟩ "YYYY-MM-DD").1,
   by decide,
   (formatDate_first_occurrence ⟨2024, 6, 5, 4, 3, 2⟩ "MM-MM").1,
   (formatDate_first_occurrence ⟨2024, 6, 5, 4, 3, 2⟩ "at %H").2 (by decide)⟩

/-- C3 — the claim as stated is false on the code: `getFileTags` performs
no deduplication (tags `["a","a","#b"]` yield `["a","a","b"]`, not the set
`{a,b}`), and only the first `#` is removed (`"##a"` keeps a leading
`#`). -/
theorem getFileTags_not_deduplicated :
    getFileTags ["a", "a", "#b"] = ["a", "a", "b"] ∧
    ¬ (getFileTags ["a", "a", "#b"]).Nodup ∧
    getFileTags ["##a"] = ["#a"] := by
  refine ⟨by decide, by decide, by decide⟩

/-- C3 (amended) — for every metadata view (tag sequence delivered by the
host), the Tag Collector returns the same sequence with the first `#`
character of each entry removed, preserving order and multiplicity: it
performs no deduplication of its own. -/
theorem getFileTags_strips_first_hash (allTags : List String) :
    getFileTags allTags = allTags.map (fun t => (⟨eraseFirstHashL t.data⟩ : String)) ∧
    (getFileTags allTags).length = allTags.length := by
  constructor
  · unfold getFileTags
    refine List.map_congr_left ?_
    intro t _
    show jsReplaceFirst t "#" "" = _
    unfold jsReplaceFirst
    rw [show ("#" : String).data = ['#'] from rfl, show ("" : String).data = [] from rfl,
      replaceFirstL_hash]
  · simp [getFileTags]

/-- Split a char list at newline characters (the semantics of JS
`String.prototype.split('\n')`: a trailing newline yields a final empty
segment). -/
def splitNl : List Char → List (List Char)
  | [] => [[]]
  | c :: cs =>
      if c = '\n' then [] :: splitNl cs
      else
        match splitNl cs with
        | [] => [[c]]
        | h :: t => (c :: h) :: t

/-- Join char-list lines with newlines (JS `Array.prototype.join('\n')`). -/
def joinNlL : List (List Char) → List Char
  | [] => []
  | [l] => l
  | l :: l' :: rest => l ++ '\n' :: joinNlL (l' :: rest)

/-- Join string lines with newlines (JS `Array.prototype.join('\n')`). -/
def joinNl (ls : List String) : String := ⟨joinNlL (ls.map String.data)⟩

/-- Split at the first occurrence of `sep`, returning the parts before and
after it (the semantics of a lazy `[\s\S]*?` up to a literal). -/
def splitFirstInfix (sep : List Char) : List Char → Option (List Char × List Char)
  | [] => if listPref sep [] then Option.some ([], []) else Option.none
  | c :: cs =>
      if listPref sep (c :: cs) then Option.some ([], (c :: cs).drop sep.length)
      else
        match splitFirstInfix sep cs with
        | Option.some (a, b) => Option.some (c :: a, b)
        | Option.none => Option.none

/-- Leading-frontmatter detection (src/main.ts:97-101): the anchored match
`/^---\n[\s\S]*?\n---\n/` succeeds iff the text starts with `---\n` and a
`\n---\n` follows; laziness makes the inner part end at the *first* such
delimiter.  Returns the inner part and the remaining main content. -/
def fmSplit (content : String) : Option (String × String) :=
  if listPref "---\n".data content.data then
    match splitFirstInfix "\n---\n".data (content.data.drop 4) with
    | Option.some (x, rest) => Option.some (⟨x⟩, ⟨rest⟩)
    | Option.none => Option.none
  else Option.none

/-- Line filter of the frontmatter merge (src/main.ts:125): keep a line iff
it does not start with `tags:` and its trimmed form does not start with
`-`. -/
def frontmatterKeep (l : List Char) : Bool :=
  !(listPref "tags:".data l) && !(listPref "-".data (jsTrimL l))

/-- Computed frontmatter keys (src/main.ts:104-118): quoted title, then the
optional date line, then the optional tag list. -/
def computedKeys (settings : ObsidianToQuartoSettings) (title dateStr : String)
    (fileTags : List String) : String :=
  let nf := "---\ntitle: \"" ++ title ++ "\"\n"
  let nf :=
    if settings.dateOption = DateOption.none then nf
    else nf ++ "date: \"" ++ dateStr ++ "\"\n"
  if settings.importTags && !fileTags.isEmpty then
    nf ++ "tags:\n" ++ joinNl (fileTags.map fun t => "  - " ++ t) ++ "\n"
  else nf

/-- Lines of the original frontmatter body kept by the merge
(src/main.ts:120-127); the slice `frontmatter.slice(4, -4)` equals the
inner part plus a trailing newline. -/
def existingLinesKept (x : String) : List (List Char) :=
  (splitNl (x.data ++ ['\n'])).filter frontmatterKeep

/-- The merged frontmatter block (src/main.ts:104-129). -/
def newFrontmatter (settings : ObsidianToQuartoSettings) (title dateStr : String)
    (fileTags : List String) (fmInner : Option String) : String :=
  let nf := computedKeys settings title dateStr fileTags
  let nf :=
    match fmInner with
    | Option.some x => nf ++ (⟨joinNlL (existingLinesKept x)⟩ : String) ++ "\n"
    | Option.none => nf
  nf ++ "---\n\n"

/-- Spec-side carry-over filter for C7: a line is carried iff its key (the
segment before the first colon, when a colon is present) is not `tags` and
its first non-whitespace character is not a list marker `-`. -/
def specKeepLine (l : List Char) : Bool :=
  !(decide (':' ∈ l) && decide (l.takeWhile (· ≠ ':') = "tags".data)) &&
  !(decide ((l.dropWhile jsSpace).head? = Option.some '-'))

theorem splitNl_ne_nil (cs : List Char) : splitNl cs ≠ [] := by
  induction cs with
  | nil => simp [splitNl]
  | cons c cs ih =>
      rw [splitNl]
      by_cases h : c = '\n'
      · simp [h]
      · simp only [h, if_false]
        cases hs : splitNl cs <;> simp

theorem splitNl_append_newline (xs : List Char) :
    splitNl (xs ++ ['\n']) = splitNl xs ++ [[]] := by
  induction xs with
  | nil => rfl
  | cons c cs ih =>
      by_cases h : c = '\n'
      · subst h
        show splitNl ('\n' :: (cs ++ ['\n'])) = splitNl ('\n' :: cs) ++ [[]]
        simp only [splitNl, if_pos rfl, ih]
        rfl
      · show splitNl (c :: (cs ++ ['\n'])) = splitNl (c :: cs) ++ [[]]
        simp only [splitNl, h, if_false]
        rw [ih]
        cases hs : splitNl cs with
        | nil => exact absurd hs (splitNl_ne_nil cs)
        | cons h t => simp

theorem splitNl_cons_of_no_newline (xs ys : List Char) (h : '\n' ∉ xs) :
    splitNl (xs ++ '\n' :: ys) = xs :: splitNl ys := by
  induction xs with
  | nil => simp [splitNl]
  | cons c cs ih =>
      have hc : c ≠ '\n' := fun hc => h (hc ▸ List.mem_cons_self c cs)
      have hcs : '\n' ∉ cs := fun hm => h (List.mem_cons_of_mem c hm)
      show splitNl (c :: (cs ++ '\n' :: ys)) = (c :: cs) :: splitNl ys
      simp only [splitNl, hc, if_false]
      rw [ih hcs]

theorem dropWhile_head_not (p : Char → Bool) (l : List Char) :
    ∀ c cs, l.dropWhile p = c :: cs → p c = false := by
  induction l with
  | nil => intro c cs h; simp [List.dropWhile] at h
  | cons a l ih =>
      intro c cs h
      cases hpa : p a with
      | true =>
          rw [List.dropWhile_cons_of_pos hpa] at h
          exact ih c cs h
      | false =>
          rw [List.dropWhile_cons_of_neg (by simp [hpa])] at h
          injection h with h1 h2
          subst h1
          exact hpa

theorem dropWhile_append_singleton (p : Char → Bool) (d : Char) (hd : p d = false)
    (xs : List Char) :
    (xs ++ [d]).dropWhile p = xs.dropWhile p ++ [d] := by
  induction xs with
  | nil => simp [List.dropWhile, hd]
  | cons a xs ih =>
      by_cases hp : p a
      · simp [List.dropWhile, hp, ih]
      · simp [List.dropWhile, hp]

theorem strData_append (a b : String) : (a ++ b).data = a.data ++ b.data := by
  cases a; cases b; rfl

theorem strExt {a b : String} (h : a.data = b.data) : a = b := by
  cases a; cases b; exact congrArg String.mk h

theorem jsTrimL_head? (l : List Char) :
    (jsTrimL l).head? = (l.dropWhile jsSpace).head? := by
  unfold jsTrimL
  cases hm : l.dropWhile jsSpace with
  | nil => simp
  | cons d rest =>
      have hd : jsSpace d = false := dropWhile_head_not jsSpace l d rest hm
      rw [show (d :: rest).reverse = rest.reverse ++ [d] by simp]
      rw [dropWhile_append_singleton jsSpace d hd rest.reverse]
      simp

theorem listPref_iff_take (p l : List Char) :
    listPref p l = true ↔ l.take p.length = p := by
  induction p generalizing l with
  | nil => simp [listPref]
  | cons a p ih =>
      cases l with
      | nil => simp [listPref]
      | cons c cs =>
          simp only [listPref, List.length_cons, List.take_succ_cons,
            Bool.and_eq_true, decide_eq_true_eq, List.cons.injEq]
          constructor
          · rintro ⟨h1, h2⟩; exact ⟨h1.symm, (ih cs).mp h2⟩
          · rintro ⟨h1, h2⟩; exact ⟨h1.symm, (ih cs).mpr h2⟩

theorem tagsPref_iff (l : List Char) :
    listPref "tags:".data l = true ↔
      (':' ∈ l ∧ l.takeWhile (· ≠ ':') = "tags".data) := by
  rw [listPref_iff_take]
  constructor
  · intro h
    have h5 : l.take 5 = ['t', 'a', 'g', 's', ':'] := h
    have hl : l = ['t', 'a', 'g', 's', ':'] ++ l.drop 5 := by
      conv_lhs => rw [← List.take_append_drop 5 l]
      rw [h5]
    rw [hl]
    constructor
    · simp
    · rfl
  · rintro ⟨hmem, htw⟩
    have hl : l.takeWhile (· ≠ ':') ++ l.dropWhile (· ≠ ':') = l :=
      List.takeWhile_append_dropWhile _ _
    cases hdw : l.dropWhile (· ≠ ':') with
    | nil =>
        exfalso
        rw [hdw, List.append_nil, htw] at hl
        rw [← hl] at hmem
        simp at hmem
    | cons d rest =>
        have hd : (decide (d ≠ ':')) = false := dropWhile_head_not _ l d rest hdw
        have hd' : d = ':' := by simpa using hd
        subst hd'
        rw [← hl, htw, hdw]
        rfl

theorem frontmatterKeep_eq_spec (l : List Char) :
    frontmatterKeep l = specKeepLine l := by
  unfold frontmatterKeep specKeepLine
  have h1 : listPref "tags:".data l =
      (decide (':' ∈ l) && decide (l.takeWhile (· ≠ ':') = "tags".data)) := by
    rw [Bool.eq_iff_iff]
    simp only [Bool.and_eq_true, decide_eq_true_eq]
    exact tagsPref_iff l
  have h2 : listPref "-".data (jsTrimL l) =
      decide ((l.dropWhile jsSpace).head? = Option.some '-') := by
    rw [Bool.eq_iff_iff]
    simp only [decide_eq_true_eq]
    rw [← jsTrimL_head?]
    cases ht : jsTrimL l with
    | nil =>
        constructor
        · intro hcon; cases hcon
        · intro hcon; cases hcon
    | cons d rest =>
        show listPref ['-'] (d :: rest) = true ↔ (d :: rest).head? = Option.some '-'
        simp [listPref, eq_comm]
  rw [h1, h2]

theorem frontmatterKeep_nil : frontmatterKeep [] = true := by decide

/-- C7 — for every source frontmatter body and settings, the merged block
consists of the computed keys followed by exactly the original lines whose
key is not `tags` and which do not start with a list marker, carried over
verbatim (plus the slice artifact of one empty final segment), closed by
the `---` delimiter; consequently no `tags` key or list entry from the
source survives, and the computed keys precede every carried line. -/
theorem newFrontmatter_carries_exactly_non_tags_lines
    (settings : ObsidianToQuartoSettings) (title dateStr : String)
    (fileTags : List String) (x : String) :
    newFrontmatter settings title dateStr fileTags (Option.some x) =
      computedKeys settings title dateStr fileTags ++
        (⟨joinNlL (((splitNl x.data).filter specKeepLine) ++ [[]])⟩ : String) ++
        "\n---\n\n" ∧
    ∀ l ∈ (splitNl x.data).filter specKeepLine,
      ¬(':' ∈ l ∧ l.takeWhile (· ≠ ':') = "tags".data) ∧
      ¬((l.dropWhile jsSpace).head? = Option.some '-') := by
  constructor
  · apply strExt
    show (computedKeys settings title dateStr fileTags ++
        (⟨joinNlL (existingLinesKept x)⟩ : String) ++ "\n" ++ "---\n\n").data = _
    unfold existingLinesKept
    rw [splitNl_append_newline, List.filter_append,
      List.filter_congr (fun l _ => frontmatterKeep_eq_spec l),
      show List.filter frontmatterKeep [[]] = [[]] from rfl]
    simp only [strData_append]
    simp [List.append_assoc]
  · intro l hl
    have := (List.mem_filter.mp hl).2
    unfold specKeepLine at this
    simp only [Bool.and_eq_true, Bool.not_eq_eq_eq_not, Bool.not_true,
      Bool.and_eq_false_iff, decide_eq_false_iff_not, decide_eq_true_eq] at this
    constructor
    · rcases this.1 with h | h
      · rintro ⟨hm, _⟩; exact absurd (decide_eq_true hm) (by simpa using h)
      · rintro ⟨_, ht⟩; exact absurd (decide_eq_true ht) (by simpa using h)
    · have h := this.2
      simpa using h

/-- Lazy `.+?` of the scope group `((?:#|\^).+?)?` followed by the closing
`\]\]`: `acc` holds the reference text (marker included) read so far, the
shortest extension whose remainder starts with `]]` wins, and `.` does not
match a newline. -/
def tryEmbedRef (acc : List Char) : List Char → Option (List Char × List Char)
  | [] => Option.none
  | c :: cs =>
      if c = '\n' then Option.none
      else if listPref [']', ']'] cs then Option.some (acc ++ [c], cs.drop 2)
      else tryEmbedRef (acc ++ [c]) cs

/-- Body of an embed token after the opening `![[`, following the
backtracking order of `/!\[\[([^\]]+?)((?:#|\^).+?)?\]\]/`: the lazy note
name grows one character at a time; at each length the optional scope
group is tried first (marker `#` or `^`, lazy non-newline run, `]]`), then
the bare closing `]]`, and only then is the name extended (never past a
`]`).  Returns (noteName, optional scope reference, rest after token). -/
def tryEmbedBody (name : List Char) :
    List Char → Option (List Char × Option (List Char) × List Char)
  | [] => Option.none
  | c :: cs =>
      match (if c = '#' || c = '^' then tryEmbedRef [c] cs else Option.none) with
      | Option.some (ref, rest) => Option.some (name, Option.some ref, rest)
      | Option.none =>
          if c = ']' then
            if listPref [']'] cs then Option.some (name, Option.none, cs.tail)
            else Option.none
          else tryEmbedBody (name ++ [c]) cs

/-- Embed-token match attempt at the characters following `![[`
(the note name needs at least one character, which may not be `]`). -/
def matchEmbedToken : List Char → Option (List Char × Option (List Char) × List Char)
  | [] => Option.none
  | c :: cs => if c = ']' then Option.none else tryEmbedBody [c] cs

/-- One left-to-right global pass of the embed regex collecting the
matched `(noteName, reference)` pairs in scan order (the first `replace`
call of `convertEmbeddedNotes`, src/main.ts:202-205).  The fuel argument
only bounds the recursion; every step consumes at least one character, so
`length + 1` fuel never runs out. -/
def scanEmbedsF : Nat → List Char → List (List Char × Option (List Char))
  | 0, _ => []
  | _ + 1, [] => []
  | fuel + 1, c :: cs =>
      if c = '!' ∧ listPref ['[', '['] cs then
        match matchEmbedToken (cs.drop 2) with
        | Option.some (nm, rf, rest) => (nm, rf) :: scanEmbedsF fuel rest
        | Option.none => scanEmbedsF fuel cs
      else scanEmbedsF fuel cs

/-- The second global pass of `convertEmbeddedNotes` (src/main.ts:209):
each match is replaced by the next element popped off the resolved list
(`embeddedContents.shift() || ''`). -/
def replaceEmbedsF : Nat → List Char → List String → List Char
  | 0, cs, _ => cs
  | _ + 1, [], _ => []
  | fuel + 1, c :: cs, rs =>
      if c = '!' ∧ listPref ['[', '['] cs then
        match matchEmbedToken (cs.drop 2) with
        | Option.some (_, _, rest) =>
            (rs.headD "").data ++ replaceEmbedsF fuel rest rs.tail
        | Option.none => c :: replaceEmbedsF fuel cs rs
      else c :: replaceEmbedsF fuel cs rs

/-- Spec-side single-pass substitution for C5: each embed token is
replaced, in place, by the resolution of that very token. -/
def substEmbedsDirectF (resolve : String → Option String → String) :
    Nat → List Char → List Char
  | 0, cs => cs
  | _ + 1, [] => []
  | fuel + 1, c :: cs =>
      if c = '!' ∧ listPref ['[', '['] cs then
        match matchEmbedToken (cs.drop 2) with
        | Option.some (nm, rf, rest) =>
            (resolve ⟨nm⟩ (rf.map fun r => (⟨r⟩ : String))).data ++
              substEmbedsDirectF resolve fuel rest
        | Option.none => c :: substEmbedsDirectF resolve fuel cs
      else c :: substEmbedsDirectF resolve fuel cs

/-- Number of leading `#` characters. -/
def hashRun (cs : List Char) : Nat := (cs.takeWhile (· = '#')).length

/-- Number of leading JS whitespace characters (the reach of a greedy
`\s*`). -/
def wsRun (cs : List Char) : Nat := (cs.takeWhile jsSpace).length

/-- Case-insensitive literal prefix match (the `i` regex flag on the
escaped heading text). -/
def ciPref : List Char → List Char → Bool
  | [], _ => true
  | _ :: _, [] => false
  | p :: ps, c :: cs => (p.toLower = c.toLower) && ciPref ps cs

/-- A `$` position under the `m` flag: end of input or just before a
newline. -/
def dollarAt (cs : List Char) : Bool :=
  cs.isEmpty || cs.head? = Option.some '\n'

/-- Candidate values `n, n-1, …, 0` in the order a greedy quantifier
backtracks through them. -/
def descRange (n : Nat) : List Nat := (List.range (n + 1)).reverse

/-- First successful alternative, in order. -/
def findFirstSome {α β : Type} (f : α → Option β) : List α → Option β
  | [] => Option.none
  | a :: as =>
      match f a with
      | Option.some b => Option.some b
      | Option.none => findFirstSome f as

/-- Match of `^(#+)\s*NAME\s*$` (flags `im`) at a fixed position:
the greedy `#+` and the two greedy `\s*` backtrack from their maximal
runs; on success returns the captured header level and the match
length.  The `\s*` runs may cross newlines, exactly as in JS. -/
def headerMatchAt (name : List Char) (cs : List Char) : Option (Nat × Nat) :=
  findFirstSome
    (fun k =>
      if k = 0 then Option.none
      else
        let afterHash := cs.drop k
        findFirstSome
          (fun a =>
            if ciPref name (afterHash.drop a) then
              let afterName := afterHash.drop (a + name.length)
              (findFirstSome
                  (fun b =>
                    if dollarAt (afterName.drop b) then Option.some b else Option.none)
                  (descRange (wsRun afterName))).map
                (fun b => (k, k + a + name.length + b))
            else Option.none)
          (descRange (wsRun afterHash)))
    (descRange (hashRun cs))

/-- Generic leftmost `^`-anchored scan shared by the regex searches: try
the position test at offset 0 and after each newline, in order, returning
the absolute index of the first success together with the test's value. -/
def lineScanO {beta : Type} (test : List Char → Option beta) :
    List Char → Nat → Bool → Option (Nat × beta)
  | [], _, _ => Option.none
  | c :: cs, idx, atStart =>
      if atStart then
        match test (c :: cs) with
        | Option.some b => Option.some (idx, b)
        | Option.none => lineScanO test cs (idx + 1) (c = '\n')
      else lineScanO test cs (idx + 1) (c = '\n')

/-- Leftmost match of the header regex: try every `^`-anchored position
(offset 0 and each position after a newline) in order; returns
(absolute index, captured level, match length). -/
def findHeaderGo (name : List Char) (cs : List Char) (idx : Nat) (atStart : Bool) :
    Option (Nat × Nat × Nat) :=
  lineScanO (headerMatchAt name) cs idx atStart

/-- Match of `^#{1,k}\s` (flags `im`) at a fixed position: only the full
leading hash run can be followed by a non-hash character, so the
condition is a hash run of length 1..k followed by a whitespace
character (possibly the line's own newline). -/
def nextHeaderHere (k : Nat) (cs : List Char) : Bool :=
  let r := hashRun cs
  decide (1 ≤ r) && decide (r ≤ k) &&
    (match cs.drop r with
     | c :: _ => jsSpace c
     | [] => false)

/-- Leftmost match of `^#{1,k}\s` over the remaining content
(src/main.ts:230-233); offset 0 of the searched string counts as a `^`
position, as in JS. -/
def nextHeaderGo (k : Nat) (cs : List Char) (idx : Nat) (atStart : Bool) :
    Option Nat :=
  (lineScanO (fun s => if nextHeaderHere k s then Option.some () else Option.none)
    cs idx atStart).map Prod.fst

/-- A `[a-zA-Z0-9-]` block-id character. -/
def isBlockIdChar (c : Char) : Bool := c.isAlpha || c.isDigit || c = '-'

/-- Tail `\^id\s*$` of the block regex at a fixed position. -/
def caretIdDollar (id : List Char) (cs : List Char) : Bool :=
  match cs with
  | '^' :: rest =>
      listPref id rest &&
        (let after := rest.drop id.length
         (descRange (wsRun after)).any fun b => dollarAt (after.drop b))
  | _ => false

/-- Tail `\s*(?:{{[^}]*}})?\s*\^id\s*$` of the block regex at a fixed
position, optional group tried first, greedy runs backtracking. -/
def blockTail (id : List Char) (cs : List Char) : Bool :=
  (descRange (wsRun cs)).any fun a =>
    let cs1 := cs.drop a
    (match cs1 with
     | '{' :: '{' :: rest =>
         let inner := rest.takeWhile (· ≠ '}')
         let rest2 := rest.drop inner.length
         listPref ['}', '}'] rest2 &&
           (let cs2 := rest2.drop 2
            (descRange (wsRun cs2)).any fun a2 => caretIdDollar id (cs2.drop a2))
     | _ => false)
    || caretIdDollar id cs1

/-- Match of the block-reference line pattern
`([^\n]+\s*(?:{{[^}]*}})?\s*\^id\s*$)` at a fixed position (the greedy
`[^\n]+` backtracks from the full line). -/
def blockHereMatch (id : List Char) (cs : List Char) : Bool :=
  (descRange ((cs.takeWhile (· ≠ '\n')).length)).any fun t =>
    decide (1 ≤ t) && blockTail id (cs.drop t)

/-- Leftmost match of the block regex `(^|\n)(...)` (flag `m`,
src/main.ts:244-248): candidate positions are the line starts, and the
returned index is the start of the line (`match.index + group1.length`). -/
def findBlockGo (id : List Char) (cs : List Char) (idx : Nat) (atStart : Bool) :
    Option Nat :=
  (lineScanO (fun s => if blockHereMatch id s then Option.some () else Option.none)
    cs idx atStart).map Prod.fst

/-- Final cleanup `content.replace(/\s*\^[a-zA-Z0-9-]+\s*$/, '')`
(src/main.ts:262): a trailing block-id marker, with surrounding
whitespace, is removed; the leading `\s*` is maximal because the regex
engine picks the leftmost match start. -/
def stripTrailingBlockRef (cs : List Char) : List Char :=
  let rev := cs.reverse
  let rev1 := rev.dropWhile jsSpace
  let idRun := rev1.takeWhile isBlockIdChar
  match rev1.drop idRun.length with
  | '^' :: rest =>
      if idRun.isEmpty then cs else (rest.dropWhile jsSpace).reverse
  | _ => cs

/-- Scope-reference processing of `getEmbeddedNoteContent`
(src/main.ts:218-259): header references extract from the matched header
line up to the next header of level ≤ the captured level (or to the end),
block references extract from the matched line start to the next blank
line, and failures return the inline warning text. -/
def resolveReference (noteName : String) (content : List Char) :
    Option String → Except String (List Char)
  | Option.none => Except.ok content
  | Option.some r =>
      match r.data with
      | '#' :: hn =>
          match findHeaderGo hn content 0 true with
          | Option.some (hIdx, k, mLen) =>
              let remaining := content.drop (hIdx + mLen)
              let nextIdx :=
                match nextHeaderGo k remaining 0 true with
                | Option.some i => i + mLen
                | Option.none => content.length
              Except.ok ((content.drop hIdx).take nextIdx)
          | Option.none =>
              Except.error ("\n\n> [!warning] Header not found: " ++ (⟨hn⟩ : String) ++
                " in " ++ noteName ++ "\n\n")
      | '^' :: bid =>
          match findBlockGo bid content 0 true with
          | Option.some bIdx =>
              match firstOccIdx ['\n', '\n'] (content.drop bIdx) with
              | Option.some e => Except.ok (jsTrimL ((content.drop bIdx).take e))
              | Option.none => Except.ok (jsTrimL (content.drop bIdx))
          | Option.none =>
              Except.error ("\n\n> [!warning] Block not found: " ++ (⟨bid⟩ : String) ++
                " in " ++ noteName ++ "\n\n")
      | _ => Except.ok content

/-- `getEmbeddedNoteContent` (src/main.ts:212-269).  The composition of
the host's `getFirstLinkpathDest` and `vault.read` is the external lookup
parameter `vault`; `none` is the not-found case. -/
def getEmbeddedNoteContent (vault : String → Option String) (noteName : String)
    (reference : Option String) : String :=
  match vault noteName with
  | Option.none =>
      "\n\n> [!warning] Embedded note not found: " ++ noteName ++
        reference.getD "" ++ "\n\n"
  | Option.some noteContent =>
      match resolveReference noteName noteContent.data reference with
      | Except.error w => w
      | Except.ok c =>
          "\n\n" ++ (⟨jsTrimL (stripTrailingBlockRef c)⟩ : String) ++ "\n\n"

/-- `convertEmbeddedNotes` with the per-token resolver abstracted
(src/main.ts:198-210): first pass scans all tokens, the resolver is
applied to each (order preserved by `Promise.all`), the second pass
replaces each match with the next resolved content. -/
def convertEmbeddedNotesWith (resolve : String → Option String → String)
    (content : String) : String :=
  let rs := (scanEmbedsF (content.data.length + 1) content.data).map
    fun t => resolve ⟨t.1⟩ (t.2.map fun r => (⟨r⟩ : String))
  ⟨replaceEmbedsF (content.data.length + 1) content.data rs⟩

/-- `convertEmbeddedNotes` (src/main.ts:198-210) with the source's
resolver. -/
def convertEmbeddedNotes (vault : String → Option String) (content : String) : String :=
  convertEmbeddedNotesWith (getEmbeddedNoteContent vault) content

/-- Spec-side single-pass substitution, wrapped. -/
def substEmbedsDirect (resolve : String → Option String → String)
    (content : String) : String :=
  ⟨substEmbedsDirectF resolve (content.data.length + 1) content.data⟩

theorem replaceEmbeds_eq_substDirect (resolve : String → Option String → String) :
    ∀ (fuel : Nat) (cs : List Char),
      replaceEmbedsF fuel cs ((scanEmbedsF fuel cs).map
        fun t => resolve ⟨t.1⟩ (t.2.map fun r => (⟨r⟩ : String))) =
      substEmbedsDirectF resolve fuel cs := by
  intro fuel
  induction fuel with
  | zero => intro cs; rfl
  | succ fuel ih =>
      intro cs
      cases cs with
      | nil => rfl
      | cons c cs =>
          by_cases hb : c = '!' ∧ listPref ['[', '['] cs
          · simp only [replaceEmbedsF, scanEmbedsF, substEmbedsDirectF, if_pos hb]
            cases hm : matchEmbedToken (cs.drop 2) with
            | none => simp only [ih]
            | some v =>
                obtain ⟨nm, rf, rest⟩ := v
                simp only [List.map_cons, List.headD_cons, List.tail_cons, ih]
          · simp only [replaceEmbedsF, scanEmbedsF, substEmbedsDirectF, if_neg hb, ih]

/-- Substring test via the first-occurrence index. -/
def containsSub (pat cs : List Char) : Bool := (firstOccIdx pat cs).isSome

/-- C5 — for every input text and every resolution callback, the two-pass
substitution of `convertEmbeddedNotes` (scan all tokens, resolve them in
scan order, then replace each match with the next resolved content) equals
the direct in-place substitution in which the N-th token in scan order is
replaced by exactly the resolution of that N-th token. -/
theorem convertEmbeddedNotes_order_preserving
    (resolve : String → Option String → String) (content : String) :
    convertEmbeddedNotesWith resolve content = substEmbedsDirect resolve content := by
  unfold convertEmbeddedNotesWith substEmbedsDirect
  exact congrArg String.mk (replaceEmbeds_eq_substDirect resolve _ content.data)

/-- C6 — the claim's warning text is falsified by capitalisation: a failed
lookup of `Note` substitutes the block with message
`Embedded note not found: Note`, not `embedded note not found: Note`
(which does not even occur as a substring). -/
theorem embed_not_found_warning_capitalized :
    getEmbeddedNoteContent (fun _ => Option.none) "Note" Option.none =
      "\n\n> [!warning] Embedded note not found: Note\n\n" ∧
    getEmbeddedNoteContent (fun _ => Option.none) "Note" Option.none ≠
      "\n\n> [!warning] embedded note not found: Note\n\n" ∧
    containsSub "embedded note not found: Note".data
      (getEmbeddedNoteContent (fun _ => Option.none) "Note" Option.none).data = false := by
  refine ⟨by decide, by decide, by decide⟩

/-- C6 (amended) — for every embed token whose note name the lookup cannot
resolve, the resolver substitutes the inline warning block
`Embedded note not found: <noteName><scopeSuffix>` at that token's
position, and the conversion continues: for every input text the full
embed pass still replaces every token by its own resolution (warnings for
failed tokens, content for resolved ones) and never aborts. -/
theorem embed_not_found_degrades_gracefully (vault : String → Option String)
    (noteName : String) (ref : Option String) (content : String)
    (h : vault noteName = Option.none) :
    getEmbeddedNoteContent vault noteName ref =
      "\n\n> [!warning] Embedded note not found: " ++ noteName ++
        ref.getD "" ++ "\n\n" ∧
    convertEmbeddedNotes vault content =
      substEmbedsDirect (getEmbeddedNoteContent vault) content := by
  constructor
  · unfold getEmbeddedNoteContent
    rw [h]
  · unfold convertEmbeddedNotes convertEmbeddedNotesWith substEmbedsDirect
    exact congrArg String.mk
      (replaceEmbeds_eq_substDirect (getEmbeddedNoteContent vault) _ content.data)

/-- Witness for the amended C6 theorem: an empty vault, the token
`![[Note#Sec]]`, and a text containing it. -/
theorem embed_not_found_degrades_gracefully_witness :
    getEmbeddedNoteContent (fun _ => Option.none) "Note" (Option.some "#Sec") =
      "\n\n> [!warning] Embedded note not found: " ++ "Note" ++
        (Option.some "#Sec").getD "" ++ "\n\n" ∧
    convertEmbeddedNotes (fun _ => Option.none) "a ![[Note#Sec]] b" =
      substEmbedsDirect (getEmbeddedNoteContent fun _ => Option.none) "a ![[Note#Sec]] b" :=
  embed_not_found_degrades_gracefully (fun _ => Option.none) "Note"
    (Option.some "#Sec") "a ![[Note#Sec]] b" rfl

/-- `convertObsidianImages` (src/main.ts:88-91): one global pass of
`/!\[\[([^\]]+?)\]\]/g` rewriting `![[path]]` to `![](path)`; the lazy
inner group cannot contain `]`, so a match is a non-empty run of
non-`]` characters followed by `]]`. -/
def convertObsidianImagesF : Nat → List Char → List Char
  | 0, cs => cs
  | _ + 1, [] => []
  | fuel + 1, c :: cs =>
      if c = '!' ∧ listPref ['[', '['] cs then
        let inner := (cs.drop 2).takeWhile (· ≠ ']')
        if inner ≠ [] ∧ listPref [']', ']'] ((cs.drop 2).drop inner.length) then
          "![](".data ++ inner ++ [')'] ++
            convertObsidianImagesF fuel (((cs.drop 2).drop inner.length).drop 2)
        else c :: convertObsidianImagesF fuel cs
      else c :: convertObsidianImagesF fuel cs

/-- `convertObsidianImages` (src/main.ts:88-91). -/
def convertObsidianImages (content : String) : String :=
  ⟨convertObsidianImagesF (content.data.length + 1) content.data⟩

/-- Match test for `^(#+\s.*)` at a fixed position: a header break is a
leading hash run of length ≥ 1 followed by a whitespace character (which,
for a line consisting only of hashes, can be the newline itself, letting
the match run into the following line). -/
def headerBreakHere (cs : List Char) : Bool :=
  decide (1 ≤ hashRun cs) &&
    (match cs.drop (hashRun cs) with
     | c :: _ => jsSpace c
     | [] => false)

/-- Length of the `^(#+\s.*)` match at a matching position: hashes, one
whitespace character, then the remaining non-newline run. -/
def headerBreakLen (cs : List Char) : Nat :=
  hashRun cs + 1 + ((cs.drop (hashRun cs + 1)).takeWhile (· ≠ '\n')).length

/-- The header-spacing rewrite `replace(/^(#+\s.*)/gm, '\n$1')`
(src/main.ts:148): each `^`-anchored match is re-emitted with a newline
prepended and scanning continues after the match. -/
def addHeaderBreaksF : Nat → Bool → List Char → List Char
  | 0, _, cs => cs
  | _ + 1, _, [] => []
  | fuel + 1, atStart, c :: cs =>
      if atStart ∧ headerBreakHere (c :: cs) then
        '\n' :: (c :: cs).take (headerBreakLen (c :: cs)) ++
          addHeaderBreaksF fuel false ((c :: cs).drop (headerBreakLen (c :: cs)))
      else c :: addHeaderBreaksF fuel (c = '\n') cs

/-- The header-spacing rewrite (src/main.ts:148). -/
def addHeaderBreaks (s : String) : String :=
  ⟨addHeaderBreaksF (s.data.length + 1) true s.data⟩

/-- A `\w` word character. -/
def isWordChar (c : Char) : Bool := c.isAlpha || c.isDigit || c = '_'

/-- The greedy callout body `(?:>.*\n?)*`: maximal run of lines starting
with `>`; returns the consumed body and the rest. -/
def calloutBody : Nat → List Char → List Char × List Char
  | 0, cs => ([], cs)
  | fuel + 1, cs =>
      match cs with
      | '>' :: rest =>
          let line := rest.takeWhile (· ≠ '\n')
          match rest.drop line.length with
          | '\n' :: rest3 =>
              let p := calloutBody fuel rest3
              ('>' :: line ++ '\n' :: p.1, p.2)
          | _ => ('>' :: line, rest.drop line.length)
      | _ => ([], cs)

/-- Match of `> \[!(\w+)\](.*?)\n((?:>.*\n?)*)` at a fixed position
(src/main.ts:151-152); returns (type, title, body, rest). -/
def matchCalloutAt (fuel : Nat) (cs : List Char) :
    Option (List Char × List Char × List Char × List Char) :=
  if listPref "> [!".data cs then
    let afterBang := cs.drop 4
    let ty := afterBang.takeWhile isWordChar
    if ty ≠ [] ∧ listPref [']'] (afterBang.drop ty.length) then
      let afterTy := (afterBang.drop ty.length).drop 1
      let title := afterTy.takeWhile (· ≠ '\n')
      match afterTy.drop title.length with
      | '\n' :: rest =>
          let p := calloutBody fuel rest
          Option.some (ty, title, p.1, p.2)
      | _ => Option.none
    else Option.none
  else Option.none

/-- The body rewrite `content.replace(/^>/gm, '')`: drop one leading `>`
from every line. -/
def stripGtEachLine (cs : List Char) : List Char :=
  joinNlL ((splitNl cs).map fun l =>
    match l with
    | '>' :: r => r
    | _ => l)

/-- The replacement template of the callout rewrite (src/main.ts:153-156). -/
def calloutReplacement (ty title body : List Char) : List Char :=
  "::: \x7b.callout-".data ++ (mapCalloutType ⟨ty⟩).data ++ "\x7d\n".data ++
    (if jsTrimL title ≠ [] then "## ".data ++ jsTrimL title ++ ['\n'] else []) ++
    jsTrimL (stripGtEachLine body) ++ "\n:::\n\n".data

/-- The callout rewrite (src/main.ts:151-157): one global pass; matches
are replaced and scanning continues after the consumed text. -/
def convertCalloutsF : Nat → List Char → List Char
  | 0, cs => cs
  | _ + 1, [] => []
  | fuel + 1, c :: cs =>
      match matchCalloutAt (fuel + 1) (c :: cs) with
      | Option.some (ty, title, body, rest) =>
          calloutReplacement ty title body ++ convertCalloutsF fuel rest
      | Option.none => c :: convertCalloutsF fuel cs

/-- The callout rewrite (src/main.ts:151-157). -/
def convertCallouts (s : String) : String :=
  ⟨convertCalloutsF (s.data.length + 1) s.data⟩

/-- Leftmost match index of `/^\s*#/m` (src/main.ts:135): the earliest
`^`-anchored position from which a whitespace run (which may cross
newlines) reaches a `#`; since no whitespace character is `#`, this is a
position whose first non-whitespace successor is `#`. -/
def preHeaderTest (cs : List Char) : Bool :=
  (cs.dropWhile jsSpace).head? = Option.some '#'

def searchPreHeaderGo (cs : List Char) (idx : Nat) (atStart : Bool) : Option Nat :=
  (lineScanO (fun s => if preHeaderTest s then Option.some () else Option.none)
    cs idx atStart).map Prod.fst

/-- The body rewrites of `convertToQuarto` in source order
(src/main.ts:142-157): image syntax, then embed resolution, then header
spacing, then callouts. -/
def bodyPipeline (vault : String → Option String) (bodyIn : List Char) : List Char :=
  let b1 := convertObsidianImagesF (bodyIn.length + 1) bodyIn
  let b2 := (convertEmbeddedNotes vault ⟨b1⟩).data
  let b3 := addHeaderBreaksF (b2.length + 1) true b2
  convertCalloutsF (b3.length + 1) b3

/-- `convertToQuarto` (src/main.ts:93-161).  External inputs become
parameters: `basename` is `file.basename`; `fileDate` holds the local
calendar fields of the ctime/mtime (or fallback current time) delivered
by the stat collaborator inside `getFileDate`; `allTags` is the
`getAllTags(fileCache)` sequence consumed by `getFileTags`; `vault` is
the note-lookup/read collaborator used by `convertEmbeddedNotes`. -/
def convertToQuarto (settings : ObsidianToQuartoSettings) (basename : String)
    (fileDate : JsDate) (allTags : List String) (vault : String → Option String)
    (content : String) : String :=
  let fm := fmSplit content
  let mainContent :=
    match fm with
    | Option.some p => p.2
    | Option.none => content
  let nf := newFrontmatter settings basename (formatDate settings.dateFormat fileDate)
    (getFileTags allTags) (fm.map Prod.fst)
  let split := searchPreHeaderGo mainContent.data 0 true
  let preHeader : String :=
    match split with
    | Option.some i => jsTrim ⟨mainContent.data.take i⟩ ++ "\n\n"
    | Option.none => ""
  let bodyIn : List Char :=
    match split with
    | Option.some i => mainContent.data.drop i
    | Option.none => mainContent.data
  nf ++ preHeader ++ (⟨bodyPipeline vault bodyIn⟩ : String)

/-- The `mainContent` of `convertToQuarto` (src/main.ts:95-101): the input
with the leading frontmatter block (if any) split off; every later rewrite,
including the pre-header split, operates on this remainder. -/
def mainContentOf (content : String) : String :=
  match fmSplit content with
  | Option.some p => p.2
  | Option.none => content

/-- C1 — the pipeline applies the image-syntax rewrite *before* embed
resolution (src/main.ts:143 before :145), so the resolvable note embed
`![[Note]]` is consumed as an image link: the conversion of `![[Note]]`
with a vault resolving `Note` to `hello` yields an `![](Note)` image link
and the resolved content `hello` never appears in the output. -/
theorem images_rewrite_consumes_note_embeds :
    convertToQuarto DEFAULT_SETTINGS "T" ⟨2024, 0, 1, 0, 0, 0⟩ []
        (fun n => if n = "Note" then Option.some "hello" else Option.none)
        "![[Note]]" =
      "---\ntitle: \"T\"\n---\n\n![](Note)" ∧
    containsSub "hello".data
      (convertToQuarto DEFAULT_SETTINGS "T" ⟨2024, 0, 1, 0, 0, 0⟩ []
        (fun n => if n = "Note" then Option.some "hello" else Option.none)
        "![[Note]]").data = false ∧
    containsSub "![](Note)".data
      (convertToQuarto DEFAULT_SETTINGS "T" ⟨2024, 0, 1, 0, 0, 0⟩ []
        (fun n => if n = "Note" then Option.some "hello" else Option.none)
        "![[Note]]").data = true := by
  refine ⟨by decide, by decide, by decide⟩

/-- A line (newline-free) that matches `#+\s` within itself: hash run of
length ≥ 1 followed by a whitespace character on the same line. -/
def singleLineHdrB (l : List Char) : Bool :=
  decide (1 ≤ hashRun l) &&
    (match l.drop (hashRun l) with
     | c :: _ => jsSpace c
     | [] => false)

/-- A non-empty line consisting solely of `#` characters; on such a line
the `\s` of `^(#+\s.*)` can only match the line's own newline, making the
match run into the following line. -/
def bareHashB (l : List Char) : Bool :=
  !l.isEmpty && l.all (· = '#')

/-- Line-level description of one global pass of `^(#+\s.*)/gm → \n$1`:
a line matching within itself gets an empty line inserted before it; a
bare-hash line with a successor consumes that successor into its match
(so the successor is not scanned on its own); other lines pass through. -/
def hsLines : List (List Char) → List (List Char)
  | [] => []
  | [l] => if singleLineHdrB l then [[], l] else [l]
  | l :: l2 :: rest =>
      if singleLineHdrB l then [] :: l :: hsLines (l2 :: rest)
      else if bareHashB l then [] :: l :: l2 :: hsLines rest
      else l :: hsLines (l2 :: rest)

/-- Map each line to a block of lines and concatenate. -/
def linesExpand (f : List Char → List (List Char)) : List (List Char) → List (List Char)
  | [] => []
  | l :: ls => f l ++ linesExpand f ls

/-- Spec-side header-spacing rewrite for C9: exactly one blank line is
inserted immediately before every line beginning with one or more `#`
followed by whitespace, and nothing else changes. -/
def addHeaderBreaksSpec (s : String) : String :=
  ⟨joinNlL (linesExpand (fun l => if singleLineHdrB l then [[], l] else [l])
    (splitNl s.data))⟩

/-- Collapse each maximal run of blank lines to a single blank line (the
claim's "ignoring runs of blank lines"); the flag records whether the
previous kept line was blank. -/
def collapseBlanks : Bool → List (List Char) → List (List Char)
  | _, [] => []
  | b, [] :: rest => (if b then [] else [[]]) ++ collapseBlanks true rest
  | _, (c :: l) :: rest => (c :: l) :: collapseBlanks false rest

/-- Blank-line-run normalisation of a text. -/
def normBlankLines (s : String) : String :=
  ⟨joinNlL (collapseBlanks false (splitNl s.data))⟩

theorem headerBreakLen_ge_two (cs : List Char) (h : headerBreakHere cs = true) :
    2 ≤ headerBreakLen cs := by
  unfold headerBreakHere at h
  simp only [Bool.and_eq_true, decide_eq_true_eq] at h
  show 2 ≤ hashRun cs + 1 + ((cs.drop (hashRun cs + 1)).takeWhile (· ≠ '\n')).length
  have h1 : 1 ≤ hashRun cs := h.1
  omega

theorem addHeaderBreaksF_fuel_irrel :
    ∀ (f1 : Nat) (cs : List Char) (f2 : Nat) (b : Bool),
      cs.length < f1 → cs.length < f2 →
      addHeaderBreaksF f1 b cs = addHeaderBreaksF f2 b cs := by
  intro f1
  induction f1 with
  | zero => intro cs f2 b h1 _; omega
  | succ f1 ih =>
      intro cs f2 b h1 h2
      cases cs with
      | nil =>
          cases f2 with
          | zero => omega
          | succ f2 => rfl
      | cons c cs =>
          cases f2 with
          | zero => omega
          | succ f2 =>
              simp only [addHeaderBreaksF]
              by_cases hb : b = true ∧ headerBreakHere (c :: cs) = true
              · have hbb : b ∧ headerBreakHere (c :: cs) = true := ⟨by simp [hb.1], hb.2⟩
                rw [if_pos hbb, if_pos hbb]
                have hlen : 2 ≤ headerBreakLen (c :: cs) := headerBreakLen_ge_two _ hb.2
                have hdrop : ((c :: cs).drop (headerBreakLen (c :: cs))).length <
                    (c :: cs).length := by
                  rw [List.length_drop]
                  simp only [List.length_cons]
                  omega
                rw [ih _ f2 false (by omega) (by omega)]
              · have hbb : ¬(b = true ∧ headerBreakHere (c :: cs) = true) := hb
                have hbb' : ¬(b ∧ headerBreakHere (c :: cs) = true) := by
                  intro hx; exact hbb ⟨by simp [hx.1], hx.2⟩
                rw [if_neg hbb', if_neg hbb']
                rw [ih cs f2 (c = '\n') (by simpa using h1) (by simpa using h2)]

theorem splitNl_mem_no_newline (cs : List Char) :
    ∀ l ∈ splitNl cs, '\n' ∉ l := by
  induction cs with
  | nil => intro l hl; simp [splitNl] at hl; simp [hl]
  | cons c cs ih =>
      intro l hl
      by_cases hc : c = '\n'
      · subst hc
        rw [show splitNl ('\n' :: cs) = [] :: splitNl cs by simp [splitNl]] at hl
        rcases List.mem_cons.mp hl with h1 | h1
        · simp [h1]
        · exact ih l h1
      · simp only [splitNl, hc, if_false] at hl
        cases hs : splitNl cs with
        | nil => exact absurd hs (splitNl_ne_nil cs)
        | cons lh lt =>
            rw [hs] at hl
            simp only [List.mem_cons] at hl
            rcases hl with h1 | h1
            · subst h1
              intro hmem
              simp only [List.mem_cons] at hmem
              rcases hmem with h2 | h2
              · exact hc h2.symm
              · exact ih lh (by rw [hs]; exact List.mem_cons_self _ _) h2
            · exact ih l (by rw [hs]; exact List.mem_cons_of_mem _ h1)

theorem splitNl_of_no_newline (xs : List Char) (h : '\n' ∉ xs) :
    splitNl xs = [xs] := by
  induction xs with
  | nil => rfl
  | cons c cs ih =>
      have hc : c ≠ '\n' := fun hc => h (hc ▸ List.mem_cons_self c cs)
      have hcs : '\n' ∉ cs := fun hm => h (List.mem_cons_of_mem c hm)
      simp only [splitNl, hc, if_false, ih hcs]

theorem joinNlL_cons_of_ne_nil (l : List Char) (L : List (List Char)) (h : L ≠ []) :
    joinNlL (l :: L) = l ++ '\n' :: joinNlL L := by
  cases L with
  | nil => exact absurd rfl h
  | cons l2 rest => rfl

theorem hsLines_ne_nil (ls : List (List Char)) (h : ls ≠ []) : hsLines ls ≠ [] := by
  match ls with
  | [] => exact absurd rfl h
  | [l] =>
      rw [hsLines]
      by_cases h1 : singleLineHdrB l = true
      · simp [h1]
      · simp [h1]
  | l :: l2 :: rest =>
      rw [hsLines]
      by_cases h1 : singleLineHdrB l = true
      · simp [h1]
      · by_cases h2 : bareHashB l = true
        · simp [h1, h2]
        · simp [h1, h2]

theorem addHeaderBreaksF_mid (ln : List Char) (hln : '\n' ∉ ln) :
    ∀ (fuel : Nat) (cs : List Char), ln.length + cs.length < fuel →
      addHeaderBreaksF fuel false (ln ++ cs) =
        ln ++ addHeaderBreaksF (cs.length + 1) false cs := by
  induction ln with
  | nil =>
      intro fuel cs h
      exact addHeaderBreaksF_fuel_irrel fuel cs (cs.length + 1) false (by simpa using h)
        (by omega)
  | cons c ln ih =>
      intro fuel cs h
      have hc : c ≠ '\n' := fun hc => hln (hc ▸ List.mem_cons_self c ln)
      have hln' : '\n' ∉ ln := fun hm => hln (List.mem_cons_of_mem c hm)
      cases fuel with
      | zero => omega
      | succ fuel =>
          show addHeaderBreaksF (fuel + 1) false (c :: (ln ++ cs)) = _
          rw [addHeaderBreaksF]
          rw [if_neg (by simp : ¬((false : Bool) = true ∧
            headerBreakHere (c :: (ln ++ cs)) = true))]
          have hdec : (decide (c = '\n')) = false := by simp [hc]
          rw [hdec]
          rw [ih hln' fuel cs (by simp only [List.length_cons] at h; omega)]
          rfl

theorem takeWhile_ne_nl_no_newline (cs : List Char) :
    '\n' ∉ cs.takeWhile (· ≠ '\n') := by
  induction cs with
  | nil => simp
  | cons c cs ih =>
      by_cases hc : c = '\n'
      · subst hc
        rw [show ('\n' :: cs).takeWhile (· ≠ '\n') = [] by
          simp [List.takeWhile_cons]]
        simp
      · rw [show (c :: cs).takeWhile (· ≠ '\n') = c :: cs.takeWhile (· ≠ '\n') by
          simp [List.takeWhile_cons, hc]]
        intro hmem
        rcases List.mem_cons.mp hmem with h1 | h1
        · exact hc h1.symm
        · exact ih h1

theorem takeWhile_ne_nl_append (x y : List Char) (hx : '\n' ∉ x) :
    (x ++ '\n' :: y).takeWhile (· ≠ '\n') = x := by
  induction x with
  | nil => simp [List.takeWhile_cons]
  | cons c cs ih =>
      have hc : c ≠ '\n' := fun h => hx (h ▸ List.mem_cons_self c cs)
      have hcs : '\n' ∉ cs := fun h => hx (List.mem_cons_of_mem c h)
      rw [List.cons_append]
      rw [show (c :: (cs ++ '\n' :: y)).takeWhile (· ≠ '\n') =
          c :: (cs ++ '\n' :: y).takeWhile (· ≠ '\n') by
        simp [List.takeWhile_cons, hc]]
      rw [ih hcs]

theorem takeWhile_ne_nl_self (x : List Char) (hx : '\n' ∉ x) :
    x.takeWhile (· ≠ '\n') = x := by
  induction x with
  | nil => rfl
  | cons c cs ih =>
      have hc : c ≠ '\n' := fun h => hx (h ▸ List.mem_cons_self c cs)
      have hcs : '\n' ∉ cs := fun h => hx (List.mem_cons_of_mem c h)
      rw [show (c :: cs).takeWhile (· ≠ '\n') = c :: cs.takeWhile (· ≠ '\n') by
        simp [List.takeWhile_cons, hc]]
      rw [ih hcs]

theorem hashRun_cons (c : Char) (cs : List Char) :
    hashRun (c :: cs) = if c = '#' then hashRun cs + 1 else 0 := by
  unfold hashRun
  by_cases hc : c = '#'
  · subst hc
    simp [List.takeWhile_cons]
  · simp [List.takeWhile_cons, hc]

theorem hashRun_le_length (cs : List Char) : hashRun cs ≤ cs.length := by
  induction cs with
  | nil => simp [hashRun]
  | cons c cs ih =>
      rw [hashRun_cons]
      by_cases hc : c = '#'
      · rw [if_pos hc]
        simp only [List.length_cons]
        omega
      · rw [if_neg hc]
        omega

theorem hashRun_append_of_head_not_hash (t d : List Char)
    (hd : d = [] ∨ ∃ d', d = '\n' :: d') : hashRun (t ++ d) = hashRun t := by
  induction t with
  | nil =>
      rcases hd with h | ⟨d', h⟩
      · simp [h]
      · subst h
        show hashRun ('\n' :: d') = hashRun []
        rw [hashRun_cons]
        simp [hashRun]
  | cons c cs ih =>
      rw [List.cons_append, hashRun_cons, hashRun_cons, ih]

theorem all_hash_of_hashRun_eq_length (t : List Char) (h : hashRun t = t.length) :
    t.all (· = '#') = true := by
  induction t with
  | nil => rfl
  | cons c cs ih =>
      rw [hashRun_cons] at h
      by_cases hc : c = '#'
      · rw [if_pos hc] at h
        simp only [List.length_cons] at h
        simp [hc, ih (by omega)]
      · rw [if_neg hc] at h
        simp at h

theorem hashRun_eq_length_of_all_hash (t : List Char) (h : t.all (· = '#') = true) :
    hashRun t = t.length := by
  induction t with
  | nil => rfl
  | cons c cs ih =>
      simp only [List.all_cons, Bool.and_eq_true, decide_eq_true_eq] at h
      rw [hashRun_cons, if_pos h.1, ih h.2]
      simp

theorem singleLineHdrB_eq_headerBreakHere (l : List Char) :
    singleLineHdrB l = headerBreakHere l := rfl

theorem bareHashB_iff (t : List Char) :
    bareHashB t = true ↔ (1 ≤ t.length ∧ hashRun t = t.length) := by
  unfold bareHashB
  constructor
  · intro h
    simp only [Bool.and_eq_true, Bool.not_eq_eq_eq_not, Bool.not_true] at h
    constructor
    · cases t with
      | nil => simp at h
      | cons c cs => simp
    · exact hashRun_eq_length_of_all_hash t h.2
  · rintro ⟨h1, h2⟩
    have := all_hash_of_hashRun_eq_length t h2
    simp only [Bool.and_eq_true, Bool.not_eq_eq_eq_not, Bool.not_true, this,
      and_true]
    cases t with
    | nil => simp at h1
    | cons c cs => simp

/-- Whether a char list starts with a whitespace character. -/
def wsHead (cs : List Char) : Bool :=
  match cs with
  | c :: _ => jsSpace c
  | [] => false

theorem headerBreakHere_as_wsHead (cs : List Char) :
    headerBreakHere cs =
      (decide (1 ≤ hashRun cs) && wsHead (cs.drop (hashRun cs))) := rfl

theorem singleLineHdrB_as_wsHead (l : List Char) :
    singleLineHdrB l =
      (decide (1 ≤ hashRun l) && wsHead (l.drop (hashRun l))) := rfl

theorem headerBreakHere_split (t d : List Char)
    (hd : d = [] ∨ ∃ d', d = '\n' :: d') :
    headerBreakHere (t ++ d) =
      (singleLineHdrB t || (bareHashB t && !d.isEmpty)) := by
  have hrle : hashRun t ≤ t.length := hashRun_le_length t
  rw [headerBreakHere_as_wsHead, singleLineHdrB_as_wsHead,
    hashRun_append_of_head_not_hash t d hd]
  by_cases hcase : hashRun t < t.length
  · have hbare : bareHashB t = false := by
      rw [Bool.eq_false_iff]
      intro hb
      rcases (bareHashB_iff t).mp hb with ⟨_, h2⟩
      omega
    rw [hbare]
    rw [List.drop_append_of_le_length (by omega : hashRun t ≤ t.length)]
    cases he : t.drop (hashRun t) with
    | nil =>
        exfalso
        have := congrArg List.length he
        simp only [List.length_drop, List.length_nil] at this
        omega
    | cons x xs => simp [wsHead]
  · have heq : hashRun t = t.length := by omega
    rw [show (t ++ d).drop (hashRun t) = d by rw [heq]; exact List.drop_left t d]
    rw [show t.drop (hashRun t) = [] by rw [heq]; simp]
    rcases hd with h | ⟨d', h⟩
    · subst h; simp [wsHead]
    · subst h
      have hb : bareHashB t = decide (1 ≤ t.length) := by
        rw [Bool.eq_iff_iff]
        simp only [decide_eq_true_eq]
        constructor
        · intro hbb; exact ((bareHashB_iff t).mp hbb).1
        · intro h1; exact (bareHashB_iff t).mpr ⟨h1, heq⟩
      rw [hb]
      have hws : wsHead ('\n' :: d') = true := rfl
      have hws0 : wsHead ([] : List Char) = false := rfl
      rw [hws, hws0, heq]
      simp

theorem addHeaderBreaksF_nil (fuel : Nat) (b : Bool) :
    addHeaderBreaksF fuel b [] = [] := by
  cases fuel <;> rfl

theorem addHeaderBreaksF_false_nl (f : Nat) (cs : List Char) :
    addHeaderBreaksF (f + 1) false ('\n' :: cs) =
      '\n' :: addHeaderBreaksF f true cs := by
  rw [addHeaderBreaksF]
  rw [if_neg (by simp : ¬((false : Bool) = true ∧
    headerBreakHere ('\n' :: cs) = true))]
  rfl

theorem singleLineHdrB_lt (t : List Char) (h : singleLineHdrB t = true) :
    hashRun t < t.length := by
  rw [singleLineHdrB_as_wsHead] at h
  simp only [Bool.and_eq_true] at h
  have h2 := h.2
  cases he : t.drop (hashRun t) with
  | nil => rw [he] at h2; exact absurd h2 (by simp [wsHead])
  | cons x xs =>
      have := congrArg List.length he
      simp only [List.length_drop, List.length_cons] at this
      have hle := hashRun_le_length t
      omega

theorem hsLines_singleton (l : List Char) :
    hsLines [l] = if singleLineHdrB l then [[], l] else [l] := rfl

theorem hsLines_cons_cons (l l2 : List Char) (rest : List (List Char)) :
    hsLines (l :: l2 :: rest) =
      if singleLineHdrB l then [] :: l :: hsLines (l2 :: rest)
      else if bareHashB l then [] :: l :: l2 :: hsLines rest
      else l :: hsLines (l2 :: rest) := rfl

theorem hsLines_nil_line (L : List (List Char)) :
    hsLines ([] :: L) = [] :: hsLines L := by
  have hs : singleLineHdrB [] = false := rfl
  have hb : bareHashB [] = false := rfl
  cases L with
  | nil => rfl
  | cons l2 rest =>
      rw [hsLines_cons_cons, if_neg (by simp [hs]), if_neg (by simp [hb])]

theorem hsLines_cons_single (l : List Char) (L : List (List Char))
    (h : singleLineHdrB l = true) :
    hsLines (l :: L) = [] :: l :: hsLines L := by
  cases L with
  | nil => rw [hsLines_singleton, if_pos (by simp [h])]; rfl
  | cons l2 rest => rw [hsLines_cons_cons, if_pos (by simp [h])]

theorem hsLines_cons_pass (l : List Char) (L : List (List Char))
    (h1 : singleLineHdrB l = false) (h2 : bareHashB l = false) :
    hsLines (l :: L) = l :: hsLines L := by
  cases L with
  | nil => rw [hsLines_singleton, if_neg (by simp [h1])]; rfl
  | cons l2 rest =>
      rw [hsLines_cons_cons, if_neg (by simp [h1]), if_neg (by simp [h2])]

theorem hsLines_cons_bare (l l2 : List Char) (L : List (List Char))
    (h1 : singleLineHdrB l = false) (h2 : bareHashB l = true) :
    hsLines (l :: l2 :: L) = [] :: l :: l2 :: hsLines L := by
  rw [hsLines_cons_cons, if_neg (by simp [h1]), if_pos (by simp [h2])]

theorem hsLines_singleton_of_not_single (l : List Char)
    (h1 : singleLineHdrB l = false) : hsLines [l] = [l] := by
  rw [hsLines_singleton, if_neg (by simp [h1])]

theorem headerBreakLen_single (t d : List Char) (ht : '\n' ∉ t)
    (hd : d = [] ∨ ∃ d', d = '\n' :: d') (hcase : hashRun t < t.length) :
    headerBreakLen (t ++ d) = t.length := by
  unfold headerBreakLen
  rw [hashRun_append_of_head_not_hash t d hd]
  rw [List.drop_append_of_le_length (by omega : hashRun t + 1 ≤ t.length)]
  have hnd : '\n' ∉ t.drop (hashRun t + 1) := fun hm => ht (List.mem_of_mem_drop hm)
  rcases hd with h | ⟨d', h⟩
  · subst h
    rw [List.append_nil, takeWhile_ne_nl_self _ hnd, List.length_drop]
    omega
  · subst h
    rw [takeWhile_ne_nl_append _ _ hnd, List.length_drop]
    omega

theorem headerBreakLen_bare (t cs' : List Char) (heq : hashRun t = t.length) :
    headerBreakLen (t ++ '\n' :: cs') =
      t.length + 1 + (cs'.takeWhile (· ≠ '\n')).length := by
  unfold headerBreakLen
  rw [hashRun_append_of_head_not_hash t _ (Or.inr ⟨cs', rfl⟩), heq]
  rw [show t ++ '\n' :: cs' = (t ++ ['\n']) ++ cs' by simp]
  rw [show t.length + 1 = (t ++ ['\n']).length by simp]
  rw [List.drop_left]

theorem take_append_nl (t l2 d2 : List Char) :
    (t ++ '\n' :: (l2 ++ d2)).take (t.length + 1 + l2.length) = t ++ '\n' :: l2 := by
  rw [show t ++ '\n' :: (l2 ++ d2) = (t ++ '\n' :: l2) ++ d2 by simp]
  rw [show t.length + 1 + l2.length = (t ++ '\n' :: l2).length by simp; omega]
  exact List.take_left _ _

theorem drop_append_nl (t l2 d2 : List Char) :
    (t ++ '\n' :: (l2 ++ d2)).drop (t.length + 1 + l2.length) = d2 := by
  rw [show t ++ '\n' :: (l2 ++ d2) = (t ++ '\n' :: l2) ++ d2 by simp]
  rw [show t.length + 1 + l2.length = (t ++ '\n' :: l2).length by simp; omega]
  exact List.drop_left _ _

theorem addHeaderBreaksF_eq_hsLines :
    ∀ (fuel : Nat) (cs : List Char), cs.length < fuel →
      addHeaderBreaksF fuel true cs = joinNlL (hsLines (splitNl cs)) := by
  intro fuel
  induction fuel with
  | zero => intro cs h; omega
  | succ fuel ih =>
      intro cs hlen
      cases cs with
      | nil => rfl
      | cons c cs0 =>
          have hsplitT : (c :: cs0).takeWhile (· ≠ '\n') ++
              (c :: cs0).dropWhile (· ≠ '\n') = c :: cs0 :=
            List.takeWhile_append_dropWhile _ _
          set t := (c :: cs0).takeWhile (· ≠ '\n') with hT
          set d := (c :: cs0).dropWhile (· ≠ '\n') with hD
          have htnn : '\n' ∉ t := takeWhile_ne_nl_no_newline _
          have hd : d = [] ∨ ∃ d', d = '\n' :: d' := by
            cases hdc : d with
            | nil => exact Or.inl rfl
            | cons x xs =>
                refine Or.inr ⟨xs, ?_⟩
                have := dropWhile_head_not _ _ _ _ hdc
                have hx : x = '\n' := by simpa using this
                rw [hx]
          have hsplit_eq : headerBreakHere (c :: cs0) =
              (singleLineHdrB t || (bareHashB t && !d.isEmpty)) := by
            rw [← hsplitT]
            exact headerBreakHere_split t d hd
          by_cases hH : headerBreakHere (c :: cs0) = true
          · rw [addHeaderBreaksF, if_pos ⟨rfl, hH⟩]
            by_cases hs1 : singleLineHdrB t = true
            · have hcase : hashRun t < t.length := singleLineHdrB_lt t hs1
              have hL : headerBreakLen (c :: cs0) = t.length := by
                rw [← hsplitT]
                exact headerBreakLen_single t d htnn hd hcase
              have htake : (c :: cs0).take t.length = t := by
                rw [← hsplitT]; exact List.take_left t d
              have hdrop : (c :: cs0).drop t.length = d := by
                rw [← hsplitT]; exact List.drop_left t d
              rw [hL, htake, hdrop]
              rcases hd with hdn | ⟨cs', hdc⟩
              · have hct : c :: cs0 = t := by rw [← hsplitT, hdn, List.append_nil]
                rw [hdn, addHeaderBreaksF_nil]
                rw [hct, splitNl_of_no_newline t htnn,
                  hsLines_cons_single t [] hs1]
                simp [joinNlL]
              · have hfge : 1 ≤ fuel := by
                  simp only [List.length_cons] at hlen; omega
                obtain ⟨f, hf⟩ : ∃ f, fuel = f + 1 := ⟨fuel - 1, by omega⟩
                rw [hdc, hf, addHeaderBreaksF_false_nl]
                have hlt : t.length ≥ 1 := by
                  have h1 : 1 ≤ hashRun (c :: cs0) := by
                    rw [headerBreakHere_as_wsHead] at hH
                    simp only [Bool.and_eq_true, decide_eq_true_eq] at hH
                    exact hH.1
                  have h2 : hashRun (c :: cs0) = hashRun t := by
                    rw [← hsplitT]
                    exact hashRun_append_of_head_not_hash t d (Or.inr ⟨cs', hdc⟩)
                  have := hashRun_le_length t
                  omega
                have hcs'len : cs'.length < f := by
                  have hlc := congrArg List.length hsplitT
                  simp only [List.length_append, hdc, List.length_cons] at hlc
                  simp only [List.length_cons] at hlen
                  omega
                rw [addHeaderBreaksF_fuel_irrel f cs' fuel true hcs'len (by omega),
                  ih cs' (by omega)]
                have hsp : splitNl (c :: cs0) = t :: splitNl cs' := by
                  rw [← hsplitT, hdc]
                  exact splitNl_cons_of_no_newline t cs' htnn
                rw [hsp, hsLines_cons_single t _ hs1]
                rw [joinNlL_cons_of_ne_nil _ _ (by simp)]
                rw [joinNlL_cons_of_ne_nil _ _
                  (hsLines_ne_nil _ (splitNl_ne_nil cs'))]
                simp
            · have hs1' : singleLineHdrB t = false := (Bool.eq_false_iff).mpr hs1
              have hbare : bareHashB t = true ∧ d.isEmpty = false := by
                rw [hH] at hsplit_eq
                have := hsplit_eq.symm
                simp only [Bool.or_eq_true, Bool.and_eq_true] at this
                rcases this with h1 | h1
                · exact absurd h1 (by simp [hs1'])
                · exact ⟨h1.1, by simpa using h1.2⟩
              rcases hd with hdn | ⟨cs', hdc⟩
              · rw [hdn] at hbare
                exact absurd hbare.2 (by simp)
              · have heq : hashRun t = t.length :=
                  ((bareHashB_iff t).mp hbare.1).2
                have h1t : 1 ≤ t.length := ((bareHashB_iff t).mp hbare.1).1
                have hsplit2 : cs'.takeWhile (· ≠ '\n') ++
                    cs'.dropWhile (· ≠ '\n') = cs' :=
                  List.takeWhile_append_dropWhile _ _
                set l2 := cs'.takeWhile (· ≠ '\n') with hL2
                set d2 := cs'.dropWhile (· ≠ '\n') with hD2
                have hl2nn : '\n' ∉ l2 := takeWhile_ne_nl_no_newline _
                have hd2 : d2 = [] ∨ ∃ d', d2 = '\n' :: d' := by
                  cases hdc2 : d2 with
                  | nil => exact Or.inl rfl
                  | cons x xs =>
                      refine Or.inr ⟨xs, ?_⟩
                      have := dropWhile_head_not _ _ _ _ hdc2
                      have hx : x = '\n' := by simpa using this
                      rw [hx]
                have hL : headerBreakLen (c :: cs0) = t.length + 1 + l2.length := by
                  rw [← hsplitT, hdc]
                  exact headerBreakLen_bare t cs' heq
                have htake : (c :: cs0).take (t.length + 1 + l2.length) =
                    t ++ '\n' :: l2 := by
                  rw [← hsplitT, hdc, ← hsplit2]
                  exact take_append_nl t l2 d2
                have hdrop : (c :: cs0).drop (t.length + 1 + l2.length) = d2 := by
                  rw [← hsplitT, hdc, ← hsplit2]
                  exact drop_append_nl t l2 d2
                rw [hL, htake, hdrop]
                rcases hd2 with hdn2 | ⟨cs'', hdc2⟩
                · have hcs'l2 : cs' = l2 := by rw [← hsplit2, hdn2, List.append_nil]
                  rw [hdn2, addHeaderBreaksF_nil]
                  have hsp : splitNl (c :: cs0) = t :: [l2] := by
                    rw [← hsplitT, hdc]
                    rw [splitNl_cons_of_no_newline t cs' htnn, hcs'l2,
                      splitNl_of_no_newline l2 hl2nn]
                  rw [hsp, hsLines_cons_bare t l2 [] hs1' hbare.1]
                  simp [joinNlL, hsLines]
                · have hfge : 1 ≤ fuel := by
                    simp only [List.length_cons] at hlen; omega
                  obtain ⟨f, hf⟩ : ∃ f, fuel = f + 1 := ⟨fuel - 1, by omega⟩
                  rw [hdc2, hf, addHeaderBreaksF_false_nl]
                  have hcs''len : cs''.length < f := by
                    have hlc := congrArg List.length hsplitT
                    have hlc2 := congrArg List.length hsplit2
                    simp only [List.length_append, hdc, hdc2,
                      List.length_cons] at hlc hlc2
                    simp only [List.length_cons] at hlen
                    omega
                  rw [addHeaderBreaksF_fuel_irrel f cs'' fuel true hcs''len
                    (by omega), ih cs'' (by omega)]
                  have hsp : splitNl (c :: cs0) = t :: l2 :: splitNl cs'' := by
                    rw [← hsplitT, hdc]
                    rw [splitNl_cons_of_no_newline t cs' htnn, ← hsplit2, hdc2]
                    rw [splitNl_cons_of_no_newline l2 cs'' hl2nn]
                  rw [hsp, hsLines_cons_bare t l2 _ hs1' hbare.1]
                  rw [joinNlL_cons_of_ne_nil _ _ (by simp)]
                  rw [joinNlL_cons_of_ne_nil _ _ (by simp)]
                  rw [joinNlL_cons_of_ne_nil _ _
                    (hsLines_ne_nil _ (splitNl_ne_nil cs''))]
                  simp
          · rw [addHeaderBreaksF,
              if_neg (by exact fun hx => hH hx.2)]
            have hHf : headerBreakHere (c :: cs0) = false :=
              (Bool.eq_false_iff).mpr hH
            have hcomb : singleLineHdrB t = false ∧
                (bareHashB t && !d.isEmpty) = false := by
              rw [hHf] at hsplit_eq
              have := hsplit_eq.symm
              simpa only [Bool.or_eq_false_iff] using this
            by_cases hc : c = '\n'
            · subst hc
              rw [show (decide (('\n' : Char) = '\n')) = true by simp]
              rw [ih cs0 (by simpa using hlen)]
              rw [show splitNl ('\n' :: cs0) = [] :: splitNl cs0 by
                simp [splitNl]]
              rw [hsLines_nil_line]
              rw [joinNlL_cons_of_ne_nil _ _
                (hsLines_ne_nil _ (splitNl_ne_nil cs0))]
              rfl
            · rw [show (decide (c = '\n')) = false by simp [hc]]
              have ht0 : t = c :: cs0.takeWhile (· ≠ '\n') := by
                rw [hT]
                simp [List.takeWhile_cons, hc]
              have hd0 : d = cs0.dropWhile (· ≠ '\n') := by
                rw [hD]
                simp [List.dropWhile_cons, hc]
              have hsplit0 : cs0.takeWhile (· ≠ '\n') ++ d = cs0 := by
                rw [hd0]
                exact List.takeWhile_append_dropWhile _ _
              have ht0nn : '\n' ∉ cs0.takeWhile (· ≠ '\n') :=
                takeWhile_ne_nl_no_newline _
              have hmid : addHeaderBreaksF fuel false cs0 =
                  cs0.takeWhile (· ≠ '\n') ++
                    addHeaderBreaksF (d.length + 1) false d := by
                conv_lhs => rw [← hsplit0]
                exact addHeaderBreaksF_mid _ ht0nn fuel d
                  (by
                    have := congrArg List.length hsplit0
                    simp only [List.length_append] at this
                    simp only [List.length_cons] at hlen
                    omega)
              rw [hmid]
              rcases hd with hdn | ⟨cs', hdc⟩
              · rw [hdn, addHeaderBreaksF_nil, List.append_nil]
                have hct : c :: cs0 = t := by
                  rw [← hsplitT, hdn, List.append_nil]
                rw [hct, splitNl_of_no_newline t htnn,
                  hsLines_singleton_of_not_single t hcomb.1]
                rw [show joinNlL [t] = t from rfl, ht0]
              · have hlen' : cs'.length < fuel := by
                  have := congrArg List.length hsplit0
                  simp only [List.length_append, hdc, List.length_cons] at this
                  simp only [List.length_cons] at hlen
                  omega
                rw [hdc]
                simp only [List.length_cons]
                rw [addHeaderBreaksF_false_nl]
                rw [addHeaderBreaksF_fuel_irrel (cs'.length + 1) cs' fuel true
                  (by omega) hlen', ih cs' hlen']
                have hsp : splitNl (c :: cs0) = t :: splitNl cs' := by
                  rw [← hsplitT, hdc]
                  exact splitNl_cons_of_no_newline t cs' htnn
                have hbaref : bareHashB t = false := by
                  have h2 := hcomb.2
                  rw [hdc] at h2
                  simpa using h2
                rw [hsp, hsLines_cons_pass t _ hcomb.1 hbaref]
                rw [joinNlL_cons_of_ne_nil _ _
                  (hsLines_ne_nil _ (splitNl_ne_nil cs'))]
                rw [ht0]
                simp

theorem singleLineHdrB_ne_nil (l : List Char) (h : singleLineHdrB l = true) :
    l ≠ [] := by
  intro hl
  subst hl
  exact absurd h (by decide)

theorem bareHashB_ne_nil (l : List Char) (h : bareHashB l = true) : l ≠ [] := by
  intro hl
  subst hl
  exact absurd h (by decide)

theorem collapseBlanks_blank (b : Bool) (X : List (List Char)) :
    collapseBlanks b ([] :: X) =
      (if b then [] else [[]]) ++ collapseBlanks true X := rfl

theorem collapseBlanks_blank_blank (b : Bool) (X : List (List Char)) :
    collapseBlanks b ([] :: [] :: X) = collapseBlanks b ([] :: X) := by
  cases b <;> rfl

theorem collapseBlanks_cons_nonblank (b : Bool) (x : Char) (xs : List Char)
    (X : List (List Char)) :
    collapseBlanks b ((x :: xs) :: X) = (x :: xs) :: collapseBlanks false X := by
  cases b <;> rfl

theorem collapse_cons_congr (l : List Char) (A B : List (List Char))
    (h : ∀ b, collapseBlanks b A = collapseBlanks b B) (b : Bool) :
    collapseBlanks b (l :: A) = collapseBlanks b (l :: B) := by
  cases l with
  | nil => rw [collapseBlanks_blank, collapseBlanks_blank, h true]
  | cons x xs =>
      rw [collapseBlanks_cons_nonblank, collapseBlanks_cons_nonblank, h false]

theorem collapse_hsLines_idem :
    ∀ (n : Nat) (ls : List (List Char)), ls.length ≤ n →
      ∀ b, collapseBlanks b (hsLines (hsLines ls)) = collapseBlanks b (hsLines ls) := by
  intro n
  induction n with
  | zero =>
      intro ls h b
      have : ls = [] := List.length_eq_zero.mp (by omega)
      subst this
      rfl
  | succ n ih =>
      intro ls hlen b
      match ls with
      | [] => rfl
      | [l] =>
          by_cases hs1 : singleLineHdrB l = true
          · rw [hsLines_cons_single l [] hs1]
            rw [show hsLines [] = [] from rfl]
            rw [hsLines_nil_line, hsLines_cons_single l [] hs1]
            rw [show hsLines [] = [] from rfl]
            exact collapseBlanks_blank_blank b [l]
          · have hs1' : singleLineHdrB l = false := (Bool.eq_false_iff).mpr hs1
            rw [hsLines_singleton_of_not_single l hs1',
              hsLines_singleton_of_not_single l hs1']
      | l :: l2 :: rest =>
          have hrest : rest.length ≤ n := by
            simp only [List.length_cons] at hlen; omega
          have hrest2 : (l2 :: rest).length ≤ n := by
            simp only [List.length_cons] at hlen ⊢; omega
          by_cases hs1 : singleLineHdrB l = true
          · rw [hsLines_cons_single l (l2 :: rest) hs1]
            rw [hsLines_nil_line, hsLines_cons_single l _ hs1]
            rw [show ∀ X, collapseBlanks b ([] :: [] :: l :: X) =
                collapseBlanks b ([] :: l :: X) from
              fun X => collapseBlanks_blank_blank b (l :: X)]
            exact collapse_cons_congr [] _ _
              (fun b' => collapse_cons_congr l _ _
                (fun b'' => ih (l2 :: rest) hrest2 b'') b') b
          · have hs1' : singleLineHdrB l = false := (Bool.eq_false_iff).mpr hs1
            by_cases hb : bareHashB l = true
            · rw [hsLines_cons_bare l l2 rest hs1' hb]
              rw [hsLines_nil_line, hsLines_cons_bare l l2 _ hs1' hb]
              rw [show ∀ X, collapseBlanks b ([] :: [] :: l :: X) =
                  collapseBlanks b ([] :: l :: X) from
                fun X => collapseBlanks_blank_blank b (l :: X)]
              exact collapse_cons_congr [] _ _
                (fun b' => collapse_cons_congr l _ _
                  (fun b'' => collapse_cons_congr l2 _ _
                    (fun b3 => ih rest hrest b3) b'') b') b
            · have hb' : bareHashB l = false := (Bool.eq_false_iff).mpr hb
              rw [hsLines_cons_pass l (l2 :: rest) hs1' hb']
              rw [hsLines_cons_pass l _ hs1' hb']
              exact collapse_cons_congr l _ _
                (fun b' => ih (l2 :: rest) hrest2 b') b

theorem hsLines_no_newline :
    ∀ (n : Nat) (ls : List (List Char)), ls.length ≤ n →
      (∀ l ∈ ls, '\n' ∉ l) → ∀ l ∈ hsLines ls, '\n' ∉ l := by
  intro n
  induction n with
  | zero =>
      intro ls hn h l hl
      have : ls = [] := List.length_eq_zero.mp (by omega)
      subst this
      simp [hsLines] at hl
  | succ n ih =>
      intro ls hn h l hl
      match ls with
      | [] => simp [hsLines] at hl
      | [l0] =>
          rw [hsLines_singleton] at hl
          by_cases hs1 : singleLineHdrB l0 = true
          · rw [if_pos (by simp [hs1])] at hl
            rcases List.mem_cons.mp hl with h1 | h1
            · simp [h1]
            · rcases List.mem_cons.mp h1 with h2 | h2
              · exact h2 ▸ h l0 (by simp)
              · simp at h2
          · rw [if_neg (by simp [hs1])] at hl
            rcases List.mem_cons.mp hl with h1 | h1
            · exact h1 ▸ h l0 (by simp)
            · simp at h1
      | l0 :: l2 :: rest =>
          have hmem0 : '\n' ∉ l0 := h l0 (by simp)
          have hmem2 : '\n' ∉ l2 := h l2 (by simp)
          have hrest : ∀ x ∈ rest, '\n' ∉ x := fun x hx => h x (by simp [hx])
          have hrest2 : ∀ x ∈ l2 :: rest, '\n' ∉ x := fun x hx => by
            rcases List.mem_cons.mp hx with h1 | h1
            · exact h1 ▸ hmem2
            · exact hrest x h1
          have hlen2 : (l2 :: rest).length ≤ n := by
            simp only [List.length_cons] at hn ⊢; omega
          have hlenr : rest.length ≤ n := by
            simp only [List.length_cons] at hn; omega
          rw [hsLines_cons_cons] at hl
          by_cases hs1 : singleLineHdrB l0 = true
          · rw [if_pos (by simp [hs1])] at hl
            rcases List.mem_cons.mp hl with h1 | h1
            · simp [h1]
            · rcases List.mem_cons.mp h1 with h2 | h2
              · exact h2 ▸ hmem0
              · exact ih (l2 :: rest) hlen2 hrest2 l h2
          · rw [if_neg (by simp [hs1])] at hl
            by_cases hb : bareHashB l0 = true
            · rw [if_pos (by simp [hb])] at hl
              rcases List.mem_cons.mp hl with h1 | h1
              · simp [h1]
              · rcases List.mem_cons.mp h1 with h2 | h2
                · exact h2 ▸ hmem0
                · rcases List.mem_cons.mp h2 with h3 | h3
                  · exact h3 ▸ hmem2
                  · exact ih rest hlenr hrest l h3
            · rw [if_neg (by simp [hb])] at hl
              rcases List.mem_cons.mp hl with h1 | h1
              · exact h1 ▸ hmem0
              · exact ih (l2 :: rest) hlen2 hrest2 l h1

theorem splitNl_joinNlL (M : List (List Char)) (hne : M ≠ [])
    (h : ∀ l ∈ M, '\n' ∉ l) : splitNl (joinNlL M) = M := by
  induction M with
  | nil => exact absurd rfl hne
  | cons l rest ih =>
      cases rest with
      | nil =>
          rw [show joinNlL [l] = l from rfl]
          exact splitNl_of_no_newline l (h l (by simp))
      | cons l2 rest2 =>
          rw [joinNlL_cons_of_ne_nil l _ (by simp)]
          rw [splitNl_cons_of_no_newline l _ (h l (by simp))]
          rw [ih (by simp) (fun x hx => h x (by simp [hx]))]

theorem hsLines_eq_expand :
    ∀ (ls : List (List Char)), (∀ l ∈ ls, bareHashB l = false) →
      hsLines ls =
        linesExpand (fun l => if singleLineHdrB l then [[], l] else [l]) ls := by
  intro ls
  induction ls with
  | nil => intro _; rfl
  | cons l rest ih =>
      intro h
      have hb : bareHashB l = false := h l (by simp)
      have hrest : ∀ x ∈ rest, bareHashB x = false := fun x hx => h x (by simp [hx])
      by_cases hs1 : singleLineHdrB l = true
      · rw [hsLines_cons_single l rest hs1, ih hrest]
        simp [linesExpand, hs1]
      · have hs1' : singleLineHdrB l = false := (Bool.eq_false_iff).mpr hs1
        rw [hsLines_cons_pass l rest hs1' hb, ih hrest]
        simp [linesExpand, hs1']

/-- C9 — the claim as stated is false on the code: on `##\n# X` the match
of `^(#+\s.*)` at the bare-hash line `##` uses the newline as its `\s` and
swallows the following header line `# X`, which therefore gets no blank
line inserted before it; the output differs from the per-line insertion
the claim describes. -/
theorem headerSpacing_bare_hash_counterexample :
    addHeaderBreaks "##\n# X" = "\n##\n# X" ∧
    addHeaderBreaksSpec "##\n# X" = "##\n\n# X" ∧
    addHeaderBreaks "##\n# X" ≠ addHeaderBreaksSpec "##\n# X" := by
  refine ⟨by decide, by decide, by decide⟩

/-- C9 (amended) — provided no line of the input consists solely of `#`
characters, the header-spacing rewrite inserts exactly one blank line
immediately before every line beginning with one or more `#` followed by
whitespace (regardless of pre-existing spacing) and leaves all other lines
unchanged; and unconditionally, applying the rewrite twice yields the same
content as applying it once when runs of blank lines are collapsed. -/
theorem addHeaderBreaks_insert_and_idem (s : String) :
    ((∀ l ∈ splitNl s.data, bareHashB l = false) →
      addHeaderBreaks s = addHeaderBreaksSpec s) ∧
    normBlankLines (addHeaderBreaks (addHeaderBreaks s)) =
      normBlankLines (addHeaderBreaks s) := by
  have hmain : ∀ (u : String),
      addHeaderBreaks u = ⟨joinNlL (hsLines (splitNl u.data))⟩ := by
    intro u
    unfold addHeaderBreaks
    exact congrArg String.mk
      (addHeaderBreaksF_eq_hsLines (u.data.length + 1) u.data (by omega))
  have hL0ne := splitNl_ne_nil s.data
  have hL0nn := splitNl_mem_no_newline s.data
  have h1 : (addHeaderBreaks s).data = joinNlL (hsLines (splitNl s.data)) := by
    rw [hmain]
  have hM1ne : hsLines (splitNl s.data) ≠ [] := hsLines_ne_nil _ hL0ne
  have hM1nn : ∀ l ∈ hsLines (splitNl s.data), '\n' ∉ l :=
    hsLines_no_newline (splitNl s.data).length _ (le_refl _) hL0nn
  have h2 : splitNl ((addHeaderBreaks s).data) = hsLines (splitNl s.data) := by
    rw [h1]
    exact splitNl_joinNlL _ hM1ne hM1nn
  constructor
  · intro h
    rw [hmain]
    exact congrArg String.mk (congrArg joinNlL (hsLines_eq_expand _ h))
  · have h3 : (addHeaderBreaks (addHeaderBreaks s)).data =
        joinNlL (hsLines (hsLines (splitNl s.data))) := by
      rw [hmain (addHeaderBreaks s)]
      show joinNlL (hsLines (splitNl (addHeaderBreaks s).data)) = _
      rw [h2]
    unfold normBlankLines
    apply congrArg String.mk
    apply congrArg joinNlL
    have h4 : splitNl ((addHeaderBreaks (addHeaderBreaks s)).data) =
        hsLines (hsLines (splitNl s.data)) := by
      rw [h3]
      exact splitNl_joinNlL _ (hsLines_ne_nil _ hM1ne)
        (hsLines_no_newline (hsLines (splitNl s.data)).length _ (le_refl _) hM1nn)
    rw [h4, h2]
    exact collapse_hsLines_idem (splitNl s.data).length _ (le_refl _) false

/-- Witness for the amended C9 theorem at a concrete bare-hash-free
input. -/
theorem addHeaderBreaks_insert_and_idem_witness :
    addHeaderBreaks "# T\nhello" = addHeaderBreaksSpec "# T\nhello" ∧
    normBlankLines (addHeaderBreaks (addHeaderBreaks "# T\nhello")) =
      normBlankLines (addHeaderBreaks "# T\nhello") :=
  ⟨(addHeaderBreaks_insert_and_idem "# T\nhello").1 (by decide),
   (addHeaderBreaks_insert_and_idem "# T\nhello").2⟩

/-- Spec-side line test for C10: the line at this position matches
optional leading whitespace then `#` within the line itself. -/
def specLineIsHeader (cs : List Char) : Bool :=
  ((cs.takeWhile (· ≠ '\n')).dropWhile jsSpace).head? = Option.some '#'

/-- Spec-side "first header line" position for C10: the start index of the
first line matching optional leading whitespace then `#`. -/
def firstHeaderLineIdxSpec (cs : List Char) : Option Nat :=
  (lineScanO (fun s => if specLineIsHeader s then Option.some () else Option.none)
    cs 0 true).map Prod.fst

theorem lineScanO_shift {beta : Type} (test : List Char → Option beta) :
    ∀ (cs : List Char) (idx : Nat) (b : Bool),
      lineScanO test cs idx b =
        (lineScanO test cs 0 b).map (fun p => (p.1 + idx, p.2)) := by
  intro cs
  induction cs with
  | nil => intro idx b; rfl
  | cons c cs ih =>
      intro idx b
      cases b with
      | true =>
          rw [lineScanO, lineScanO]
          rw [if_pos rfl, if_pos rfl]
          cases ht : test (c :: cs) with
          | some v => simp
          | none =>
              rw [ih (idx + 1), ih 1]
              cases lineScanO test cs 0 (c = '\n') with
              | none => rfl
              | some pv =>
                  show Option.some (pv.1 + (idx + 1), pv.2) =
                    Option.some (pv.1 + 1 + idx, pv.2)
                  rw [show pv.1 + (idx + 1) = pv.1 + 1 + idx by omega]
      | false =>
          rw [lineScanO, lineScanO]
          rw [if_neg (by simp), if_neg (by simp)]
          rw [ih (idx + 1), ih 1]
          cases lineScanO test cs 0 (c = '\n') with
          | none => rfl
          | some pv =>
              show Option.some (pv.1 + (idx + 1), pv.2) =
                Option.some (pv.1 + 1 + idx, pv.2)
              rw [show pv.1 + (idx + 1) = pv.1 + 1 + idx by omega]

theorem lineScanO_false_no_nl {beta : Type} (test : List Char → Option beta) :
    ∀ (ln : List Char), '\n' ∉ ln → ∀ (idx : Nat),
      lineScanO test ln idx false = Option.none := by
  intro ln
  induction ln with
  | nil => intro _ idx; rfl
  | cons c cs ih =>
      intro h idx
      have hc : c ≠ '\n' := fun hc => h (hc ▸ List.mem_cons_self c cs)
      have hcs : '\n' ∉ cs := fun hm => h (List.mem_cons_of_mem c hm)
      rw [lineScanO, if_neg (by simp)]
      rw [show (decide (c = '\n')) = false by simp [hc]]
      exact ih hcs (idx + 1)

theorem lineScanO_mid {beta : Type} (test : List Char → Option beta) :
    ∀ (ln : List Char), '\n' ∉ ln → ∀ (rest : List Char) (idx : Nat),
      lineScanO test (ln ++ '\n' :: rest) idx false =
        lineScanO test rest (idx + ln.length + 1) true := by
  intro ln
  induction ln with
  | nil =>
      intro _ rest idx
      show lineScanO test ('\n' :: rest) idx false = _
      rw [lineScanO, if_neg (by simp)]
      rw [show (decide (('\n' : Char) = '\n')) = true by simp]
      simp
  | cons c cs ih =>
      intro h rest idx
      have hc : c ≠ '\n' := fun hc => h (hc ▸ List.mem_cons_self c cs)
      have hcs : '\n' ∉ cs := fun hm => h (List.mem_cons_of_mem c hm)
      show lineScanO test (c :: (cs ++ '\n' :: rest)) idx false = _
      rw [lineScanO, if_neg (by simp)]
      rw [show (decide (c = '\n')) = false by simp [hc]]
      rw [ih hcs rest (idx + 1)]
      congr 1
      simp only [List.length_cons]
      omega

theorem lineScanO_true_step {beta : Type} (test : List Char → Option beta)
    (ln : List Char) (hln : '\n' ∉ ln) (rest : List Char) (idx : Nat) :
    lineScanO test (ln ++ '\n' :: rest) idx true =
      match test (ln ++ '\n' :: rest) with
      | Option.some v => Option.some (idx, v)
      | Option.none => lineScanO test rest (idx + ln.length + 1) true := by
  cases ln with
  | nil =>
      show lineScanO test ('\n' :: rest) idx true =
        match test ('\n' :: rest) with
        | Option.some v => Option.some (idx, v)
        | Option.none => lineScanO test rest (idx + 1) true
      rw [lineScanO, if_pos rfl]
      cases ht : test ('\n' :: rest) with
      | some v => rfl
      | none =>
          show lineScanO test rest (idx + 1) (decide ('\n' = '\n')) =
            lineScanO test rest (idx + 1) true
          rw [show (decide (('\n' : Char) = '\n')) = true by simp]
  | cons c cs =>
      have hc : c ≠ '\n' := fun hc => hln (hc ▸ List.mem_cons_self c cs)
      have hcs : '\n' ∉ cs := fun hm => hln (List.mem_cons_of_mem c hm)
      show lineScanO test (c :: (cs ++ '\n' :: rest)) idx true =
        match test (c :: (cs ++ '\n' :: rest)) with
        | Option.some v => Option.some (idx, v)
        | Option.none => lineScanO test rest (idx + (c :: cs).length + 1) true
      rw [lineScanO, if_pos rfl]
      cases ht : test (c :: (cs ++ '\n' :: rest)) with
      | some v => rfl
      | none =>
          show lineScanO test (cs ++ '\n' :: rest) (idx + 1) (decide (c = '\n')) =
            lineScanO test rest (idx + (c :: cs).length + 1) true
          rw [show (decide (c = '\n')) = false by simp [hc]]
          rw [lineScanO_mid test cs hcs rest (idx + 1)]
          congr 1
          simp only [List.length_cons]
          omega

theorem lineScanO_true_no_nl {beta : Type} (test : List Char → Option beta)
    (htest : test [] = Option.none) (cs : List Char) (hcs : '\n' ∉ cs)
    (idx : Nat) :
    lineScanO test cs idx true = (test cs).map (fun v => (idx, v)) := by
  cases cs with
  | nil => rw [show lineScanO test [] idx true = Option.none from rfl, htest]; rfl
  | cons c cs' =>
      have hc : c ≠ '\n' := fun hc => hcs (hc ▸ List.mem_cons_self c cs')
      have hcs' : '\n' ∉ cs' := fun hm => hcs (List.mem_cons_of_mem c hm)
      rw [lineScanO, if_pos rfl]
      cases ht : test (c :: cs') with
      | some v => rfl
      | none =>
          rw [show (decide (c = '\n')) = false by simp [hc]]
          rw [lineScanO_false_no_nl test cs' hcs' (idx + 1)]
          rfl

theorem lineScanO_bound {beta : Type} (test : List Char → Option beta) :
    ∀ (cs : List Char) (idx : Nat) (b : Bool) (p : Nat) (v : beta),
      lineScanO test cs idx b = Option.some (p, v) →
      idx ≤ p ∧ p ≤ idx + cs.length := by
  intro cs
  induction cs with
  | nil => intro idx b p v h; exact absurd h (by simp [lineScanO])
  | cons c cs ih =>
      intro idx b p v h
      cases b with
      | true =>
          rw [lineScanO, if_pos rfl] at h
          cases ht : test (c :: cs) with
          | some w =>
              rw [ht] at h
              injection h with h1
              injection h1 with h2 h3
              subst h2
              simp
          | none =>
              rw [ht] at h
              have := ih (idx + 1) (c = '\n') p v h
              simp only [List.length_cons]
              omega
      | false =>
          rw [lineScanO, if_neg (by simp)] at h
          have := ih (idx + 1) (c = '\n') p v h
          simp only [List.length_cons]
          omega

theorem dropWhile_append_of_ne_nil (p : Char → Bool) (a b : List Char)
    (x : Char) (xs : List Char) (h : a.dropWhile p = x :: xs) :
    (a ++ b).dropWhile p = (x :: xs) ++ b := by
  induction a with
  | nil => simp at h
  | cons c cs ih =>
      by_cases hp : p c = true
      · rw [List.cons_append, List.dropWhile_cons_of_pos hp]
        rw [List.dropWhile_cons_of_pos hp] at h
        exact ih h
      · rw [List.cons_append,
          List.dropWhile_cons_of_neg (by simp [hp])]
        rw [List.dropWhile_cons_of_neg (by simp [hp])] at h
        injection h with h1 h2
        subst h1
        subst h2
        rfl

theorem dropWhile_all_append (p : Char → Bool) (a b : List Char)
    (h : ∀ x ∈ a, p x = true) :
    (a ++ b).dropWhile p = b.dropWhile p := by
  induction a with
  | nil => rfl
  | cons c cs ih =>
      rw [List.cons_append, List.dropWhile_cons_of_pos (h c (by simp))]
      exact ih (fun x hx => h x (by simp [hx]))

theorem jsTrimL_append_ws (a w : List Char) (hw : ∀ x ∈ w, jsSpace x = true) :
    jsTrimL (a ++ w) = jsTrimL a := by
  unfold jsTrimL
  cases hm : a.dropWhile jsSpace with
  | nil =>
      have ha : ∀ x ∈ a, jsSpace x = true := (List.dropWhile_eq_nil_iff).mp hm
      rw [dropWhile_all_append jsSpace a w ha,
        (List.dropWhile_eq_nil_iff).mpr hw]
  | cons x xs =>
      rw [dropWhile_append_of_ne_nil jsSpace a w x xs hm]
      rw [show ((x :: xs) ++ w).reverse = w.reverse ++ (x :: xs).reverse by
        rw [List.reverse_append]]
      rw [dropWhile_all_append jsSpace w.reverse _
        (fun y hy => hw y (List.mem_reverse.mp hy))]

theorem lineScanO_step_some {beta : Type} (test : List Char → Option beta)
    (ln : List Char) (hln : '\n' ∉ ln) (rest : List Char) (idx : Nat)
    (v : beta) (hv : test (ln ++ '\n' :: rest) = Option.some v) :
    lineScanO test (ln ++ '\n' :: rest) idx true = Option.some (idx, v) := by
  rw [lineScanO_true_step test ln hln rest idx, hv]

theorem lineScanO_step_none {beta : Type} (test : List Char → Option beta)
    (ln : List Char) (hln : '\n' ∉ ln) (rest : List Char) (idx : Nat)
    (hv : test (ln ++ '\n' :: rest) = Option.none) :
    lineScanO test (ln ++ '\n' :: rest) idx true =
      lineScanO test rest (idx + ln.length + 1) true := by
  rw [lineScanO_true_step test ln hln rest idx, hv]

theorem preHeaderTest_nil :
    (fun s => if preHeaderTest s then Option.some () else Option.none)
      ([] : List Char) = Option.none := rfl

theorem specLineTest_nil :
    (fun s => if specLineIsHeader s then Option.some () else Option.none)
      ([] : List Char) = Option.none := rfl

theorem preHeader_scan_rel :
    ∀ (n : Nat) (cs : List Char), cs.length ≤ n →
      (searchPreHeaderGo cs 0 true = Option.none →
        firstHeaderLineIdxSpec cs = Option.none) ∧
      (∀ p, searchPreHeaderGo cs 0 true = Option.some p →
        ∃ q, firstHeaderLineIdxSpec cs = Option.some q ∧ p ≤ q ∧
          ∀ x ∈ (cs.take q).drop p, jsSpace x = true) := by
  intro n
  induction n with
  | zero =>
      intro cs h
      have : cs = [] := List.length_eq_zero.mp (by omega)
      subst this
      constructor
      · intro _; rfl
      · intro p hp
        exact absurd hp (by simp [searchPreHeaderGo, lineScanO])
  | succ n ih =>
      intro cs hlen
      have hsplitT : cs.takeWhile (· ≠ '\n') ++ cs.dropWhile (· ≠ '\n') = cs :=
        List.takeWhile_append_dropWhile _ _
      set t := cs.takeWhile (· ≠ '\n') with hT
      set d := cs.dropWhile (· ≠ '\n') with hD
      have htnn : '\n' ∉ t := takeWhile_ne_nl_no_newline _
      cases hdc : d with
      | nil =>
          have hct : cs = t := by rw [← hsplitT, hdc, List.append_nil]
          have htests : preHeaderTest cs = specLineIsHeader cs := by
            unfold preHeaderTest specLineIsHeader
            rw [← hT, hct]
          have hcode : searchPreHeaderGo cs 0 true =
              ((if preHeaderTest cs then Option.some () else Option.none).map
                (fun v => ((0 : Nat), v))).map Prod.fst := by
            unfold searchPreHeaderGo
            rw [lineScanO_true_no_nl _ preHeaderTest_nil cs (hct ▸ htnn) 0]
          have hspec : firstHeaderLineIdxSpec cs =
              ((if specLineIsHeader cs then Option.some () else Option.none).map
                (fun v => ((0 : Nat), v))).map Prod.fst := by
            unfold firstHeaderLineIdxSpec
            rw [lineScanO_true_no_nl _ specLineTest_nil cs (hct ▸ htnn) 0]
          by_cases hph : preHeaderTest cs = true
          · have hcodeq : searchPreHeaderGo cs 0 true = Option.some 0 := by
              rw [hcode, hph]
              rfl
            have hspecq : firstHeaderLineIdxSpec cs = Option.some 0 := by
              rw [hspec, ← htests, hph]
              rfl
            constructor
            · intro hnone
              rw [hcodeq] at hnone
              exact absurd hnone (by simp)
            · intro p hp
              rw [hcodeq] at hp
              injection hp with hp1
              refine ⟨0, hspecq, by omega, ?_⟩
              intro x hx
              simp at hx
          · have hph' : preHeaderTest cs = false := (Bool.eq_false_iff).mpr hph
            have hcodeq : searchPreHeaderGo cs 0 true = Option.none := by
              rw [hcode, hph']
              rfl
            have hspecq : firstHeaderLineIdxSpec cs = Option.none := by
              rw [hspec, ← htests, hph']
              rfl
            constructor
            · intro _
              exact hspecq
            · intro p hp
              rw [hcodeq] at hp
              exact absurd hp (by simp)
      | cons dh rest =>
          have hdh : dh = '\n' := by
            have := dropWhile_head_not _ _ _ _ (hD ▸ hdc)
            simpa using this
          subst hdh
          have hcs : cs = t ++ '\n' :: rest := by rw [← hsplitT, hdc]
          have hrestlen : rest.length ≤ n := by
            have := congrArg List.length hcs
            simp only [List.length_append, List.length_cons] at this
            omega
          have hspecline : specLineIsHeader cs =
              decide ((t.dropWhile jsSpace).head? = Option.some '#') := by
            unfold specLineIsHeader
            rw [← hT]
          by_cases hs : (t.dropWhile jsSpace).head? = Option.some '#'
          · -- the first line is itself a header line: both tests succeed
            obtain ⟨xs', hxs⟩ : ∃ xs', t.dropWhile jsSpace = '#' :: xs' := by
              cases hm : t.dropWhile jsSpace with
              | nil => rw [hm] at hs; simp at hs
              | cons y ys =>
                  rw [hm] at hs
                  simp only [List.head?_cons, Option.some.injEq] at hs
                  exact ⟨ys, by rw [hs]⟩
            have hcodeT : preHeaderTest cs = true := by
              unfold preHeaderTest
              rw [hcs, dropWhile_append_of_ne_nil jsSpace t _ _ _ hxs]
              simp
            have hspecT : specLineIsHeader cs = true := by
              rw [hspecline, hs]
              simp
            have hvx : (if preHeaderTest (t ++ '\n' :: rest) then Option.some ()
                else Option.none) = Option.some () := by
              rw [← hcs, hcodeT]
              exact if_pos rfl
            have hvs : (if specLineIsHeader (t ++ '\n' :: rest) then Option.some ()
                else Option.none) = Option.some () := by
              rw [← hcs, hspecT]
              exact if_pos rfl
            have hcodeq : searchPreHeaderGo cs 0 true = Option.some 0 := by
              unfold searchPreHeaderGo
              conv_lhs => rw [hcs]
              rw [lineScanO_step_some (fun s => if preHeaderTest s then
                Option.some () else Option.none) t htnn rest 0 () hvx]
              rfl
            have hspecq : firstHeaderLineIdxSpec cs = Option.some 0 := by
              unfold firstHeaderLineIdxSpec
              conv_lhs => rw [hcs]
              rw [lineScanO_step_some (fun s => if specLineIsHeader s then
                Option.some () else Option.none) t htnn rest 0 () hvs]
              rfl
            constructor
            · intro hnone
              rw [hcodeq] at hnone
              exact absurd hnone (by simp)
            · intro p hp
              rw [hcodeq] at hp
              injection hp with hp1
              refine ⟨0, hspecq, by omega, ?_⟩
              intro x hx
              simp at hx
          · have hspecF : specLineIsHeader cs = false := by
              rw [hspecline]
              simp [hs]
            have hvsF : (if specLineIsHeader (t ++ '\n' :: rest) then
                Option.some () else Option.none) = (Option.none : Option Unit) := by
              rw [← hcs, hspecF]
              exact if_neg Bool.false_ne_true
            have hSs : firstHeaderLineIdxSpec cs =
                (firstHeaderLineIdxSpec rest).map (· + (t.length + 1)) := by
              unfold firstHeaderLineIdxSpec
              conv_lhs => rw [hcs]
              rw [lineScanO_step_none (fun s => if specLineIsHeader s then
                Option.some () else Option.none) t htnn rest 0 hvsF]
              rw [lineScanO_shift (fun s => if specLineIsHeader s then
                Option.some () else Option.none) rest (0 + t.length + 1) true]
              cases lineScanO (fun s => if specLineIsHeader s then Option.some ()
                  else Option.none) rest 0 true with
              | none => rfl
              | some pv =>
                  show Option.some (pv.1 + (0 + t.length + 1)) =
                    Option.some (pv.1 + (t.length + 1))
                  rw [show pv.1 + (0 + t.length + 1) = pv.1 + (t.length + 1)
                    by omega]
            by_cases hc : preHeaderTest cs = true
            · -- the scan's whitespace run crosses the all-whitespace first line
              have htws : ∀ x ∈ t, jsSpace x = true := by
                rw [← List.dropWhile_eq_nil_iff]
                cases hm : t.dropWhile jsSpace with
                | nil => rfl
                | cons y ys =>
                    exfalso
                    have hy : jsSpace y = false := dropWhile_head_not _ _ _ _ hm
                    have : preHeaderTest cs =
                        decide ((y :: (ys ++ '\n' :: rest)).head? = Option.some '#') := by
                      unfold preHeaderTest
                      rw [hcs, dropWhile_append_of_ne_nil jsSpace t _ _ _ hm]
                      rfl
                    rw [hc] at this
                    have hy' : y = '#' := by
                      have := this.symm
                      simpa using this
                    exact hs (by rw [hm, hy']; rfl)
              have hvx0 : (if preHeaderTest (t ++ '\n' :: rest) then Option.some ()
                  else Option.none) = Option.some () := by
                rw [← hcs, hc]
                exact if_pos rfl
              have hcodeq : searchPreHeaderGo cs 0 true = Option.some 0 := by
                unfold searchPreHeaderGo
                conv_lhs => rw [hcs]
                rw [lineScanO_step_some (fun s => if preHeaderTest s then
                  Option.some () else Option.none) t htnn rest 0 () hvx0]
                rfl
              have hcrest : preHeaderTest rest = true := by
                have : preHeaderTest cs = preHeaderTest rest := by
                  unfold preHeaderTest
                  rw [hcs, dropWhile_all_append jsSpace t _ htws,
                    List.dropWhile_cons_of_pos (by decide : jsSpace '\n' = true)]
                rw [← this, hc]
              have hcrest_scan : searchPreHeaderGo rest 0 true =
                  Option.some 0 := by
                cases hrc : rest with
                | nil =>
                    exfalso
                    rw [hrc] at hcrest
                    exact absurd hcrest (by decide)
                | cons r rs =>
                    unfold searchPreHeaderGo
                    rw [lineScanO, if_pos rfl]
                    rw [hrc] at hcrest
                    rw [hcrest]
                    rfl
              obtain ⟨q', hq'spec, _, hq'reg⟩ :=
                (ih rest hrestlen).2 0 hcrest_scan
              have hq'bound : q' ≤ rest.length := by
                unfold firstHeaderLineIdxSpec at hq'spec
                cases hsc : lineScanO (fun s => if specLineIsHeader s then
                    Option.some () else Option.none) rest 0 true with
                | none => rw [hsc] at hq'spec; simp at hq'spec
                | some pv =>
                    rw [hsc] at hq'spec
                    have hb := lineScanO_bound _ rest 0 true pv.1 pv.2 (by
                      rw [hsc])
                    have h2 : Option.some pv.1 = Option.some q' := hq'spec
                    injection h2 with h1
                    omega
              constructor
              · intro hnone
                rw [hcodeq] at hnone
                exact absurd hnone (by simp)
              · intro p hp
                rw [hcodeq] at hp
                injection hp with hp1
                have hp0 : p = 0 := hp1.symm
                subst hp0
                refine ⟨q' + (t.length + 1), ?_, by omega, ?_⟩
                · rw [hSs, hq'spec]
                  rfl
                · intro x hx
                  rw [List.drop_zero] at hx
                  have htake : cs.take (q' + (t.length + 1)) =
                      t ++ '\n' :: rest.take q' := by
                    rw [hcs]
                    rw [show rest = rest.take q' ++ rest.drop q' by
                      rw [List.take_append_drop]]
                    rw [show q' + (t.length + 1) = t.length + 1 +
                      (rest.take q').length by
                        rw [List.length_take]
                        omega]
                    rw [take_append_nl]
                    rw [List.take_append_drop]
                  rw [htake] at hx
                  rcases List.mem_append.mp hx with h1 | h1
                  · exact htws x h1
                  · rcases List.mem_cons.mp h1 with h2 | h2
                    · rw [h2]; decide
                    · exact hq'reg x (by simpa using h2)
            · -- neither test fires on the first line: both scans move on
              have hc' : preHeaderTest cs = false := (Bool.eq_false_iff).mpr hc
              have hvxF : (if preHeaderTest (t ++ '\n' :: rest) then
                  Option.some () else Option.none) = (Option.none : Option Unit) := by
                rw [← hcs, hc']
                exact if_neg Bool.false_ne_true
              have hCs : searchPreHeaderGo cs 0 true =
                  (searchPreHeaderGo rest 0 true).map (· + (t.length + 1)) := by
                unfold searchPreHeaderGo
                conv_lhs => rw [hcs]
                rw [lineScanO_step_none (fun s => if preHeaderTest s then
                  Option.some () else Option.none) t htnn rest 0 hvxF]
                rw [lineScanO_shift (fun s => if preHeaderTest s then
                  Option.some () else Option.none) rest (0 + t.length + 1) true]
                cases lineScanO (fun s => if preHeaderTest s then Option.some ()
                    else Option.none) rest 0 true with
                | none => rfl
                | some pv =>
                    show Option.some (pv.1 + (0 + t.length + 1)) =
                      Option.some (pv.1 + (t.length + 1))
                    rw [show pv.1 + (0 + t.length + 1) = pv.1 + (t.length + 1)
                      by omega]
              constructor
              · intro hnone
                rw [hCs] at hnone
                rw [hSs]
                cases hrc : searchPreHeaderGo rest 0 true with
                | none => rw [(ih rest hrestlen).1 hrc]; rfl
                | some p0 => rw [hrc] at hnone; simp at hnone
              · intro p hp
                rw [hCs] at hp
                cases hrc : searchPreHeaderGo rest 0 true with
                | none => rw [hrc] at hp; simp at hp
                | some p0 =>
                    rw [hrc] at hp
                    have hp' : Option.some (p0 + (t.length + 1)) =
                      Option.some p := hp
                    injection hp' with hp1
                    obtain ⟨q0, hq0spec, hq0le, hq0reg⟩ :=
                      (ih rest hrestlen).2 p0 hrc
                    have hq0bound : q0 ≤ rest.length := by
                      unfold firstHeaderLineIdxSpec at hq0spec
                      cases hsc : lineScanO (fun s => if specLineIsHeader s then
                          Option.some () else Option.none) rest 0 true with
                      | none => rw [hsc] at hq0spec; simp at hq0spec
                      | some pv =>
                          rw [hsc] at hq0spec
                          have hb := lineScanO_bound _ rest 0 true pv.1 pv.2 (by
                            rw [hsc])
                          have h2 : Option.some pv.1 = Option.some q0 := hq0spec
                          injection h2 with h1
                          omega
                    refine ⟨q0 + (t.length + 1), ?_, by omega, ?_⟩
                    · rw [hSs, hq0spec]
                      rfl
                    · intro x hx
                      have htake : cs.take (q0 + (t.length + 1)) =
                          t ++ '\n' :: rest.take q0 := by
                        rw [hcs]
                        rw [show rest = rest.take q0 ++ rest.drop q0 by
                          rw [List.take_append_drop]]
                        rw [show q0 + (t.length + 1) = t.length + 1 +
                          (rest.take q0).length by
                            rw [List.length_take]
                            omega]
                        rw [take_append_nl]
                        rw [List.take_append_drop]
                      rw [htake] at hx
                      rw [show t ++ '\n' :: rest.take q0 =
                        (t ++ ['\n']) ++ rest.take q0 by simp] at hx
                      rw [← hp1] at hx
                      rw [show p0 + (t.length + 1) =
                        (t ++ ['\n']).length + p0 by simp; omega] at hx
                      rw [List.drop_append p0] at hx
                      exact hq0reg x hx

theorem convertToQuarto_noFm_some (settings : ObsidianToQuartoSettings)
    (basename : String) (fileDate : JsDate) (allTags : List String)
    (vault : String → Option String) (content : String) (p : Nat)
    (hfm : fmSplit content = Option.none)
    (hsp : searchPreHeaderGo content.data 0 true = Option.some p) :
    convertToQuarto settings basename fileDate allTags vault content =
      newFrontmatter settings basename (formatDate settings.dateFormat fileDate)
        (getFileTags allTags) Option.none ++
      (jsTrim ⟨content.data.take p⟩ ++ "\n\n") ++
      (⟨bodyPipeline vault (content.data.drop p)⟩ : String) := by
  unfold convertToQuarto
  rw [hfm]
  show newFrontmatter settings basename (formatDate settings.dateFormat fileDate)
      (getFileTags allTags) Option.none ++
    (match searchPreHeaderGo content.data 0 true with
     | Option.some i => jsTrim ⟨content.data.take i⟩ ++ "\n\n"
     | Option.none => "") ++
    (⟨bodyPipeline vault (match searchPreHeaderGo content.data 0 true with
     | Option.some i => content.data.drop i
     | Option.none => content.data)⟩ : String) = _
  rw [hsp]

/-- Pre-header frame in the no-frontmatter case: when the input has no
leading frontmatter block and contains a first header line (optional
leading whitespace then `#`, at line index `q` of the character stream),
`convertToQuarto` sets the pre-header content aside before any rewrite
runs: the code's split point `p` falls at or before `q` with only
whitespace in between, and the output is exactly the new metadata block,
followed by the pre-header region emitted verbatim except for trimming
plus a blank line, followed by the rewrite pipeline applied only to the
content from the split point on. -/
theorem convertToQuarto_preheader_untouched (settings : ObsidianToQuartoSettings)
    (basename : String) (fileDate : JsDate) (allTags : List String)
    (vault : String → Option String) (content : String) (q : Nat)
    (hfm : fmSplit content = Option.none)
    (hq : firstHeaderLineIdxSpec content.data = Option.some q) :
    ∃ p, searchPreHeaderGo content.data 0 true = Option.some p ∧ p ≤ q ∧
      convertToQuarto settings basename fileDate allTags vault content =
        newFrontmatter settings basename (formatDate settings.dateFormat fileDate)
          (getFileTags allTags) Option.none ++
        (jsTrim ⟨content.data.take q⟩ ++ "\n\n") ++
        (⟨bodyPipeline vault (content.data.drop p)⟩ : String) := by
  cases hsp : searchPreHeaderGo content.data 0 true with
  | none =>
      exfalso
      have h0 := (preHeader_scan_rel content.data.length content.data
        (le_refl _)).1 hsp
      rw [hq] at h0
      exact Option.noConfusion h0
  | some p =>
      obtain ⟨q2, hq2, hpq, hreg⟩ := (preHeader_scan_rel content.data.length
        content.data (le_refl _)).2 p hsp
      rw [hq] at hq2
      injection hq2 with hq2e
      subst hq2e
      refine ⟨p, rfl, hpq, ?_⟩
      rw [convertToQuarto_noFm_some settings basename fileDate allTags vault
        content p hfm hsp]
      have hsplit : content.data.take q =
          content.data.take p ++ (content.data.take q).drop p := by
        conv_lhs => rw [← List.take_append_drop p (content.data.take q)]
        rw [List.take_take, Nat.min_eq_left hpq]
      have htrim : jsTrim ⟨content.data.take q⟩ = jsTrim ⟨content.data.take p⟩ := by
        show (⟨jsTrimL (content.data.take q)⟩ : String) =
          ⟨jsTrimL (content.data.take p)⟩
        rw [hsplit, jsTrimL_append_ws _ _ hreg]
      rw [htrim]

theorem convertToQuarto_preheader_untouched_witness :
    fmSplit "hi\n# T\nbody" = Option.none ∧
    firstHeaderLineIdxSpec "hi\n# T\nbody".data = Option.some 3 ∧
    ∃ p, searchPreHeaderGo "hi\n# T\nbody".data 0 true = Option.some p ∧ p ≤ 3 ∧
      convertToQuarto DEFAULT_SETTINGS "N" ⟨2024, 0, 1, 0, 0, 0⟩ []
          (fun _ => Option.none) "hi\n# T\nbody" =
        newFrontmatter DEFAULT_SETTINGS "N"
          (formatDate DEFAULT_SETTINGS.dateFormat ⟨2024, 0, 1, 0, 0, 0⟩)
          (getFileTags []) Option.none ++
        (jsTrim ⟨"hi\n# T\nbody".data.take 3⟩ ++ "\n\n") ++
        (⟨bodyPipeline (fun _ => Option.none) ("hi\n# T\nbody".data.drop p)⟩ :
          String) :=
  ⟨rfl, rfl, convertToQuarto_preheader_untouched DEFAULT_SETTINGS "N"
    ⟨2024, 0, 1, 0, 0, 0⟩ [] (fun _ => Option.none) "hi\n# T\nbody" 3 rfl rfl⟩

/-- C10 counterexample — on the raw-text reading the claim fails for inputs
with a leading frontmatter block: the content before the first header line
includes the frontmatter, which is dissected into the merged metadata block
rather than set aside, and its trimmed text followed by a blank line never
appears in the output. -/
theorem convertToQuarto_frontmatter_preheader_dissected :
    firstHeaderLineIdxSpec
        "---\nfoo: 1\n---\nhi\n# T\nbody".data = Option.some 18 ∧
    convertToQuarto DEFAULT_SETTINGS "N" ⟨2024, 0, 1, 0, 0, 0⟩ []
        (fun _ => Option.none) "---\nfoo: 1\n---\nhi\n# T\nbody" =
      "---\ntitle: \"N\"\nfoo: 1\n\n---\n\nhi\n\n\n# T\nbody" ∧
    containsSub
      (jsTrimL ("---\nfoo: 1\n---\nhi\n# T\nbody".data.take 18) ++ "\n\n".data)
      (convertToQuarto DEFAULT_SETTINGS "N" ⟨2024, 0, 1, 0, 0, 0⟩ []
        (fun _ => Option.none) "---\nfoo: 1\n---\nhi\n# T\nbody").data =
      false := by
  refine ⟨by decide, by decide, by decide⟩

theorem convertToQuarto_split_some (settings : ObsidianToQuartoSettings)
    (basename : String) (fileDate : JsDate) (allTags : List String)
    (vault : String → Option String) (content : String) (p : Nat)
    (hsp : searchPreHeaderGo (mainContentOf content).data 0 true =
      Option.some p) :
    convertToQuarto settings basename fileDate allTags vault content =
      newFrontmatter settings basename (formatDate settings.dateFormat fileDate)
        (getFileTags allTags) ((fmSplit content).map Prod.fst) ++
      (jsTrim ⟨(mainContentOf content).data.take p⟩ ++ "\n\n") ++
      (⟨bodyPipeline vault ((mainContentOf content).data.drop p)⟩ : String) := by
  unfold convertToQuarto
  show newFrontmatter settings basename (formatDate settings.dateFormat fileDate)
      (getFileTags allTags) ((fmSplit content).map Prod.fst) ++
    (match searchPreHeaderGo (mainContentOf content).data 0 true with
     | Option.some i => jsTrim ⟨(mainContentOf content).data.take i⟩ ++ "\n\n"
     | Option.none => "") ++
    (⟨bodyPipeline vault
      (match searchPreHeaderGo (mainContentOf content).data 0 true with
       | Option.some i => (mainContentOf content).data.drop i
       | Option.none => (mainContentOf content).data)⟩ : String) = _
  rw [hsp]

/-- C10 (amended): for every input, after the leading frontmatter block (if
any) is split off, if the remaining main content contains a first header
line (optional leading whitespace then `#`, at line index `q` of the
character stream) then that pre-header content is set aside before any
rewrite runs: the code's split point `p` falls at or before `q` with only
whitespace in between, and the output is exactly the merged metadata
block, followed by the pre-header region emitted verbatim except for
trimming plus a blank line, followed by the rewrite pipeline (images,
embeds, header spacing, callouts) applied only to the content from the
split point on.  (For inputs with a frontmatter block, the raw-text
reading of the claim fails: the frontmatter is merged into the metadata
block, not set aside.) -/
theorem convertToQuarto_preheader_set_aside (settings : ObsidianToQuartoSettings)
    (basename : String) (fileDate : JsDate) (allTags : List String)
    (vault : String → Option String) (content : String) (q : Nat)
    (hq : firstHeaderLineIdxSpec (mainContentOf content).data = Option.some q) :
    ∃ p, searchPreHeaderGo (mainContentOf content).data 0 true =
        Option.some p ∧ p ≤ q ∧
      convertToQuarto settings basename fileDate allTags vault content =
        newFrontmatter settings basename
          (formatDate settings.dateFormat fileDate)
          (getFileTags allTags) ((fmSplit content).map Prod.fst) ++
        (jsTrim ⟨(mainContentOf content).data.take q⟩ ++ "\n\n") ++
        (⟨bodyPipeline vault ((mainContentOf content).data.drop p)⟩ :
          String) := by
  cases hsp : searchPreHeaderGo (mainContentOf content).data 0 true with
  | none =>
      exfalso
      have h0 := (preHeader_scan_rel (mainContentOf content).data.length
        (mainContentOf content).data (le_refl _)).1 hsp
      rw [hq] at h0
      exact Option.noConfusion h0
  | some p =>
      obtain ⟨q2, hq2, hpq, hreg⟩ := (preHeader_scan_rel
        (mainContentOf content).data.length (mainContentOf content).data
        (le_refl _)).2 p hsp
      rw [hq] at hq2
      injection hq2 with hq2e
      subst hq2e
      refine ⟨p, rfl, hpq, ?_⟩
      rw [convertToQuarto_split_some settings basename fileDate allTags vault
        content p hsp]
      have hsplit : (mainContentOf content).data.take q =
          (mainContentOf content).data.take p ++
            ((mainContentOf content).data.take q).drop p := by
        conv_lhs => rw [← List.take_append_drop p
          ((mainContentOf content).data.take q)]
        rw [List.take_take, Nat.min_eq_left hpq]
      have htrim : jsTrim ⟨(mainContentOf content).data.take q⟩ =
          jsTrim ⟨(mainContentOf content).data.take p⟩ := by
        show (⟨jsTrimL ((mainContentOf content).data.take q)⟩ : String) =
          ⟨jsTrimL ((mainContentOf content).data.take p)⟩
        rw [hsplit, jsTrimL_append_ws _ _ hreg]
      rw [htrim]

/-- Witness for the amended C10 theorem on an input *with* a leading
frontmatter block. -/
theorem convertToQuarto_preheader_set_aside_witness :
    firstHeaderLineIdxSpec
        (mainContentOf "---\nfoo: 1\n---\nhi\n# T\nbody").data =
      Option.some 3 ∧
    ∃ p, searchPreHeaderGo
        (mainContentOf "---\nfoo: 1\n---\nhi\n# T\nbody").data 0 true =
        Option.some p ∧ p ≤ 3 ∧
      convertToQuarto DEFAULT_SETTINGS "N" ⟨2024, 0, 1, 0, 0, 0⟩ []
          (fun _ => Option.none) "---\nfoo: 1\n---\nhi\n# T\nbody" =
        newFrontmatter DEFAULT_SETTINGS "N"
          (formatDate DEFAULT_SETTINGS.dateFormat ⟨2024, 0, 1, 0, 0, 0⟩)
          (getFileTags [])
          ((fmSplit "---\nfoo: 1\n---\nhi\n# T\nbody").map Prod.fst) ++
        (jsTrim
          ⟨(mainContentOf "---\nfoo: 1\n---\nhi\n# T\nbody").data.take 3⟩ ++
          "\n\n") ++
        (⟨bodyPipeline (fun _ => Option.none)
          ((mainContentOf "---\nfoo: 1\n---\nhi\n# T\nbody").data.drop p)⟩ :
          String) :=
  ⟨rfl, convertToQuarto_preheader_set_aside DEFAULT_SETTINGS "N"
    ⟨2024, 0, 1, 0, 0, 0⟩ [] (fun _ => Option.none)
    "---\nfoo: 1\n---\nhi\n# T\nbody" 3 rfl⟩

/-- Spec-side reading of the C8 invariant: the text following the metadata
block's closing delimiter, located the way the block itself is parsed (the
first `\n---\n` after the opening `---\n`). -/
def closeRestSpec (out : List Char) : Option (List Char) :=
  if listPref "---\n".data out then
    (splitFirstInfix "\n---\n".data (out.drop 4)).map Prod.snd
  else Option.none

/-- C8 counterexample: on input `"# T\nhello"` (no frontmatter, header on the
first line) with default settings, the closing `---` of the emitted metadata
block is followed by four newlines - four blank lines, not exactly one: the
block itself contributes one, the pre-header split always appends two more,
and the header-spacing rewrite prepends yet another before `# T`. -/
theorem convertToQuarto_close_blanks_not_one :
    (closeRestSpec (convertToQuarto DEFAULT_SETTINGS "N" ⟨2024, 0, 1, 0, 0, 0⟩ []
        (fun _ => Option.none) "# T\nhello").data).map
      (fun r => (r.takeWhile (· = '\n')).length) = Option.some 4 := by decide

/-- The interior of a frontmatter block as newline-terminated lines. -/
def linesJoin : List (List Char) → List Char
  | [] => []
  | l :: ls => l ++ '\n' :: linesJoin ls

theorem linesJoin_append (A B : List (List Char)) :
    linesJoin (A ++ B) = linesJoin A ++ linesJoin B := by
  induction A with
  | nil => rfl
  | cons l ls ih =>
      show l ++ '\n' :: linesJoin (ls ++ B) =
        (l ++ '\n' :: linesJoin ls) ++ linesJoin B
      rw [ih, List.append_assoc]
      rfl

theorem joinNlL_append_nl : ∀ (L : List (List Char)), L ≠ [] →
    joinNlL L ++ ['\n'] = linesJoin L := by
  intro L
  induction L with
  | nil => intro h; exact absurd rfl h
  | cons l ls ih =>
      intro _
      cases hls : ls with
      | nil => rfl
      | cons l2 ls2 =>
          show (l ++ '\n' :: joinNlL (l2 :: ls2)) ++ ['\n'] =
            l ++ '\n' :: linesJoin (l2 :: ls2)
          rw [List.append_assoc]
          rw [show ('\n' :: joinNlL (l2 :: ls2)) ++ ['\n'] =
            '\n' :: (joinNlL (l2 :: ls2) ++ ['\n']) from rfl]
          rw [hls] at ih
          rw [ih (by simp)]

theorem listPref_append_self (p x : List Char) : listPref p (p ++ x) = true := by
  induction p with
  | nil => rfl
  | cons a ps ih =>
      show (decide (a = a) && listPref ps (ps ++ x)) = true
      rw [ih]
      simp

theorem splitFirstInfix_self (s : Char) (ss b : List Char) :
    splitFirstInfix (s :: ss) ((s :: ss) ++ b) = Option.some ([], b) := by
  show (if listPref (s :: ss) (s :: (ss ++ b)) then
      Option.some (([] : List Char), (s :: (ss ++ b)).drop (s :: ss).length)
    else
      match splitFirstInfix (s :: ss) (ss ++ b) with
      | Option.some (a, b2) => Option.some (s :: a, b2)
      | Option.none => Option.none) = Option.some ([], b)
  rw [show listPref (s :: ss) (s :: (ss ++ b)) = true from
    listPref_append_self (s :: ss) b]
  rw [if_pos rfl]
  rw [show (s :: (ss ++ b)).drop (s :: ss).length = b from List.drop_left ss b]

theorem splitFirstInfix_skip (ss : List Char) :
    ∀ (l : List Char), '\n' ∉ l → ∀ rest,
      splitFirstInfix ('\n' :: ss) (l ++ rest) =
        match splitFirstInfix ('\n' :: ss) rest with
        | Option.some (x, y) => Option.some (l ++ x, y)
        | Option.none => Option.none := by
  intro l
  induction l with
  | nil =>
      intro _ rest
      rw [show ([] : List Char) ++ rest = rest from rfl]
      cases h : splitFirstInfix ('\n' :: ss) rest with
      | none => rfl
      | some pr =>
          cases pr with
          | mk x y =>
              show Option.some (x, y) = Option.some ([] ++ x, y)
              rw [List.nil_append]
  | cons c l' ih =>
      intro hnl rest
      have hc : c ≠ '\n' := fun h => hnl (h ▸ List.mem_cons_self c l')
      have hl' : '\n' ∉ l' := fun h => hnl (List.mem_cons_of_mem c h)
      show (if listPref ('\n' :: ss) (c :: (l' ++ rest)) then
          Option.some (([] : List Char),
            (c :: (l' ++ rest)).drop ('\n' :: ss).length)
        else
          match splitFirstInfix ('\n' :: ss) (l' ++ rest) with
          | Option.some (a, b2) => Option.some (c :: a, b2)
          | Option.none => Option.none) = _
      rw [show listPref ('\n' :: ss) (c :: (l' ++ rest)) = false from by
        show (decide (('\n' : Char) = c) && listPref ss (l' ++ rest)) = false
        rw [decide_eq_false (fun h => hc h.symm)]
        rfl]
      rw [if_neg Bool.false_ne_true]
      rw [ih hl' rest]
      cases h : splitFirstInfix ('\n' :: ss) rest with
      | none => rfl
      | some pr =>
          cases pr with
          | mk x y =>
              show Option.some (c :: (l' ++ x), y) = Option.some ((c :: l') ++ x, y)
              rw [List.cons_append]

theorem dashes_nl_pref_false (l2 : List Char) (h2 : '\n' ∉ l2)
    (hne : l2 ≠ ('-' :: '-' :: '-' :: [])) (R : List Char) :
    listPref ('-' :: '-' :: '-' :: '\n' :: []) (l2 ++ '\n' :: R) = false := by
  apply Bool.eq_false_iff.mpr
  intro h
  rw [listPref_iff_take] at h
  rcases l2 with _ | ⟨a, _ | ⟨b, _ | ⟨c, _ | ⟨d, l''⟩⟩⟩⟩
  · have h' : ('\n' :: R.take 3 : List Char) = '-' :: '-' :: '-' :: '\n' :: [] := h
    injection h' with h1 _
    exact absurd h1 (by decide)
  · have h' : (a :: '\n' :: R.take 2 : List Char) =
      '-' :: '-' :: '-' :: '\n' :: [] := h
    injection h' with _ h''
    injection h'' with h3 _
    exact absurd h3 (by decide)
  · have h' : (a :: b :: '\n' :: R.take 1 : List Char) =
      '-' :: '-' :: '-' :: '\n' :: [] := h
    injection h' with _ h''
    injection h'' with _ h'''
    injection h''' with h4 _
    exact absurd h4 (by decide)
  · have h' : (a :: b :: c :: '\n' :: [] : List Char) =
      '-' :: '-' :: '-' :: '\n' :: [] := h
    injection h' with ha h''
    injection h'' with hbq h'''
    injection h''' with hcq _
    subst ha; subst hbq; subst hcq
    exact hne rfl
  · have h' : (a :: b :: c :: d :: [] : List Char) =
      '-' :: '-' :: '-' :: '\n' :: [] := h
    injection h' with _ h''
    injection h'' with _ h'''
    injection h''' with _ h4
    injection h4 with hd _
    subst hd
    exact h2 (by simp)

theorem splitFirstInfix_lines :
    ∀ (L : List (List Char)), L ≠ [] →
      (∀ l ∈ L, '\n' ∉ l) → (∀ l ∈ L, l ≠ ('-' :: '-' :: '-' :: [])) →
      ∀ tail, ∃ pre,
        splitFirstInfix ('\n' :: '-' :: '-' :: '-' :: '\n' :: [])
          (linesJoin L ++ ('-' :: '-' :: '-' :: '\n' :: '\n' :: tail)) =
        Option.some (pre, '\n' :: tail) := by
  intro L
  induction L with
  | nil => intro h; exact absurd rfl h
  | cons l ls ih =>
      intro _ h1 h2 tail
      have hlnl : '\n' ∉ l := h1 l (List.mem_cons_self l ls)
      have hassoc : linesJoin (l :: ls) ++ ('-' :: '-' :: '-' :: '\n' :: '\n' :: tail) =
          l ++ ('\n' :: (linesJoin ls ++ ('-' :: '-' :: '-' :: '\n' :: '\n' :: tail))) := by
        show (l ++ '\n' :: linesJoin ls) ++ _ = _
        rw [List.append_assoc]
        rfl
      rw [hassoc, splitFirstInfix_skip ('-' :: '-' :: '-' :: '\n' :: []) l hlnl]
      cases hls : ls with
      | nil =>
          have hred : splitFirstInfix ('\n' :: '-' :: '-' :: '-' :: '\n' :: [])
              ('\n' :: (linesJoin ([] : List (List Char)) ++
                ('-' :: '-' :: '-' :: '\n' :: '\n' :: tail))) =
              Option.some ([], '\n' :: tail) := by
            show splitFirstInfix ('\n' :: '-' :: '-' :: '-' :: '\n' :: [])
              (('\n' :: '-' :: '-' :: '-' :: '\n' :: []) ++ ('\n' :: tail)) = _
            exact splitFirstInfix_self '\n' ('-' :: '-' :: '-' :: '\n' :: [])
              ('\n' :: tail)
          rw [hred]
          exact ⟨l ++ [], rfl⟩
      | cons l2 ls2 =>
          subst hls
          have hl2nl : '\n' ∉ l2 := h1 l2 (by simp)
          have hl2ne : l2 ≠ ('-' :: '-' :: '-' :: []) := h2 l2 (by simp)
          have hb : listPref ('\n' :: '-' :: '-' :: '-' :: '\n' :: [])
              ('\n' :: (linesJoin (l2 :: ls2) ++
                ('-' :: '-' :: '-' :: '\n' :: '\n' :: tail))) = false := by
            show (decide (('\n' : Char) = '\n') &&
              listPref ('-' :: '-' :: '-' :: '\n' :: [])
                (linesJoin (l2 :: ls2) ++
                  ('-' :: '-' :: '-' :: '\n' :: '\n' :: tail))) = false
            rw [show linesJoin (l2 :: ls2) ++
                ('-' :: '-' :: '-' :: '\n' :: '\n' :: tail) =
                l2 ++ '\n' :: (linesJoin ls2 ++
                  ('-' :: '-' :: '-' :: '\n' :: '\n' :: tail)) from by
              show (l2 ++ '\n' :: linesJoin ls2) ++ _ = _
              rw [List.append_assoc]
              rfl]
            rw [dashes_nl_pref_false l2 hl2nl hl2ne]
            rfl
          have hstep : splitFirstInfix ('\n' :: '-' :: '-' :: '-' :: '\n' :: [])
              ('\n' :: (linesJoin (l2 :: ls2) ++
                ('-' :: '-' :: '-' :: '\n' :: '\n' :: tail))) =
              match splitFirstInfix ('\n' :: '-' :: '-' :: '-' :: '\n' :: [])
                (linesJoin (l2 :: ls2) ++
                  ('-' :: '-' :: '-' :: '\n' :: '\n' :: tail)) with
              | Option.some (a, b2) => Option.some ('\n' :: a, b2)
              | Option.none => Option.none := by
            show (if listPref ('\n' :: '-' :: '-' :: '-' :: '\n' :: [])
                ('\n' :: (linesJoin (l2 :: ls2) ++
                  ('-' :: '-' :: '-' :: '\n' :: '\n' :: tail))) then
                Option.some (([] : List Char),
                  ('\n' :: (linesJoin (l2 :: ls2) ++
                    ('-' :: '-' :: '-' :: '\n' :: '\n' :: tail))).drop
                    ('\n' :: '-' :: '-' :: '-' :: '\n' :: []).length)
              else
                match splitFirstInfix ('\n' :: '-' :: '-' :: '-' :: '\n' :: [])
                  (linesJoin (l2 :: ls2) ++
                    ('-' :: '-' :: '-' :: '\n' :: '\n' :: tail)) with
                | Option.some (a, b2) => Option.some ('\n' :: a, b2)
                | Option.none => Option.none) = _
            rw [hb, if_neg Bool.false_ne_true]
          obtain ⟨pre2, hpre2⟩ := ih (by simp)
            (fun x hx => h1 x (List.mem_cons_of_mem l hx))
            (fun x hx => h2 x (List.mem_cons_of_mem l hx)) tail
          rw [hstep, hpre2]
          exact ⟨l ++ '\n' :: pre2, rfl⟩

/-- The lines of the merged frontmatter block's interior as `newFrontmatter`
builds it: the quoted title, the optional date, the optional tag list, and the
carried-over original lines (one empty line when the carry pass keeps
nothing). -/
def nfLines (settings : ObsidianToQuartoSettings) (title dateStr : String)
    (fileTags : List String) (fmInner : Option String) : List (List Char) :=
  ("title: \"" ++ title ++ "\"").data ::
  ((if settings.dateOption = DateOption.none then []
    else [("date: \"" ++ dateStr ++ "\"").data]) ++
   ((if settings.importTags && !fileTags.isEmpty then
      "tags:".data ::
        (fileTags.map (fun t => ("  - " ++ t : String))).map String.data
    else []) ++
   (match fmInner with
    | Option.some x =>
        if (existingLinesKept x).isEmpty then [([] : List Char)]
        else existingLinesKept x
    | Option.none => [])))

theorem newFrontmatter_data_eq (settings : ObsidianToQuartoSettings)
    (title dateStr : String) (fileTags : List String) (fmInner : Option String) :
    (newFrontmatter settings title dateStr fileTags fmInner).data =
      ('-' :: '-' :: '-' :: '\n' :: []) ++
      (linesJoin (nfLines settings title dateStr fileTags fmInner) ++
       ('-' :: '-' :: '-' :: '\n' :: '\n' :: [])) := by
  have e0 : ∀ l : List Char, ((⟨l⟩ : String)).data = l := fun _ => rfl
  have e1 : ("---\ntitle: \"" : String).data =
      '-' :: '-' :: '-' :: '\n' :: ("title: \"" : String).data := rfl
  have e2 : ("\"\n" : String).data = ('"' :: '\n' :: ([] : List Char)) := rfl
  have e3 : ("---\n\n" : String).data =
      ('-' :: '-' :: '-' :: '\n' :: '\n' :: ([] : List Char)) := rfl
  have e4 : ("\"" : String).data = (['"'] : List Char) := rfl
  have e5 : ("\n" : String).data = (['\n'] : List Char) := rfl
  have e6 : ("tags:\n" : String).data =
      ("tags:" : String).data ++ ('\n' :: ([] : List Char)) := rfl
  have e7 : ∀ ls : List String, (joinNl ls).data = joinNlL (ls.map String.data) :=
    fun _ => rfl
  have hcarryL : ∀ x : String,
      joinNlL (existingLinesKept x) ++ ('\n' :: ([] : List Char)) =
      linesJoin (if existingLinesKept x = [] then [([] : List Char)]
        else existingLinesKept x) := by
    intro x
    by_cases hem : existingLinesKept x = []
    · rw [hem, if_pos rfl]
      simp [linesJoin, joinNlL]
    · rw [if_neg hem, ← joinNlL_append_nl _ hem]
  cases fmInner with
  | none =>
      by_cases hd : settings.dateOption = DateOption.none
      · by_cases htg : (settings.importTags && !fileTags.isEmpty) = true
        · have hjt := joinNlL_append_nl
            (fileTags.map (String.data ∘ fun t => ("  - " ++ t : String)))
            (by cases fileTags with
                | nil => simp at htg
                | cons f fs => simp)
          simp [newFrontmatter, computedKeys, nfLines, hd, htg, strData_append,
            e0, e1, e2, e3, e4, e5, e6, e7, linesJoin_append, linesJoin, ← hjt,
            List.append_assoc]
        · have htg' : (settings.importTags && !fileTags.isEmpty) = false :=
            Bool.eq_false_iff.mpr htg
          simp [newFrontmatter, computedKeys, nfLines, hd, htg', strData_append,
            e0, e1, e2, e3, e4, e5, e6, e7, linesJoin_append, linesJoin,
            List.append_assoc]
      · by_cases htg : (settings.importTags && !fileTags.isEmpty) = true
        · have hjt := joinNlL_append_nl
            (fileTags.map (String.data ∘ fun t => ("  - " ++ t : String)))
            (by cases fileTags with
                | nil => simp at htg
                | cons f fs => simp)
          simp [newFrontmatter, computedKeys, nfLines, hd, htg, strData_append,
            e0, e1, e2, e3, e4, e5, e6, e7, linesJoin_append, linesJoin, ← hjt,
            List.append_assoc]
        · have htg' : (settings.importTags && !fileTags.isEmpty) = false :=
            Bool.eq_false_iff.mpr htg
          simp [newFrontmatter, computedKeys, nfLines, hd, htg', strData_append,
            e0, e1, e2, e3, e4, e5, e6, e7, linesJoin_append, linesJoin,
            List.append_assoc]
  | some x =>
      by_cases hd : settings.dateOption = DateOption.none
      · by_cases htg : (settings.importTags && !fileTags.isEmpty) = true
        · have hjt := joinNlL_append_nl
            (fileTags.map (String.data ∘ fun t => ("  - " ++ t : String)))
            (by cases fileTags with
                | nil => simp at htg
                | cons f fs => simp)
          simp [newFrontmatter, computedKeys, nfLines, hd, htg, strData_append,
            e0, e1, e2, e3, e4, e5, e6, e7, linesJoin_append, linesJoin, ← hjt,
            ← hcarryL x, List.append_assoc]
        · have htg' : (settings.importTags && !fileTags.isEmpty) = false :=
            Bool.eq_false_iff.mpr htg
          simp [newFrontmatter, computedKeys, nfLines, hd, htg', strData_append,
            e0, e1, e2, e3, e4, e5, e6, e7, linesJoin_append, linesJoin,
            ← hcarryL x, List.append_assoc]
      · by_cases htg : (settings.importTags && !fileTags.isEmpty) = true
        · have hjt := joinNlL_append_nl
            (fileTags.map (String.data ∘ fun t => ("  - " ++ t : String)))
            (by cases fileTags with
                | nil => simp at htg
                | cons f fs => simp)
          simp [newFrontmatter, computedKeys, nfLines, hd, htg, strData_append,
            e0, e1, e2, e3, e4, e5, e6, e7, linesJoin_append, linesJoin, ← hjt,
            ← hcarryL x, List.append_assoc]
        · have htg' : (settings.importTags && !fileTags.isEmpty) = false :=
            Bool.eq_false_iff.mpr htg
          simp [newFrontmatter, computedKeys, nfLines, hd, htg', strData_append,
            e0, e1, e2, e3, e4, e5, e6, e7, linesJoin_append, linesJoin,
            ← hcarryL x, List.append_assoc]

theorem listPref_of_eq_append (p l x : List Char) (h : l = p ++ x) :
    listPref p l = true := by
  rw [h]
  exact listPref_append_self p x

theorem nfLines_no_nl (settings : ObsidianToQuartoSettings) (title dateStr : String)
    (fileTags : List String) (fmInner : Option String)
    (hb : '\n' ∉ title.data) (hdd : '\n' ∉ dateStr.data)
    (htg : ∀ t ∈ fileTags, '\n' ∉ t.data) :
    ∀ l ∈ nfLines settings title dateStr fileTags fmInner, '\n' ∉ l := by
  intro l hl
  unfold nfLines at hl
  rcases List.mem_cons.mp hl with h | h
  · subst h
    intro hmem
    rw [strData_append, strData_append] at hmem
    rcases List.mem_append.mp hmem with h1 | h1
    · rcases List.mem_append.mp h1 with h2 | h2
      · exact absurd h2 (by decide)
      · exact hb h2
    · exact absurd h1 (by decide)
  · rcases List.mem_append.mp h with h1 | h1
    · by_cases hdo : settings.dateOption = DateOption.none
      · rw [if_pos hdo] at h1
        simp at h1
      · rw [if_neg hdo] at h1
        have h1' : l = ("date: \"" ++ dateStr ++ "\"").data := by simpa using h1
        subst h1'
        intro hmem
        rw [strData_append, strData_append] at hmem
        rcases List.mem_append.mp hmem with h2 | h2
        · rcases List.mem_append.mp h2 with h3 | h3
          · exact absurd h3 (by decide)
          · exact hdd h3
        · exact absurd h2 (by decide)
    · rcases List.mem_append.mp h1 with h2 | h2
      · by_cases htag : (settings.importTags && !fileTags.isEmpty) = true
        · rw [if_pos htag] at h2
          rcases List.mem_cons.mp h2 with h3 | h3
          · subst h3
            intro hmem
            exact absurd hmem (by decide)
          · rcases List.mem_map.mp h3 with ⟨t0, ht0, h4⟩
            rcases List.mem_map.mp ht0 with ⟨t, ht, h5⟩
            subst h5
            subst h4
            intro hmem
            rw [strData_append] at hmem
            rcases List.mem_append.mp hmem with h6 | h6
            · exact absurd h6 (by decide)
            · exact htg t ht h6
        · rw [if_neg htag] at h2
          simp at h2
      · cases fmInner with
        | none => simp at h2
        | some x =>
            have h2m : l ∈ (if (existingLinesKept x).isEmpty = true
                then [([] : List Char)] else existingLinesKept x) := h2
            by_cases hem : (existingLinesKept x).isEmpty = true
            · rw [if_pos hem] at h2m
              have h2' : l = [] := by simpa using h2m
              subst h2'
              simp
            · rw [if_neg hem] at h2m
              exact splitNl_mem_no_newline (x.data ++ ['\n']) l
                (List.mem_of_mem_filter h2m)

theorem nfLines_ne_dashes (settings : ObsidianToQuartoSettings)
    (title dateStr : String) (fileTags : List String) (fmInner : Option String) :
    ∀ l ∈ nfLines settings title dateStr fileTags fmInner,
      l ≠ ('-' :: '-' :: '-' :: []) := by
  intro l hl
  unfold nfLines at hl
  rcases List.mem_cons.mp hl with h | h
  · subst h
    intro hcon
    rw [strData_append, strData_append] at hcon
    rw [show ("title: \"" : String).data = 't' :: ("itle: \"" : String).data
      from rfl] at hcon
    rw [List.cons_append, List.cons_append] at hcon
    injection hcon with h1 _
    exact absurd h1 (by decide)
  · rcases List.mem_append.mp h with h1 | h1
    · by_cases hdo : settings.dateOption = DateOption.none
      · rw [if_pos hdo] at h1
        simp at h1
      · rw [if_neg hdo] at h1
        have h1' : l = ("date: \"" ++ dateStr ++ "\"").data := by simpa using h1
        subst h1'
        intro hcon
        rw [strData_append, strData_append] at hcon
        rw [show ("date: \"" : String).data = 'd' :: ("ate: \"" : String).data
          from rfl] at hcon
        rw [List.cons_append, List.cons_append] at hcon
        injection hcon with h1 _
        exact absurd h1 (by decide)
    · rcases List.mem_append.mp h1 with h2 | h2
      · by_cases htag : (settings.importTags && !fileTags.isEmpty) = true
        · rw [if_pos htag] at h2
          rcases List.mem_cons.mp h2 with h3 | h3
          · subst h3
            intro hcon
            exact absurd hcon (by decide)
          · rcases List.mem_map.mp h3 with ⟨t0, ht0, h4⟩
            rcases List.mem_map.mp ht0 with ⟨t, ht, h5⟩
            subst h5
            subst h4
            intro hcon
            rw [strData_append] at hcon
            rw [show ("  - " : String).data = ' ' :: (" - " : String).data
              from rfl] at hcon
            rw [List.cons_append] at hcon
            injection hcon with h1 _
            exact absurd h1 (by decide)
        · rw [if_neg htag] at h2
          simp at h2
      · cases fmInner with
        | none => simp at h2
        | some x =>
            have h2m : l ∈ (if (existingLinesKept x).isEmpty = true
                then [([] : List Char)] else existingLinesKept x) := h2
            by_cases hem : (existingLinesKept x).isEmpty = true
            · rw [if_pos hem] at h2m
              have h2' : l = [] := by simpa using h2m
              subst h2'
              intro hcon
              exact List.noConfusion hcon
            · rw [if_neg hem] at h2m
              intro hcon
              have hk := (List.mem_filter.mp h2m).2
              rw [hcon] at hk
              exact absurd hk (by decide)

/-- The pre-header segment of the `convertToQuarto` output (trimmed content
before the first `^\s*#` match, plus a blank line). -/
def ctqPreHeader (content : String) : String :=
  let mainContent :=
    match fmSplit content with
    | Option.some p => p.2
    | Option.none => content
  match searchPreHeaderGo mainContent.data 0 true with
  | Option.some i => jsTrim ⟨mainContent.data.take i⟩ ++ "\n\n"
  | Option.none => ""

/-- The rewritten body segment of the `convertToQuarto` output. -/
def ctqBody (vault : String → Option String) (content : String) : String :=
  let mainContent :=
    match fmSplit content with
    | Option.some p => p.2
    | Option.none => content
  (⟨bodyPipeline vault (match searchPreHeaderGo mainContent.data 0 true with
    | Option.some i => mainContent.data.drop i
    | Option.none => mainContent.data)⟩ : String)

theorem convertToQuarto_decomp (settings : ObsidianToQuartoSettings)
    (basename : String) (fileDate : JsDate) (allTags : List String)
    (vault : String → Option String) (content : String) :
    convertToQuarto settings basename fileDate allTags vault content =
      (newFrontmatter settings basename (formatDate settings.dateFormat fileDate)
        (getFileTags allTags) ((fmSplit content).map Prod.fst) ++
       ctqPreHeader content) ++ ctqBody vault content := rfl

/-- C8 (amended): for every input, settings and collaborators, provided that
the note's basename, the formatted date and the collected tags contain no
newline, the conversion result is non-empty, begins with a `---`-delimited
metadata block opening with the quoted title, and the block's closing `---`
delimiter (the first `\n---\n` after the opening, i.e. where the block's own
parser ends it) is followed by at least one blank line - not always exactly
one - before body content resumes. -/
theorem convertToQuarto_block_invariant (settings : ObsidianToQuartoSettings)
    (basename : String) (fileDate : JsDate) (allTags : List String)
    (vault : String → Option String) (content : String)
    (hb : '\n' ∉ basename.data)
    (hdd : '\n' ∉ (formatDate settings.dateFormat fileDate).data)
    (htg : ∀ t ∈ getFileTags allTags, '\n' ∉ t.data) :
    convertToQuarto settings basename fileDate allTags vault content ≠ "" ∧
    listPref ("---\ntitle: \"" ++ basename ++ "\"\n").data
      (convertToQuarto settings basename fileDate allTags vault content).data ∧
    ∃ r, closeRestSpec
        (convertToQuarto settings basename fileDate allTags vault content).data =
        Option.some r ∧
      1 ≤ (r.takeWhile (· = '\n')).length := by
  obtain ⟨L2, hL2⟩ : ∃ L2, nfLines settings basename
      (formatDate settings.dateFormat fileDate) (getFileTags allTags)
      ((fmSplit content).map Prod.fst) =
      ("title: \"" ++ basename ++ "\"").data :: L2 := ⟨_, rfl⟩
  have hout : (convertToQuarto settings basename fileDate allTags vault
      content).data =
      ('-' :: '-' :: '-' :: '\n' :: []) ++
      (linesJoin (nfLines settings basename
          (formatDate settings.dateFormat fileDate) (getFileTags allTags)
          ((fmSplit content).map Prod.fst)) ++
        ('-' :: '-' :: '-' :: '\n' :: '\n' ::
          ((ctqPreHeader content).data ++ (ctqBody vault content).data))) := by
    rw [convertToQuarto_decomp settings basename fileDate allTags vault content,
      strData_append, strData_append, newFrontmatter_data_eq]
    simp [List.append_assoc]
  have hpd : ("---\ntitle: \"" ++ basename ++ "\"\n").data =
      ('-' :: '-' :: '-' :: '\n' :: []) ++
      (("title: \"" ++ basename ++ "\"").data ++ ('\n' :: [])) := by
    simp [strData_append,
      show ("---\ntitle: \"" : String).data =
        '-' :: '-' :: '-' :: '\n' :: ("title: \"" : String).data from rfl,
      show ("\"\n" : String).data = ('"' :: '\n' :: ([] : List Char)) from rfl,
      show ("\"" : String).data = (['"'] : List Char) from rfl,
      List.append_assoc]
  have hpref : listPref ("---\ntitle: \"" ++ basename ++ "\"\n").data
      (convertToQuarto settings basename fileDate allTags vault
        content).data = true := by
    apply listPref_of_eq_append _ _
      (linesJoin L2 ++ ('-' :: '-' :: '-' :: '\n' :: '\n' ::
        ((ctqPreHeader content).data ++ (ctqBody vault content).data)))
    rw [hout, hpd, hL2]
    simp [linesJoin, List.append_assoc]
  refine ⟨?_, hpref, ?_⟩
  · intro hcon
    rw [hcon] at hpref
    rw [show ("" : String).data = ([] : List Char) from rfl] at hpref
    rw [show listPref ("---\ntitle: \"" ++ basename ++ "\"\n").data
        ([] : List Char) = false from by rw [hpd]; rfl] at hpref
    exact absurd hpref (by decide)
  · have hcond : listPref ("---\n" : String).data
        (convertToQuarto settings basename fileDate allTags vault
          content).data = true := by
      apply listPref_of_eq_append _ _
        (linesJoin (nfLines settings basename
            (formatDate settings.dateFormat fileDate) (getFileTags allTags)
            ((fmSplit content).map Prod.fst)) ++
          ('-' :: '-' :: '-' :: '\n' :: '\n' ::
            ((ctqPreHeader content).data ++ (ctqBody vault content).data)))
      rw [hout]
    have hdrop : (convertToQuarto settings basename fileDate allTags vault
        content).data.drop 4 =
        linesJoin (nfLines settings basename
          (formatDate settings.dateFormat fileDate) (getFileTags allTags)
          ((fmSplit content).map Prod.fst)) ++
        ('-' :: '-' :: '-' :: '\n' :: '\n' ::
          ((ctqPreHeader content).data ++ (ctqBody vault content).data)) := by
      rw [hout]
      rfl
    have hnl := nfLines_no_nl settings basename
      (formatDate settings.dateFormat fileDate) (getFileTags allTags)
      ((fmSplit content).map Prod.fst) hb hdd htg
    have hnd := nfLines_ne_dashes settings basename
      (formatDate settings.dateFormat fileDate) (getFileTags allTags)
      ((fmSplit content).map Prod.fst)
    have hne : nfLines settings basename
        (formatDate settings.dateFormat fileDate) (getFileTags allTags)
        ((fmSplit content).map Prod.fst) ≠ [] := by
      rw [hL2]
      simp
    obtain ⟨pre2, hsfi⟩ := splitFirstInfix_lines (nfLines settings basename
      (formatDate settings.dateFormat fileDate) (getFileTags allTags)
      ((fmSplit content).map Prod.fst)) hne hnl hnd
      ((ctqPreHeader content).data ++ (ctqBody vault content).data)
    refine ⟨'\n' :: ((ctqPreHeader content).data ++ (ctqBody vault content).data),
      ?_, ?_⟩
    · unfold closeRestSpec
      rw [hcond, if_pos rfl, hdrop]
      rw [show ("\n---\n" : String).data =
        ('\n' :: '-' :: '-' :: '-' :: '\n' :: []) from rfl]
      rw [hsfi]
      rfl
    · rw [List.takeWhile_cons_of_pos (by decide)]
      show 1 ≤ (((ctqPreHeader content).data ++
        (ctqBody vault content).data).takeWhile (· = '\n')).length + 1
      exact Nat.succ_le_succ (Nat.zero_le _)

theorem convertToQuarto_block_invariant_witness :
    ('\n' ∉ ("N" : String).data) ∧
    ('\n' ∉ (formatDate DEFAULT_SETTINGS.dateFormat ⟨2024, 0, 1, 0, 0, 0⟩).data) ∧
    (∀ t ∈ getFileTags [], '\n' ∉ t.data) ∧
    (convertToQuarto DEFAULT_SETTINGS "N" ⟨2024, 0, 1, 0, 0, 0⟩ []
        (fun _ => Option.none) "hello" ≠ "" ∧
     listPref ("---\ntitle: \"" ++ "N" ++ "\"\n").data
       (convertToQuarto DEFAULT_SETTINGS "N" ⟨2024, 0, 1, 0, 0, 0⟩ []
         (fun _ => Option.none) "hello").data ∧
     ∃ r, closeRestSpec (convertToQuarto DEFAULT_SETTINGS "N"
         ⟨2024, 0, 1, 0, 0, 0⟩ [] (fun _ => Option.none) "hello").data =
         Option.some r ∧
       1 ≤ (r.takeWhile (· = '\n')).length) :=
  ⟨by decide, by decide, by decide,
    convertToQuarto_block_invariant DEFAULT_SETTINGS "N" ⟨2024, 0, 1, 0, 0, 0⟩ []
      (fun _ => Option.none) "hello" (by decide) (by decide) (by decide)⟩

/-- Case-insensitive equality of char lists (the heading comparison the
header regex implements via the `i` flag). -/
def ciEq (a b : List Char) : Bool := decide (a.length = b.length) && ciPref a b

/-- Spec-side reading of a header line matching a heading: one or more
leading `#`, and the line's text after the hashes equals the heading
case-insensitively once trimmed. -/
def specHeaderLine (name l : List Char) : Bool :=
  decide (1 ≤ hashRun l) && ciEq name (jsTrimL (l.drop (hashRun l)))

/-- Spec-side reading of a terminating header line: level between 1 and `k`
(equal or shallower), hashes followed by a whitespace character. -/
def specNextHeaderLine (k : Nat) (l : List Char) : Bool :=
  decide (1 ≤ hashRun l) && decide (hashRun l ≤ k) &&
    (match l.drop (hashRun l) with
     | c :: _ => jsSpace c
     | [] => false)

/-- Index of the first line satisfying a predicate. -/
def findIdxO (p : List Char → Bool) : List (List Char) → Option Nat
  | [] => Option.none
  | l :: ls => if p l then Option.some 0 else (findIdxO p ls).map (· + 1)

/-- A line consisting of a (possibly empty) run of `#` followed by only
whitespace; such lines (bare-hash lines and blank lines) are where the
header regexes' `\s` and `\s*` cross newlines. -/
def lineOkC4 (l : List Char) : Bool := !((l.dropWhile (· = '#')).all jsSpace)

/-- Spec-side header-scoped region: the lines from the first header line
matching the heading up to but excluding the next header of equal or
shallower level, or to end-of-document if there is none. -/
def headerRegionSpec (name content : List Char) : Option (List Char) :=
  let L := splitNl content
  match findIdxO (specHeaderLine name) L with
  | Option.none => Option.none
  | Option.some i =>
      let k := hashRun (L.getD i [])
      match findIdxO (specNextHeaderLine k) (L.drop (i + 1)) with
      | Option.some j => Option.some (linesJoin ((L.drop i).take (j + 1)))
      | Option.none => Option.some (joinNlL (L.drop i))

/-- C4 counterexample: the code's header-not-found warning is capitalized
(`Header not found: ...`), so the claim's quoted lowercase
`header not found: <heading> in <noteName>` text never occurs. -/
theorem header_not_found_warning_capitalized :
    getEmbeddedNoteContent
        (fun n => if n = "Note" then Option.some "## Sec\nbody" else Option.none)
        "Note" (Option.some "#Missing") =
      "\n\n> [!warning] Header not found: Missing in Note\n\n" ∧
    containsSub "header not found".data
      (getEmbeddedNoteContent
        (fun n => if n = "Note" then Option.some "## Sec\nbody" else Option.none)
        "Note" (Option.some "#Missing")).data = false := by
  refine ⟨by decide, by decide⟩

theorem joinNlL_splitNl : ∀ cs : List Char, joinNlL (splitNl cs) = cs := by
  intro cs
  induction cs with
  | nil => rfl
  | cons c cs ih =>
      by_cases hc : c = '\n'
      · subst hc
        rw [show splitNl ('\n' :: cs) = [] :: splitNl cs from by
          show (if ('\n' : Char) = '\n' then [] :: splitNl cs else
            match splitNl cs with
            | [] => [['\n']]
            | h2 :: t2 => ('\n' :: h2) :: t2) = [] :: splitNl cs
          rw [if_pos rfl]]
        rw [joinNlL_cons_of_ne_nil [] _ (splitNl_ne_nil cs)]
        rw [ih]
        rfl
      · cases hs : splitNl cs with
        | nil => exact absurd hs (splitNl_ne_nil cs)
        | cons h t =>
            have hstep : splitNl (c :: cs) = (c :: h) :: t := by
              show (if c = '\n' then [] :: splitNl cs else
                match splitNl cs with
                | [] => [[c]]
                | h2 :: t2 => (c :: h2) :: t2) = (c :: h) :: t
              rw [if_neg hc, hs]
            rw [hstep]
            rw [hs] at ih
            cases t with
            | nil =>
                show c :: h = c :: cs
                rw [show joinNlL [h] = h from rfl] at ih
                rw [ih]
            | cons t1 t2 =>
                rw [joinNlL_cons_of_ne_nil (c :: h) _ (by simp)]
                rw [joinNlL_cons_of_ne_nil h _ (by simp)] at ih
                show c :: (h ++ '\n' :: joinNlL (t1 :: t2)) = c :: cs
                rw [ih]

theorem dropWhile_eq_drop (p : Char → Bool) :
    ∀ l : List Char, l.dropWhile p = l.drop (l.takeWhile p).length := by
  intro l
  induction l with
  | nil => rfl
  | cons c cs ih =>
      by_cases h : p c = true
      · rw [List.dropWhile_cons_of_pos h, List.takeWhile_cons_of_pos h]
        show cs.dropWhile p = cs.drop (cs.takeWhile p).length
        exact ih
      · have h' : p c = false := (Bool.eq_false_iff).mpr h
        rw [List.dropWhile_cons_of_neg (by simp [h']),
          List.takeWhile_cons_of_neg (by simp [h'])]
        rfl

theorem takeWhile_append_stable (p : Char → Bool) :
    ∀ (A B : List Char), (A.takeWhile p).length < A.length →
      (A ++ B).takeWhile p = A.takeWhile p := by
  intro A
  induction A with
  | nil => intro B h; simp at h
  | cons a A ih =>
      intro B h
      by_cases hp : p a = true
      · have h2 : (A.takeWhile p).length < A.length := by
          rw [List.takeWhile_cons_of_pos hp] at h
          simp only [List.length_cons] at h
          omega
        rw [List.cons_append, List.takeWhile_cons_of_pos hp,
          List.takeWhile_cons_of_pos hp, ih B h2]
      · have h' : p a = false := (Bool.eq_false_iff).mpr hp
        rw [List.cons_append, List.takeWhile_cons_of_neg (by simp [h']),
          List.takeWhile_cons_of_neg (by simp [h'])]

theorem takeWhile_all_append (p : Char → Bool) (a b : List Char)
    (h : ∀ x ∈ a, p x = true) :
    (a ++ b).takeWhile p = a ++ b.takeWhile p := by
  induction a with
  | nil => rfl
  | cons c cs ih =>
      rw [List.cons_append, List.takeWhile_cons_of_pos (h c (by simp)),
        ih (fun x hx => h x (by simp [hx])), List.cons_append]

theorem all_false_takeWhile_lt (p : Char → Bool) :
    ∀ (L : List Char), L.all p = false → (L.takeWhile p).length < L.length := by
  intro L
  induction L with
  | nil => intro h; simp at h
  | cons c cs ih =>
      intro h
      by_cases hp : p c = true
      · rw [List.takeWhile_cons_of_pos hp]
        have hcs : cs.all p = false := by
          rw [List.all_cons, hp] at h
          simpa using h
        simp only [List.length_cons]
        exact Nat.succ_lt_succ (ih hcs)
      · have h' : p c = false := (Bool.eq_false_iff).mpr hp
        rw [List.takeWhile_cons_of_neg (by simp [h'])]
        simp

theorem all_of_takeWhile_ge (p : Char → Bool) :
    ∀ (U s : List Char), U.length ≤ ((U ++ s).takeWhile p).length →
      ∀ c ∈ U, p c = true := by
  intro U
  induction U with
  | nil => intro s _ c hc; simp at hc
  | cons u U ih =>
      intro s h c hc
      by_cases hp : p u = true
      · rcases List.mem_cons.mp hc with h1 | h1
        · rw [h1]; exact hp
        · refine ih s ?_ c h1
          rw [List.cons_append, List.takeWhile_cons_of_pos hp] at h
          simp only [List.length_cons] at h
          omega
      · exfalso
        have h' : p u = false := (Bool.eq_false_iff).mpr hp
        rw [List.cons_append, List.takeWhile_cons_of_neg (by simp [h'])] at h
        simp at h

theorem take_ge_length {α : Type} : ∀ (l : List α) (n : Nat),
    l.length ≤ n → l.take n = l := by
  intro l
  induction l with
  | nil => intro n _; simp
  | cons a l ih =>
      intro n h
      cases n with
      | zero => simp at h
      | succ n =>
          rw [List.take_succ_cons, ih n (by simpa using h)]

theorem jsSpace_toLower (c : Char) (h : jsSpace c = true) : c.toLower = c := by
  simp only [jsSpace, Bool.or_eq_true, decide_eq_true_eq] at h
  rcases h with ((((h | h) | h) | h) | h) | h <;> subst h <;> decide

theorem descRange_succ (n : Nat) : descRange (n + 1) = (n + 1) :: descRange n := by
  unfold descRange
  rw [List.range_succ]
  simp

theorem findFirstSome_desc {β : Type} (f : Nat → Option β) :
    ∀ (M t : Nat) (v : β), t ≤ M →
      (∀ b, t < b → b ≤ M → f b = Option.none) →
      f t = Option.some v → findFirstSome f (descRange M) = Option.some v := by
  intro M
  induction M with
  | zero =>
      intro t v ht _ hf
      have ht0 : t = 0 := by omega
      subst ht0
      show (match f 0 with
        | Option.some b => Option.some b
        | Option.none => findFirstSome f []) = Option.some v
      rw [hf]
  | succ M ih =>
      intro t v ht hnone hf
      by_cases hMt : t = M + 1
      · subst hMt
        rw [descRange_succ]
        show (match f (M + 1) with
          | Option.some b => Option.some b
          | Option.none => findFirstSome f (descRange M)) = Option.some v
        rw [hf]
      · rw [descRange_succ]
        show (match f (M + 1) with
          | Option.some b => Option.some b
          | Option.none => findFirstSome f (descRange M)) = Option.some v
        rw [hnone (M + 1) (by omega) (le_refl _)]
        exact ih t v (by omega) (fun b h1 h2 => hnone b h1 (by omega)) hf

theorem findFirstSome_desc_none {β : Type} (f : Nat → Option β) :
    ∀ (M : Nat), (∀ b, b ≤ M → f b = Option.none) →
      findFirstSome f (descRange M) = Option.none := by
  intro M
  induction M with
  | zero =>
      intro h
      show (match f 0 with
        | Option.some b => Option.some b
        | Option.none => findFirstSome f []) = Option.none
      rw [h 0 (le_refl _)]
      rfl
  | succ M ih =>
      intro h
      rw [descRange_succ]
      show (match f (M + 1) with
        | Option.some b => Option.some b
        | Option.none => findFirstSome f (descRange M)) = Option.none
      rw [h (M + 1) (le_refl _)]
      exact ih (fun b hb => h b (by omega))

theorem bool_and_split {a b : Bool} (h : (a && b) = true) :
    a = true ∧ b = true := by
  cases a
  · simp at h
  · cases b
    · simp at h
    · exact ⟨rfl, rfl⟩

theorem listPref_append_ext : ∀ (p x y : List Char), listPref p x = true →
    listPref p (x ++ y) = true := by
  intro p
  induction p with
  | nil => intro x y _; rfl
  | cons a ps ih =>
      intro x y h
      cases x with
      | nil => simp [listPref] at h
      | cons c cs =>
          have h' := bool_and_split (show (decide (a = c) &&
            listPref ps cs) = true from h)
          show (decide (a = c) && listPref ps (cs ++ y)) = true
          rw [h'.1, ih cs y h'.2]
          rfl

theorem ciPref_iff_map : ∀ (p x : List Char), ciPref p x =
    listPref (p.map Char.toLower) (x.map Char.toLower) := by
  intro p
  induction p with
  | nil => intro x; rfl
  | cons a ps ih =>
      intro x
      cases x with
      | nil => rfl
      | cons c cs =>
          show (decide (a.toLower = c.toLower) && ciPref ps cs) =
            (decide (a.toLower = c.toLower) &&
              listPref (ps.map Char.toLower) (cs.map Char.toLower))
          rw [ih cs]

theorem ciEq_iff_map (p x : List Char) : ciEq p x = true ↔
    p.map Char.toLower = x.map Char.toLower := by
  unfold ciEq
  rw [ciPref_iff_map, Bool.and_eq_true, decide_eq_true_eq, listPref_iff_take]
  constructor
  · rintro ⟨h1, h2⟩
    rw [take_ge_length _ _ (by simp [h1])] at h2
    exact h2.symm
  · intro h
    have hlen : p.length = x.length := by
      have := congrArg List.length h
      simpa using this
    refine ⟨hlen, ?_⟩
    rw [take_ge_length _ _ (by simp [hlen])]
    exact h.symm

/-- The allowed follow-up of a line in the C4 analysis: end of input, or a
newline followed by content whose first line is not whitespace-only. -/
def sufOk (suffix : List Char) : Prop :=
  suffix = [] ∨ ∃ r', suffix = '\n' :: r' ∧
    wsRun r' < (r'.takeWhile (· ≠ '\n')).length

/-- The trailing `\s*$` loop of the header regex, named. -/
def hmInner2 (afterName : List Char) : Option Nat :=
  findFirstSome
    (fun b => if dollarAt (afterName.drop b) then Option.some b else Option.none)
    (descRange (wsRun afterName))

/-- The middle `\s*NAME` loop of the header regex, named. -/
def hmInner1 (name afterHash : List Char) (k : Nat) : Option (Nat × Nat) :=
  findFirstSome
    (fun a =>
      if ciPref name (afterHash.drop a) then
        (hmInner2 (afterHash.drop (a + name.length))).map
          (fun b => (k, k + a + name.length + b))
      else Option.none)
    (descRange (wsRun afterHash))

/-- The leading `(#+)` loop body of the header regex, named. -/
def hmOuter (name cs : List Char) (k : Nat) : Option (Nat × Nat) :=
  if k = 0 then Option.none else hmInner1 name (cs.drop k) k

theorem headerMatchAt_eq (name cs : List Char) :
    headerMatchAt name cs =
      findFirstSome (hmOuter name cs) (descRange (hashRun cs)) := rfl

theorem exists_trim_decomp (u : List Char) :
    ∃ W T, u = W ++ (jsTrimL u ++ T) ∧ W = u.takeWhile jsSpace ∧
      (∀ c ∈ W, jsSpace c = true) ∧ (∀ c ∈ T, jsSpace c = true) := by
  refine ⟨u.takeWhile jsSpace,
    ((u.dropWhile jsSpace).reverse.takeWhile jsSpace).reverse, ?_, rfl, ?_, ?_⟩
  · conv_lhs => rw [← List.takeWhile_append_dropWhile jsSpace u]
    congr 1
    have hv : (u.dropWhile jsSpace).reverse =
        (u.dropWhile jsSpace).reverse.takeWhile jsSpace ++
        (u.dropWhile jsSpace).reverse.dropWhile jsSpace :=
      (List.takeWhile_append_dropWhile _ _).symm
    have hv2 := congrArg List.reverse hv
    rw [List.reverse_reverse, List.reverse_append] at hv2
    conv_lhs => rw [hv2]
    rfl
  · intro c hc; exact List.mem_takeWhile_imp hc
  · intro c hc
    rw [List.mem_reverse] at hc
    exact List.mem_takeWhile_imp hc

theorem jsTrimL_decomp (W X T : List Char)
    (hW : ∀ c ∈ W, jsSpace c = true) (hT : ∀ c ∈ T, jsSpace c = true)
    (hXh : ∀ d, X.head? = Option.some d → jsSpace d = false)
    (hXl : ∀ d, X.getLast? = Option.some d → jsSpace d = false) :
    jsTrimL (W ++ (X ++ T)) = X := by
  unfold jsTrimL
  rw [dropWhile_all_append jsSpace W _ hW]
  cases hX : X with
  | nil =>
      rw [show ([] : List Char) ++ T = T from rfl]
      rw [(List.dropWhile_eq_nil_iff).mpr hT]
      rfl
  | cons x xs =>
      have hxw : jsSpace x = false := hXh x (by rw [hX]; rfl)
      rw [show (x :: xs) ++ T = x :: (xs ++ T) from rfl]
      rw [List.dropWhile_cons_of_neg (by simp [hxw])]
      rw [show (x :: (xs ++ T)).reverse = T.reverse ++ (x :: xs).reverse from by
        rw [show x :: (xs ++ T) = (x :: xs) ++ T from rfl, List.reverse_append]]
      rw [dropWhile_all_append jsSpace T.reverse _
        (fun c hc => hT c (List.mem_reverse.mp hc))]
      cases hrev : (x :: xs).reverse with
      | nil => exact absurd (congrArg List.length hrev) (by simp)
      | cons y ys =>
          have hyl : X.getLast? = Option.some y := by
            rw [hX, List.getLast?_eq_head?_reverse, hrev]
            rfl
          have hyw : jsSpace y = false := hXl y hyl
          rw [List.dropWhile_cons_of_neg (by simp [hyw])]
          rw [← hrev, List.reverse_reverse]

theorem ciPref_ws_head_false (name : List Char) (hne : name ≠ [])
    (hhead : ∀ c0, name.head? = Option.some c0 → jsSpace c0.toLower = false)
    (c : Char) (hc : jsSpace c = true) (X : List Char) :
    ciPref name (c :: X) = false := by
  cases name with
  | nil => exact absurd rfl hne
  | cons h0 hn' =>
      show (decide (h0.toLower = c.toLower) && ciPref hn' X) = false
      rw [show decide (h0.toLower = c.toLower) = false from by
        rw [jsSpace_toLower c hc]
        by_cases he : h0.toLower = c
        · exfalso
          have h1 := hhead h0 rfl
          rw [he] at h1
          rw [h1] at hc
          exact absurd hc (by decide)
        · exact decide_eq_false he]
      rfl

theorem ciPref_hash_head_false (name : List Char) (hne : name ≠ [])
    (hhead : ∀ c0, name.head? = Option.some c0 → c0.toLower ≠ '#')
    (X : List Char) :
    ciPref name ('#' :: X) = false := by
  cases name with
  | nil => exact absurd rfl hne
  | cons h0 hn' =>
      show (decide (h0.toLower = Char.toLower '#') && ciPref hn' X) = false
      rw [show Char.toLower '#' = '#' from by decide]
      rw [decide_eq_false (hhead h0 rfl)]
      rfl

theorem ci_head_ws_transfer (name X : List Char) (hci : ciEq name X = true)
    (hhead : ∀ c, name.head? = Option.some c → jsSpace c.toLower = false) :
    ∀ d, X.head? = Option.some d → jsSpace d = false := by
  intro d hd
  have hm := (ciEq_iff_map name X).mp hci
  have hh := congrArg List.head? hm
  rw [List.head?_map, List.head?_map, hd] at hh
  cases hhn : name.head? with
  | none => rw [hhn] at hh; simp at hh
  | some c =>
      rw [hhn] at hh
      have hh2 : Option.some c.toLower = Option.some d.toLower := hh
      injection hh2 with hh3
      by_cases hws : jsSpace d = true
      · exfalso
        have h1 := hhead c hhn
        rw [hh3, jsSpace_toLower d hws] at h1
        rw [h1] at hws
        exact absurd hws (by decide)
      · exact (Bool.eq_false_iff).mpr hws

theorem ci_last_ws_transfer (name X : List Char) (hci : ciEq name X = true)
    (hlast : ∀ c, name.getLast? = Option.some c → jsSpace c.toLower = false) :
    ∀ d, X.getLast? = Option.some d → jsSpace d = false := by
  intro d hd
  have hm := (ciEq_iff_map name X).mp hci
  have hrev := congrArg (fun t : List Char => t.reverse.head?) hm
  simp only [List.reverse_map, List.head?_map] at hrev
  rw [← List.getLast?_eq_head?_reverse, ← List.getLast?_eq_head?_reverse] at hrev
  rw [hd] at hrev
  cases hhn : name.getLast? with
  | none => rw [hhn] at hrev; simp at hrev
  | some c =>
      rw [hhn] at hrev
      have hh2 : Option.some c.toLower = Option.some d.toLower := hrev
      injection hh2 with hh3
      by_cases hws : jsSpace d = true
      · exfalso
        have h1 := hlast c hhn
        rw [hh3, jsSpace_toLower d hws] at h1
        rw [h1] at hws
        exact absurd hws (by decide)
      · exact (Bool.eq_false_iff).mpr hws

theorem hmInner2_val (T suffix : List Char) (hT : ∀ c ∈ T, jsSpace c = true)
    (hsuf : sufOk suffix) :
    hmInner2 (T ++ suffix) = Option.some T.length := by
  unfold hmInner2
  have hTtw : T.takeWhile jsSpace = T := by
    have h1 := takeWhile_all_append jsSpace T [] hT
    simpa using h1
  rcases hsuf with hs | ⟨r', hs, hrw⟩
  · subst hs
    rw [List.append_nil]
    rw [show wsRun T = T.length from by
      unfold wsRun
      rw [hTtw]]
    apply findFirstSome_desc _ T.length T.length _ (le_refl _)
    · intro b h1 h2; exact absurd h1 (by omega)
    · show (if dollarAt (T.drop T.length) then Option.some T.length
        else Option.none) = Option.some T.length
      rw [List.drop_length]
      rfl
  · subst hs
    have hwT : wsRun (T ++ '\n' :: r') = T.length + (1 + wsRun r') := by
      unfold wsRun
      rw [takeWhile_all_append jsSpace T _ hT]
      rw [List.takeWhile_cons_of_pos (by decide : jsSpace '\n' = true)]
      rw [List.length_append, List.length_cons]
      omega
    rw [hwT]
    apply findFirstSome_desc _ _ T.length _ (by omega)
    · intro b h1 h2
      show (if dollarAt ((T ++ '\n' :: r').drop b) then Option.some b
        else Option.none) = Option.none
      have hb : (T ++ '\n' :: r').drop b = r'.drop (b - T.length - 1) := by
        conv_lhs =>
          rw [show T ++ '\n' :: r' = (T ++ ['\n']) ++ r' from by simp,
            show b = (T ++ ['\n']).length + (b - T.length - 1) from by
              simp only [List.length_append, List.length_cons, List.length_nil]
              omega]
        rw [List.drop_append]
      rw [hb]
      have hjlt : b - T.length - 1 < (r'.takeWhile (· ≠ '\n')).length := by
        unfold wsRun at hrw h2
        omega
      have hdropj : r'.drop (b - T.length - 1) =
          (r'.takeWhile (· ≠ '\n')).drop (b - T.length - 1) ++
          r'.dropWhile (· ≠ '\n') := by
        conv_lhs => rw [← List.takeWhile_append_dropWhile (· ≠ '\n') r']
        exact List.drop_append_of_le_length (by omega)
      rw [hdropj]
      cases hfd : (r'.takeWhile (· ≠ '\n')).drop (b - T.length - 1) with
      | nil =>
          exfalso
          have hl := congrArg List.length hfd
          simp only [List.length_drop, List.length_nil] at hl
          omega
      | cons c cs2 =>
          have hcm : c ∈ r'.takeWhile (· ≠ '\n') :=
            List.mem_of_mem_drop (by rw [hfd]; simp)
          have hcne : c ≠ '\n' := by
            have h3 := List.mem_takeWhile_imp hcm
            simpa using h3
          rw [List.cons_append]
          simp [dollarAt, hcne]
    · show (if dollarAt ((T ++ '\n' :: r').drop T.length) then Option.some T.length
        else Option.none) = Option.some T.length
      rw [show (T ++ '\n' :: r').drop T.length = '\n' :: r' from
        List.drop_left T ('\n' :: r')]
      simp [dollarAt]

theorem hmInner2_none (A suffix : List Char) (hA : A.all jsSpace = false)
    (hAnl : '\n' ∉ A) :
    hmInner2 (A ++ suffix) = Option.none := by
  unfold hmInner2
  have hst : wsRun (A ++ suffix) = wsRun A := by
    unfold wsRun
    rw [takeWhile_append_stable jsSpace A suffix (all_false_takeWhile_lt jsSpace A hA)]
  rw [hst]
  apply findFirstSome_desc_none
  intro b hb
  show (if dollarAt ((A ++ suffix).drop b) then Option.some b
    else Option.none) = Option.none
  have hblt : b < A.length := by
    have h1 := all_false_takeWhile_lt jsSpace A hA
    unfold wsRun at hb
    omega
  rw [List.drop_append_of_le_length (by omega)]
  cases hAd : A.drop b with
  | nil =>
      exfalso
      have hl := congrArg List.length hAd
      simp only [List.length_drop, List.length_nil] at hl
      omega
  | cons c cs2 =>
      have hcm : c ∈ A := List.mem_of_mem_drop (by rw [hAd]; simp)
      have hcn : c ≠ '\n' := fun he => hAnl (he ▸ hcm)
      rw [List.cons_append]
      simp [dollarAt, hcn]

theorem hmInner1_pos (name W X T suffix : List Char) (k : Nat)
    (hT : ∀ c ∈ T, jsSpace c = true)
    (hXci : ciEq name X = true)
    (hWmax : wsRun (W ++ (X ++ (T ++ suffix))) = W.length)
    (hsuf : sufOk suffix) :
    hmInner1 name (W ++ (X ++ (T ++ suffix))) k =
      Option.some (k, k + W.length + name.length + T.length) := by
  unfold hmInner1
  rw [hWmax]
  apply findFirstSome_desc _ _ W.length _ (le_refl _)
  · intro b h1 h2; exact absurd h1 (by omega)
  · show (if ciPref name ((W ++ (X ++ (T ++ suffix))).drop W.length) then
      (hmInner2 ((W ++ (X ++ (T ++ suffix))).drop (W.length + name.length))).map
        (fun b => (k, k + W.length + name.length + b))
      else Option.none) = Option.some (k, k + W.length + name.length + T.length)
    have hlX : X.length = name.length := by
      have h1 := congrArg List.length ((ciEq_iff_map name X).mp hXci)
      simp only [List.length_map] at h1
      omega
    have hd1 : (W ++ (X ++ (T ++ suffix))).drop W.length = X ++ (T ++ suffix) :=
      List.drop_left _ _
    have hci2 : ciPref name (X ++ (T ++ suffix)) = true := by
      rw [ciPref_iff_map, List.map_append]
      rw [← (ciEq_iff_map name X).mp hXci]
      exact listPref_append_self _ _
    rw [hd1, hci2, if_pos rfl]
    have hd2 : (W ++ (X ++ (T ++ suffix))).drop (W.length + name.length) =
        T ++ suffix := by
      rw [show W ++ (X ++ (T ++ suffix)) = (W ++ X) ++ (T ++ suffix) from by simp]
      rw [show W.length + name.length = (W ++ X).length from by
        simp [hlX]]
      exact List.drop_left _ _
    rw [hd2, hmInner2_val T suffix hT hsuf]
    rfl

theorem headerMatchAt_line (hn : List Char) (hhne : hn ≠ [])
    (hhead : ∀ c, hn.head? = Option.some c →
      jsSpace c.toLower = false ∧ c.toLower ≠ '#')
    (hlast : ∀ c, hn.getLast? = Option.some c → jsSpace c.toLower = false)
    (hnnl : ∀ c ∈ hn, c.toLower ≠ '\n')
    (l : List Char) (hlok : lineOkC4 l = true) (hlnl : '\n' ∉ l)
    (suffix : List Char) (hsuf : sufOk suffix) :
    headerMatchAt hn (l ++ suffix) =
      (if specHeaderLine hn l then Option.some (hashRun l, l.length)
       else Option.none) := by
  have hdrople : l.dropWhile (· = '#') = l.drop (hashRun l) :=
    dropWhile_eq_drop (· = '#') l
  have hall : (l.drop (hashRun l)).all jsSpace = false := by
    unfold lineOkC4 at hlok
    rw [hdrople] at hlok
    cases hav : (l.drop (hashRun l)).all jsSpace with
    | false => rfl
    | true => rw [hav] at hlok; exact absurd hlok (by decide)
  have hrlt : hashRun l < l.length := by
    rcases Nat.lt_or_ge (hashRun l) l.length with h | h
    · exact h
    · exfalso
      rw [List.drop_eq_nil_of_le h] at hall
      simp at hall
  have hwlt : wsRun (l.drop (hashRun l)) < (l.drop (hashRun l)).length :=
    all_false_takeWhile_lt jsSpace _ hall
  have hashcs : hashRun (l ++ suffix) = hashRun l := by
    show ((l ++ suffix).takeWhile (· = '#')).length =
      (l.takeWhile (· = '#')).length
    rw [takeWhile_append_stable (· = '#') l suffix hrlt]
  have hdropk : ∀ k, k ≤ hashRun l →
      (l ++ suffix).drop k = l.drop k ++ suffix :=
    fun k hk => List.drop_append_of_le_length (by omega)
  have hwstable : wsRun (l.drop (hashRun l) ++ suffix) =
      wsRun (l.drop (hashRun l)) := by
    show ((l.drop (hashRun l) ++ suffix).takeWhile jsSpace).length =
      ((l.drop (hashRun l)).takeWhile jsSpace).length
    rw [takeWhile_append_stable jsSpace _ suffix hwlt]
  rw [headerMatchAt_eq, hashcs]
  by_cases hspec : specHeaderLine hn l = true
  · rw [if_pos hspec]
    have h1r : 1 ≤ hashRun l := by
      unfold specHeaderLine at hspec
      exact of_decide_eq_true (bool_and_split hspec).1
    have hci : ciEq hn (jsTrimL (l.drop (hashRun l))) = true := by
      unfold specHeaderLine at hspec
      exact (bool_and_split hspec).2
    obtain ⟨W, T, hu, hWtw, hW, hT⟩ := exists_trim_decomp (l.drop (hashRun l))
    refine findFirstSome_desc _ (hashRun l) (hashRun l) _ (le_refl _)
      (fun b hb1 hb2 => absurd hb1 (by omega)) ?_
    unfold hmOuter
    rw [if_neg (by omega : ¬ hashRun l = 0)]
    rw [hdropk (hashRun l) (le_refl _)]
    have hsh : l.drop (hashRun l) ++ suffix =
        W ++ (jsTrimL (l.drop (hashRun l)) ++ (T ++ suffix)) := by
      conv_lhs => rw [hu]
      simp [List.append_assoc]
    rw [hsh]
    have hWmax : wsRun (W ++ (jsTrimL (l.drop (hashRun l)) ++ (T ++ suffix))) =
        W.length := by
      rw [← hsh, hwstable]
      show ((l.drop (hashRun l)).takeWhile jsSpace).length = W.length
      rw [← hWtw]
    rw [hmInner1_pos hn W (jsTrimL (l.drop (hashRun l))) T suffix (hashRun l)
      hT hci hWmax hsuf]
    have h2 : (jsTrimL (l.drop (hashRun l))).length = hn.length := by
      have h3 := congrArg List.length ((ciEq_iff_map hn _).mp hci)
      simp only [List.length_map] at h3
      omega
    have hlen : hashRun l + W.length + hn.length + T.length = l.length := by
      have h1 := congrArg List.length hu
      simp only [List.length_append, List.length_drop] at h1
      have h4 : hashRun l ≤ l.length := by omega
      omega
    rw [hlen]
  · rw [if_neg hspec]
    apply findFirstSome_desc_none
    intro k hk
    unfold hmOuter
    by_cases hk0 : k = 0
    · rw [if_pos hk0]
    · rw [if_neg hk0]
      rw [hdropk k hk]
      by_cases hkr : k = hashRun l
      · subst hkr
        unfold hmInner1
        rw [hwstable]
        apply findFirstSome_desc_none
        intro a ha
        show (if ciPref hn ((l.drop (hashRun l) ++ suffix).drop a) then
            (hmInner2 ((l.drop (hashRun l) ++ suffix).drop (a + hn.length))).map
              (fun b => (hashRun l, hashRun l + a + hn.length + b))
          else Option.none) = Option.none
        by_cases haw : a < wsRun (l.drop (hashRun l))
        · -- inside the leading whitespace: the name's head cannot match
          have haw' : a < ((l.drop (hashRun l)).takeWhile jsSpace).length := haw
          have hda : (l.drop (hashRun l) ++ suffix).drop a =
              ((l.drop (hashRun l)).takeWhile jsSpace).drop a ++
              ((l.drop (hashRun l)).dropWhile jsSpace ++ suffix) := by
            conv_lhs => rw [show l.drop (hashRun l) ++ suffix =
              ((l.drop (hashRun l)).takeWhile jsSpace ++
               (l.drop (hashRun l)).dropWhile jsSpace) ++ suffix from by
                rw [List.takeWhile_append_dropWhile]]
            rw [List.append_assoc]
            exact List.drop_append_of_le_length (by omega)
          rw [hda]
          cases htd : ((l.drop (hashRun l)).takeWhile jsSpace).drop a with
          | nil =>
              exfalso
              have hl2 := congrArg List.length htd
              simp only [List.length_drop, List.length_nil] at hl2
              omega
          | cons c' cs' =>
              have hc'm : c' ∈ (l.drop (hashRun l)).takeWhile jsSpace := by
                refine List.mem_of_mem_drop (n := a) ?_
                rw [htd]
                simp
              have hcw : jsSpace c' = true := List.mem_takeWhile_imp hc'm
              rw [List.cons_append]
              rw [ciPref_ws_head_false hn hhne (fun c0 hc0 => (hhead c0 hc0).1)
                c' hcw _]
              rw [if_neg Bool.false_ne_true]
        · -- at the start of the name text
          have haeq : a = wsRun (l.drop (hashRun l)) := by omega
          subst haeq
          have hYdrop : (l.drop (hashRun l) ++ suffix).drop
              (wsRun (l.drop (hashRun l))) =
              (l.drop (hashRun l)).dropWhile jsSpace ++ suffix := by
            conv_lhs => rw [show l.drop (hashRun l) ++ suffix =
              ((l.drop (hashRun l)).takeWhile jsSpace ++
               (l.drop (hashRun l)).dropWhile jsSpace) ++ suffix from by
                rw [List.takeWhile_append_dropWhile]]
            rw [List.append_assoc]
            exact List.drop_left _ _
          rw [hYdrop]
          by_cases hcip : ciPref hn ((l.drop (hashRun l)).dropWhile jsSpace ++
              suffix) = true
          · rw [hcip, if_pos rfl]
            by_cases hYlen : hn.length ≤
                ((l.drop (hashRun l)).dropWhile jsSpace).length
            · have hciX : ciEq hn
                  (((l.drop (hashRun l)).dropWhile jsSpace).take hn.length) =
                  true := by
                rw [ciEq_iff_map]
                have hlp := hcip
                rw [ciPref_iff_map, List.map_append, listPref_iff_take,
                  List.length_map, List.take_append_eq_append_take] at hlp
                rw [show hn.length -
                    (((l.drop (hashRun l)).dropWhile jsSpace).map
                      Char.toLower).length = 0 from by
                  simp only [List.length_map]
                  omega] at hlp
                rw [List.take_zero, List.append_nil] at hlp
                rw [List.map_take]
                exact hlp.symm
              by_cases hTall : (((l.drop (hashRun l)).dropWhile jsSpace).drop
                  hn.length).all jsSpace = true
              · exfalso
                apply hspec
                unfold specHeaderLine
                rw [show decide (1 ≤ hashRun l) = true from
                  decide_eq_true (by omega)]
                have hYne : (l.drop (hashRun l)).dropWhile jsSpace ≠ [] := by
                  intro hcon
                  rw [hcon] at hYlen
                  simp at hYlen
                  exact hhne hYlen
                have htr : jsTrimL (l.drop (hashRun l)) =
                    ((l.drop (hashRun l)).dropWhile jsSpace).take hn.length := by
                  conv_lhs => rw [show l.drop (hashRun l) =
                    (l.drop (hashRun l)).takeWhile jsSpace ++
                    ((((l.drop (hashRun l)).dropWhile jsSpace).take hn.length) ++
                     (((l.drop (hashRun l)).dropWhile jsSpace).drop hn.length))
                    from by
                      rw [List.take_append_drop, List.takeWhile_append_dropWhile]]
                  refine jsTrimL_decomp _ _ _
                    (fun c hc => List.mem_takeWhile_imp hc)
                    (fun c hc => ?_) ?_ ?_
                  · rw [List.all_eq_true] at hTall
                    exact hTall c hc
                  · intro d hd
                    cases hYc : (l.drop (hashRun l)).dropWhile jsSpace with
                    | nil => exact absurd hYc hYne
                    | cons y ys =>
                        have hyws : jsSpace y = false :=
                          dropWhile_head_not jsSpace _ y ys hYc
                        have hdy : d = y := by
                          rw [hYc] at hd
                          cases hnl : hn.length with
                          | zero =>
                              exact absurd (List.length_eq_zero.mp hnl) hhne
                          | succ m =>
                              rw [hnl, List.take_succ_cons] at hd
                              simp only [List.head?_cons,
                                Option.some.injEq] at hd
                              exact hd.symm
                        rw [hdy]
                        exact hyws
                  · exact ci_last_ws_transfer hn _ hciX hlast
                rw [htr, hciX]
                rfl
              · have hTall' : (((l.drop (hashRun l)).dropWhile jsSpace).drop
                    hn.length).all jsSpace = false :=
                  (Bool.eq_false_iff).mpr hTall
                have hTnl : '\n' ∉ ((l.drop (hashRun l)).dropWhile jsSpace).drop
                    hn.length := by
                  intro hmem
                  apply hlnl
                  have h5 : '\n' ∈ (l.drop (hashRun l)).dropWhile jsSpace :=
                    List.mem_of_mem_drop hmem
                  rw [dropWhile_eq_drop jsSpace] at h5
                  exact List.mem_of_mem_drop (List.mem_of_mem_drop h5)
                have hTA : (l.drop (hashRun l) ++ suffix).drop
                    (wsRun (l.drop (hashRun l)) + hn.length) =
                    (((l.drop (hashRun l)).dropWhile jsSpace).drop hn.length) ++
                    suffix := by
                  conv_lhs => rw [show l.drop (hashRun l) ++ suffix =
                    ((l.drop (hashRun l)).takeWhile jsSpace ++
                     (l.drop (hashRun l)).dropWhile jsSpace) ++ suffix from by
                      rw [List.takeWhile_append_dropWhile]]
                  rw [List.append_assoc]
                  rw [show wsRun (l.drop (hashRun l)) + hn.length =
                    ((l.drop (hashRun l)).takeWhile jsSpace).length + hn.length
                    from rfl]
                  rw [List.drop_append]
                  exact List.drop_append_of_le_length hYlen
                rw [hTA, hmInner2_none _ suffix hTall' hTnl]
                rfl
            · exfalso
              rcases hsuf with hs | ⟨r', hs, hrw⟩
              · rw [hs, List.append_nil] at hcip
                rw [ciPref_iff_map, listPref_iff_take, List.length_map] at hcip
                have hl6 := congrArg List.length hcip
                simp only [List.length_take, List.length_map] at hl6
                omega
              · rw [hs] at hcip
                rw [ciPref_iff_map, List.map_append, listPref_iff_take,
                  List.length_map, List.take_append_eq_append_take] at hcip
                have hnlmem : ('\n' : Char) ∈ hn.map Char.toLower := by
                  rw [← hcip]
                  refine List.mem_append.mpr (Or.inr ?_)
                  rw [show ('\n' :: r').map Char.toLower =
                    '\n' :: r'.map Char.toLower from by simp]
                  cases hd6 : hn.length -
                      (((l.drop (hashRun l)).dropWhile jsSpace).map
                        Char.toLower).length with
                  | zero =>
                      exfalso
                      simp only [List.length_map] at hd6
                      omega
                  | succ m =>
                      rw [List.take_succ_cons]
                      simp
                rcases List.mem_map.mp hnlmem with ⟨c, hc, hceq⟩
                exact hnnl c hc hceq
          · rw [(Bool.eq_false_iff).mpr hcip]
            rw [if_neg Bool.false_ne_true]
      · -- 1 ≤ k < hashRun l: position still inside the hash run
        have hklt : k < hashRun l := by
          rcases Nat.lt_or_ge k (hashRun l) with h | h
          · exact h
          · exact absurd (Nat.le_antisymm hk h) hkr
        have hkle : k ≤ (l.takeWhile (· = '#')).length := hklt.le
        have hda : l.drop k ++ suffix =
            (l.takeWhile (· = '#')).drop k ++
            (l.drop (hashRun l) ++ suffix) := by
          conv_lhs => rw [show l.drop k = (l.takeWhile (· = '#')).drop k ++
              l.drop (hashRun l) from by
            conv_lhs => rw [show l = l.takeWhile (· = '#') ++
              l.drop (hashRun l) from by
                conv_lhs => rw [← List.takeWhile_append_dropWhile (· = '#') l]
                rw [hdrople]]
            exact List.drop_append_of_le_length hkle]
          rw [List.append_assoc]
        rw [hda]
        cases htd : (l.takeWhile (· = '#')).drop k with
        | nil =>
            exfalso
            have hl2 := congrArg List.length htd
            simp only [List.length_drop, List.length_nil] at hl2
            have : (l.takeWhile (· = '#')).length = hashRun l := rfl
            omega
        | cons c' cs' =>
            have hc'm : c' ∈ l.takeWhile (· = '#') := by
              refine List.mem_of_mem_drop (n := k) ?_
              rw [htd]
              simp
            have hch : c' = '#' := by
              have h7 := List.mem_takeWhile_imp hc'm
              simpa using h7
            subst hch
            rw [List.cons_append]
            unfold hmInner1
            rw [show wsRun ('#' :: (cs' ++ (l.drop (hashRun l) ++ suffix))) = 0
              from by
                show ((('#' :: (cs' ++ (l.drop (hashRun l) ++
                  suffix)))).takeWhile jsSpace).length = 0
                rw [List.takeWhile_cons_of_neg (by decide)]
                rfl]
            apply findFirstSome_desc_none
            intro b hb
            have hb0 : b = 0 := by omega
            subst hb0
            show (if ciPref hn (('#' :: (cs' ++ (l.drop (hashRun l) ++
                suffix))).drop 0) then
              (hmInner2 (('#' :: (cs' ++ (l.drop (hashRun l) ++
                suffix))).drop (0 + hn.length))).map
                (fun b => (k, k + 0 + hn.length + b))
              else Option.none) = Option.none
            rw [List.drop_zero]
            rw [ciPref_hash_head_false hn hhne
              (fun c0 hc0 => (hhead c0 hc0).2) _]
            rw [if_neg Bool.false_ne_true]

theorem lineOk_all_false (l : List Char) (hlok : lineOkC4 l = true) :
    l.all jsSpace = false := by
  have h1 : ((l.dropWhile (· = '#')).all jsSpace) = false := by
    unfold lineOkC4 at hlok
    cases hav : (l.dropWhile (· = '#')).all jsSpace with
    | false => rfl
    | true => rw [hav] at hlok; exact absurd hlok (by decide)
  cases hall : l.all jsSpace with
  | false => rfl
  | true =>
      exfalso
      rw [List.all_eq_true] at hall
      have h2 : (l.dropWhile (· = '#')).all jsSpace = true := by
        rw [List.all_eq_true]
        intro x hx
        refine hall x ?_
        rw [dropWhile_eq_drop (· = '#') l] at hx
        exact List.mem_of_mem_drop hx
      rw [h2] at h1
      exact absurd h1 (by decide)

theorem lineOk_wsRun_lt (l : List Char) (hlok : lineOkC4 l = true) :
    wsRun l < l.length :=
  all_false_takeWhile_lt jsSpace l (lineOk_all_false l hlok)

theorem takeWhile_all_self (p : Char → Bool) (a : List Char)
    (h : ∀ x ∈ a, p x = true) : a.takeWhile p = a := by
  have h2 := takeWhile_all_append p a [] h
  simpa using h2

theorem nextHeaderHere_line (k : Nat) (l suffix : List Char)
    (hlok : lineOkC4 l = true) :
    nextHeaderHere k (l ++ suffix) = specNextHeaderLine k l := by
  have hdrople : l.dropWhile (· = '#') = l.drop (hashRun l) :=
    dropWhile_eq_drop (· = '#') l
  have hall : (l.drop (hashRun l)).all jsSpace = false := by
    unfold lineOkC4 at hlok
    rw [hdrople] at hlok
    cases hav : (l.drop (hashRun l)).all jsSpace with
    | false => rfl
    | true => rw [hav] at hlok; exact absurd hlok (by decide)
  have hrlt : hashRun l < l.length := by
    rcases Nat.lt_or_ge (hashRun l) l.length with h | h
    · exact h
    · exfalso
      rw [List.drop_eq_nil_of_le h] at hall
      simp at hall
  have hashcs : hashRun (l ++ suffix) = hashRun l := by
    show ((l ++ suffix).takeWhile (· = '#')).length =
      (l.takeWhile (· = '#')).length
    rw [takeWhile_append_stable (· = '#') l suffix hrlt]
  show (decide (1 ≤ hashRun (l ++ suffix)) &&
      decide (hashRun (l ++ suffix) ≤ k) &&
      (match (l ++ suffix).drop (hashRun (l ++ suffix)) with
       | c :: _ => jsSpace c
       | [] => false)) =
    (decide (1 ≤ hashRun l) && decide (hashRun l ≤ k) &&
      (match l.drop (hashRun l) with
       | c :: _ => jsSpace c
       | [] => false))
  rw [hashcs, List.drop_append_of_le_length hrlt.le]
  cases hdc : l.drop (hashRun l) with
  | nil => rw [hdc] at hall; simp at hall
  | cons c cs =>
      rw [List.cons_append]

theorem headerMatchAt_nil (hn : List Char) :
    headerMatchAt hn [] = Option.none := rfl

theorem nextHeaderTest_nil (k : Nat) :
    (fun s => if nextHeaderHere k s then Option.some () else Option.none)
      ([] : List Char) = Option.none := rfl

theorem nextHeaderHere_nl (k : Nat) (rest : List Char) :
    nextHeaderHere k ('\n' :: rest) = false := by
  show (decide (1 ≤ hashRun ('\n' :: rest)) &&
      decide (hashRun ('\n' :: rest) ≤ k) &&
      (match ('\n' :: rest).drop (hashRun ('\n' :: rest)) with
       | c :: _ => jsSpace c
       | [] => false)) = false
  rw [show hashRun ('\n' :: rest) = 0 from by
    show (('\n' :: rest).takeWhile (· = '#')).length = 0
    rw [List.takeWhile_cons_of_neg (by decide)]
    rfl]
  rfl

/-- First line (index and value) on which a per-line test succeeds. -/
def findIdxOv {beta : Type} (f : List Char → Option beta) :
    List (List Char) → Option (Nat × beta)
  | [] => Option.none
  | l :: ls =>
      match f l with
      | Option.some v => Option.some (0, v)
      | Option.none => (findIdxOv f ls).map (fun p => (p.1 + 1, p.2))

theorem findIdxOv_cons_some {beta : Type} (f : List Char → Option beta)
    (l : List Char) (ls : List (List Char)) (v : beta)
    (h : f l = Option.some v) :
    findIdxOv f (l :: ls) = Option.some (0, v) := by
  show (match f l with
    | Option.some v => Option.some ((0 : Nat), v)
    | Option.none =>
        (findIdxOv f ls).map (fun (p : Nat × beta) => (p.1 + 1, p.2))) =
    Option.some (0, v)
  rw [h]

theorem findIdxOv_cons_none {beta : Type} (f : List Char → Option beta)
    (l : List Char) (ls : List (List Char)) (h : f l = Option.none) :
    findIdxOv f (l :: ls) =
      (findIdxOv f ls).map (fun p => (p.1 + 1, p.2)) := by
  show (match f l with
    | Option.some v => Option.some ((0 : Nat), v)
    | Option.none =>
        (findIdxOv f ls).map (fun (p : Nat × beta) => (p.1 + 1, p.2))) = _
  rw [h]

/-- The `^`-anchored scan over a newline-joined list of well-formed lines
is the first line on which the per-line reading of the test succeeds. -/
theorem lineScanO_lines {beta : Type} (test : List Char → Option beta)
    (f : List Char → Option beta)
    (htest0 : test [] = Option.none)
    (hchar : ∀ l suffix, lineOkC4 l = true → '\n' ∉ l → sufOk suffix →
      test (l ++ suffix) = f l) :
    ∀ (L : List (List Char)), L ≠ [] →
      (∀ l ∈ L, lineOkC4 l = true) → (∀ l ∈ L, '\n' ∉ l) →
      ∀ idx, lineScanO test (joinNlL L) idx true =
        (findIdxOv f L).map
          (fun p => (idx + (linesJoin (L.take p.1)).length, p.2)) := by
  intro L
  induction L with
  | nil => intro h; exact absurd rfl h
  | cons l ls ih =>
      intro _ hok hnn idx
      have hlok : lineOkC4 l = true := hok l (by simp)
      have hlnn : '\n' ∉ l := hnn l (by simp)
      cases ls with
      | nil =>
          rw [show joinNlL [l] = l from rfl]
          rw [lineScanO_true_no_nl test htest0 l hlnn idx]
          have hc := hchar l [] hlok hlnn (Or.inl rfl)
          rw [List.append_nil] at hc
          rw [hc]
          cases hfl : f l with
          | none =>
              rw [findIdxOv_cons_none f l [] hfl]
              rfl
          | some v =>
              rw [findIdxOv_cons_some f l [] v hfl]
              rfl
      | cons l2 ls2 =>
          have hok2 : ∀ x ∈ l2 :: ls2, lineOkC4 x = true :=
            fun x hx => hok x (List.mem_cons_of_mem l hx)
          have hnn2 : ∀ x ∈ l2 :: ls2, '\n' ∉ x :=
            fun x hx => hnn x (List.mem_cons_of_mem l hx)
          have hl2ok : lineOkC4 l2 = true := hok2 l2 (by simp)
          have hl2nn : '\n' ∉ l2 := hnn2 l2 (by simp)
          have hw2 : wsRun l2 < l2.length := lineOk_wsRun_lt l2 hl2ok
          have hl2tw : ∀ x ∈ l2, (fun c => decide ¬(c = '\n')) x = true :=
            fun x hx => decide_eq_true (fun he => hl2nn (he ▸ hx))
          have hsuf : sufOk ('\n' :: joinNlL (l2 :: ls2)) := by
            refine Or.inr ⟨joinNlL (l2 :: ls2), rfl, ?_⟩
            cases ls2 with
            | nil =>
                rw [show joinNlL [l2] = l2 from rfl]
                rw [takeWhile_all_self _ l2 hl2tw]
                exact hw2
            | cons l3 ls3 =>
                rw [show joinNlL (l2 :: l3 :: ls3) =
                  l2 ++ '\n' :: joinNlL (l3 :: ls3) from rfl]
                rw [takeWhile_all_append _ l2 _ hl2tw]
                rw [List.takeWhile_cons_of_neg (by decide), List.append_nil]
                rw [show wsRun (l2 ++ '\n' :: joinNlL (l3 :: ls3)) = wsRun l2
                  from by
                    show ((l2 ++ '\n' :: joinNlL (l3 :: ls3)).takeWhile
                      jsSpace).length = (l2.takeWhile jsSpace).length
                    rw [takeWhile_append_stable jsSpace l2 _ hw2]]
                exact hw2
          rw [show joinNlL (l :: l2 :: ls2) =
            l ++ '\n' :: joinNlL (l2 :: ls2) from rfl]
          rw [lineScanO_true_step test l hlnn (joinNlL (l2 :: ls2)) idx]
          rw [hchar l ('\n' :: joinNlL (l2 :: ls2)) hlok hlnn hsuf]
          cases hfl : f l with
          | some v =>
              rw [findIdxOv_cons_some f l (l2 :: ls2) v hfl]
              rfl
          | none =>
              rw [findIdxOv_cons_none f l (l2 :: ls2) hfl]
              show lineScanO test (joinNlL (l2 :: ls2))
                (idx + l.length + 1) true = _
              rw [ih (by simp) hok2 hnn2 (idx + l.length + 1)]
              cases hrec : findIdxOv f (l2 :: ls2) with
              | none => rfl
              | some q =>
                  show Option.some (idx + l.length + 1 +
                      (linesJoin ((l2 :: ls2).take q.1)).length, q.2) =
                    Option.some (idx +
                      (linesJoin ((l :: l2 :: ls2).take (q.1 + 1))).length, q.2)
                  have h3 : (linesJoin ((l :: l2 :: ls2).take (q.1 + 1))).length =
                      l.length + 1 + (linesJoin ((l2 :: ls2).take q.1)).length := by
                    rw [List.take_succ_cons]
                    show (l ++ '\n' :: linesJoin ((l2 :: ls2).take q.1)).length = _
                    simp only [List.length_append, List.length_cons]
                    omega
                  rw [h3]
                  rw [show idx + l.length + 1 +
                      (linesJoin ((l2 :: ls2).take q.1)).length =
                    idx + (l.length + 1 +
                      (linesJoin ((l2 :: ls2).take q.1)).length) from by omega]

theorem findIdxOv_if {beta : Type} (p : List Char → Bool) (g : List Char → beta) :
    ∀ L : List (List Char),
      findIdxOv (fun l => if p l then Option.some (g l) else Option.none) L =
        (findIdxO p L).map (fun i => (i, g (L.getD i []))) := by
  intro L
  induction L with
  | nil => rfl
  | cons l ls ih =>
      by_cases hp : p l = true
      · rw [findIdxOv_cons_some _ l ls (g l) (by rw [if_pos hp])]
        rw [show findIdxO p (l :: ls) = Option.some 0 from by
          show (if p l then Option.some 0 else (findIdxO p ls).map (· + 1)) = _
          rw [if_pos hp]]
        rfl
      · rw [findIdxOv_cons_none _ l ls (by rw [if_neg hp])]
        rw [show findIdxO p (l :: ls) = (findIdxO p ls).map (· + 1) from by
          show (if p l then Option.some 0 else (findIdxO p ls).map (· + 1)) = _
          rw [if_neg hp]]
        rw [ih]
        cases findIdxO p ls with
        | none => rfl
        | some i =>
            show Option.some (i + 1, g (ls.getD i [])) =
              Option.some (i + 1, g ((l :: ls).getD (i + 1) []))
            rfl

theorem findIdxO_lt (p : List Char → Bool) :
    ∀ (L : List (List Char)) (i : Nat),
      findIdxO p L = Option.some i → i < L.length := by
  intro L
  induction L with
  | nil => intro i h; exact absurd h (by simp [findIdxO])
  | cons l ls ih =>
      intro i h
      by_cases hp : p l = true
      · have h2 : Option.some 0 = Option.some i := by
          rw [← h]
          show _ = (if p l then Option.some 0 else (findIdxO p ls).map (· + 1))
          rw [if_pos hp]
        injection h2 with h3
        subst h3
        simp
      · have h2 : (findIdxO p ls).map (· + 1) = Option.some i := by
          rw [← h]
          show _ = (if p l then Option.some 0 else (findIdxO p ls).map (· + 1))
          rw [if_neg hp]
        cases hrec : findIdxO p ls with
        | none => rw [hrec] at h2; exact absurd h2 (by simp)
        | some j =>
            rw [hrec] at h2
            have h5 : Option.some (j + 1) = Option.some i := h2
            injection h5 with h6
            have h7 := ih j hrec
            simp only [List.length_cons]
            omega

theorem joinNlL_take_split :
    ∀ (L : List (List Char)) (j : Nat), j < L.length →
      joinNlL L = linesJoin (L.take j) ++ joinNlL (L.drop j) := by
  intro L
  induction L with
  | nil => intro j hj; simp at hj
  | cons l ls ih =>
      intro j hj
      cases j with
      | zero => rfl
      | succ j =>
          have hjl : j < ls.length := by
            simp only [List.length_cons] at hj
            omega
          have hlsne : ls ≠ [] := by
            intro h
            rw [h] at hjl
            simp at hjl
          rw [joinNlL_cons_of_ne_nil l ls hlsne]
          rw [List.take_succ_cons, List.drop_succ_cons]
          rw [show linesJoin (l :: ls.take j) =
            l ++ '\n' :: linesJoin (ls.take j) from rfl]
          rw [ih j hjl]
          simp [List.append_assoc]

theorem resolveReference_header (noteName : String) (N : List Char)
    (hn : List Char) :
    resolveReference noteName N (Option.some (⟨'#' :: hn⟩ : String)) =
      (match findHeaderGo hn N 0 true with
       | Option.some (hIdx, k, mLen) =>
           Except.ok ((N.drop hIdx).take
             (match nextHeaderGo k (N.drop (hIdx + mLen)) 0 true with
              | Option.some i => i + mLen
              | Option.none => N.length))
       | Option.none =>
           Except.error ("\n\n> [!warning] Header not found: " ++
             (⟨hn⟩ : String) ++ " in " ++ noteName ++ "\n\n")) := rfl

/-- The header branch of `resolveReference` (src/main.ts:224-239), named:
leftmost header match, then the cut at the next header of level ≤ the
captured level (or end of content). -/
def headerRegionCode (name content : List Char) : Option (List Char) :=
  match findHeaderGo name content 0 true with
  | Option.some (hIdx, k, mLen) =>
      Option.some ((content.drop hIdx).take
        (match nextHeaderGo k (content.drop (hIdx + mLen)) 0 true with
         | Option.some i => i + mLen
         | Option.none => content.length))
  | Option.none => Option.none

theorem resolveReference_headerRegionCode (noteName : String) (N : List Char)
    (hn : List Char) :
    resolveReference noteName N (Option.some (⟨'#' :: hn⟩ : String)) =
      (match headerRegionCode hn N with
       | Option.some r => Except.ok r
       | Option.none =>
           Except.error ("\n\n> [!warning] Header not found: " ++
             (⟨hn⟩ : String) ++ " in " ++ noteName ++ "\n\n")) := by
  rw [resolveReference_header]
  cases hf : findHeaderGo hn N 0 true with
  | none =>
      rw [show headerRegionCode hn N = Option.none from by
        unfold headerRegionCode
        rw [hf]]
  | some t =>
      obtain ⟨hIdx, k, mLen⟩ := t
      rw [show headerRegionCode hn N =
          Option.some ((N.drop hIdx).take
            (match nextHeaderGo k (N.drop (hIdx + mLen)) 0 true with
             | Option.some i => i + mLen
             | Option.none => N.length)) from by
        unfold headerRegionCode
        rw [hf]]

theorem drop_eq_getD_cons {α : Type} (d : α) :
    ∀ (L : List α) (i : Nat), i < L.length →
      L.drop i = L.getD i d :: L.drop (i + 1) := by
  intro L
  induction L with
  | nil => intro i h; simp at h
  | cons a as ih =>
      intro i h
      cases i with
      | zero => rfl
      | succ i =>
          have h2 : i < as.length := by
            simp only [List.length_cons] at h
            omega
          show as.drop i = _
          rw [ih i h2]
          rfl

/-- The code's header-region computation, on content assembled from
well-formed lines, equals the line-level reading: region from the first
header line matching the heading up to but excluding the next header of
equal or shallower level (or to the end if there is none). -/
theorem headerRegionCode_lines (hn : List Char) (hhne : hn ≠ [])
    (hhead : ∀ c, hn.head? = Option.some c →
      jsSpace c.toLower = false ∧ c.toLower ≠ '#')
    (hlast : ∀ c, hn.getLast? = Option.some c → jsSpace c.toLower = false)
    (hnnl : ∀ c ∈ hn, c.toLower ≠ '\n')
    (L : List (List Char)) (hLne : L ≠ [])
    (hok : ∀ l ∈ L, lineOkC4 l = true) (hnn : ∀ l ∈ L, '\n' ∉ l) :
    headerRegionCode hn (joinNlL L) =
      (match findIdxO (specHeaderLine hn) L with
       | Option.none => Option.none
       | Option.some i =>
           match findIdxO (specNextHeaderLine (hashRun (L.getD i [])))
               (L.drop (i + 1)) with
           | Option.some j => Option.some (linesJoin ((L.drop i).take (j + 1)))
           | Option.none => Option.some (joinNlL (L.drop i))) := by
  have hchar : ∀ l suffix, lineOkC4 l = true → '\n' ∉ l → sufOk suffix →
      headerMatchAt hn (l ++ suffix) =
        (if specHeaderLine hn l then Option.some (hashRun l, l.length)
         else Option.none) :=
    fun l suffix h1 h2 h3 =>
      headerMatchAt_line hn hhne hhead hlast hnnl l h1 h2 suffix h3
  have hIdxEq : findIdxOv
      (fun l => if specHeaderLine hn l then Option.some (hashRun l, l.length)
        else Option.none) L =
      (findIdxO (specHeaderLine hn) L).map
        (fun i => (i, (hashRun (L.getD i []), (L.getD i []).length))) :=
    findIdxOv_if (specHeaderLine hn) (fun l => (hashRun l, l.length)) L
  have hscan : findHeaderGo hn (joinNlL L) 0 true =
      ((findIdxO (specHeaderLine hn) L).map
        (fun i => (i, (hashRun (L.getD i []), (L.getD i []).length)))).map
        (fun q => (0 + (linesJoin (L.take q.1)).length, q.2)) := by
    show lineScanO (headerMatchAt hn) (joinNlL L) 0 true = _
    rw [lineScanO_lines (headerMatchAt hn)
      (fun l => if specHeaderLine hn l then Option.some (hashRun l, l.length)
        else Option.none)
      (headerMatchAt_nil hn) hchar L hLne hok hnn 0]
    rw [hIdxEq]
  unfold headerRegionCode
  cases hfi : findIdxO (specHeaderLine hn) L with
  | none =>
      rw [hfi] at hscan
      rw [show findHeaderGo hn (joinNlL L) 0 true = Option.none from by
        rw [hscan]
        rfl]
  | some i =>
      rw [hfi] at hscan
      have hilt : i < L.length := findIdxO_lt _ L i hfi
      have hscan2 : findHeaderGo hn (joinNlL L) 0 true =
          Option.some ((linesJoin (L.take i)).length,
            (hashRun (L.getD i []), (L.getD i []).length)) := by
        rw [hscan]
        show Option.some ((0 + (linesJoin (L.take i)).length,
          (hashRun (L.getD i []), (L.getD i []).length)) : Nat × Nat × Nat) = _
        rw [Nat.zero_add]
      rw [hscan2]
      show Option.some (((joinNlL L).drop (linesJoin (L.take i)).length).take
          (match nextHeaderGo (hashRun (L.getD i []))
              ((joinNlL L).drop ((linesJoin (L.take i)).length +
                (L.getD i []).length)) 0 true with
           | Option.some i2 => i2 + (L.getD i []).length
           | Option.none => (joinNlL L).length)) =
        (match findIdxO (specNextHeaderLine (hashRun (L.getD i [])))
            (L.drop (i + 1)) with
         | Option.some j => Option.some (linesJoin ((L.drop i).take (j + 1)))
         | Option.none => Option.some (joinNlL (L.drop i)))
      have hdropi : L.drop i = L.getD i [] :: L.drop (i + 1) :=
        drop_eq_getD_cons [] L i hilt
      have hsplit : joinNlL L =
          linesJoin (L.take i) ++ joinNlL (L.drop i) :=
        joinNlL_take_split L i hilt
      have hdropA : (joinNlL L).drop (linesJoin (L.take i)).length =
          joinNlL (L.drop i) := by
        rw [hsplit]
        exact List.drop_left _ _
      rw [hdropA]
      cases hL2 : L.drop (i + 1) with
      | nil =>
          have hdi : joinNlL (L.drop i) = L.getD i [] := by
            rw [hdropi, hL2]
            rfl
          have hrem : (joinNlL L).drop ((linesJoin (L.take i)).length +
              (L.getD i []).length) = [] := by
            apply List.drop_eq_nil_of_le
            rw [hsplit, hdi]
            simp only [List.length_append]
            omega
          rw [hrem]
          rw [show nextHeaderGo (hashRun (L.getD i [])) [] 0 true = Option.none
            from rfl]
          have htk : (joinNlL (L.drop i)).take (joinNlL L).length =
              joinNlL (L.drop i) := by
            apply take_ge_length
            rw [hsplit]
            simp only [List.length_append]
            omega
          rw [htk]
          rfl
      | cons l2 ls2 =>
          have hdi : joinNlL (L.drop i) =
              L.getD i [] ++ '\n' :: joinNlL (l2 :: ls2) := by
            rw [hdropi, hL2]
            rw [joinNlL_cons_of_ne_nil _ _ (by simp)]
          have hrem : (joinNlL L).drop ((linesJoin (L.take i)).length +
              (L.getD i []).length) = '\n' :: joinNlL (l2 :: ls2) := by
            rw [hsplit, hdi]
            rw [show linesJoin (L.take i) ++
                (L.getD i [] ++ '\n' :: joinNlL (l2 :: ls2)) =
              (linesJoin (L.take i) ++ L.getD i []) ++
                '\n' :: joinNlL (l2 :: ls2) from by rw [List.append_assoc]]
            rw [show (linesJoin (L.take i)).length + (L.getD i []).length =
              (linesJoin (L.take i) ++ L.getD i []).length from by
                simp only [List.length_append]]
            exact List.drop_left _ _
          rw [hrem]
          have hok2 : ∀ x ∈ l2 :: ls2, lineOkC4 x = true := by
            intro x hx
            refine hok x ?_
            have h6 : x ∈ L.drop (i + 1) := by rw [hL2]; exact hx
            exact List.mem_of_mem_drop h6
          have hnn2 : ∀ x ∈ l2 :: ls2, '\n' ∉ x := by
            intro x hx
            refine hnn x ?_
            have h6 : x ∈ L.drop (i + 1) := by rw [hL2]; exact hx
            exact List.mem_of_mem_drop h6
          have hchar2 : ∀ l suffix, lineOkC4 l = true → '\n' ∉ l →
              sufOk suffix →
              (if nextHeaderHere (hashRun (L.getD i [])) (l ++ suffix) then
                Option.some () else Option.none) =
              (if specNextHeaderLine (hashRun (L.getD i [])) l then
                Option.some () else Option.none) := by
            intro l suffix h1 _ _
            rw [nextHeaderHere_line (hashRun (L.getD i [])) l suffix h1]
          have hiv2 : findIdxOv
              (fun l => if specNextHeaderLine (hashRun (L.getD i [])) l then
                Option.some () else Option.none) (l2 :: ls2) =
              (findIdxO (specNextHeaderLine (hashRun (L.getD i [])))
                (l2 :: ls2)).map (fun j => (j, ())) :=
            findIdxOv_if (specNextHeaderLine (hashRun (L.getD i [])))
              (fun _ => ()) (l2 :: ls2)
          have hnext : nextHeaderGo (hashRun (L.getD i []))
              ('\n' :: joinNlL (l2 :: ls2)) 0 true =
              (((findIdxO (specNextHeaderLine (hashRun (L.getD i [])))
                  (l2 :: ls2)).map (fun j => (j, ()))).map
                (fun q => (1 + (linesJoin ((l2 :: ls2).take q.1)).length,
                  q.2))).map Prod.fst := by
            have hstep : lineScanO
                (fun s => if nextHeaderHere (hashRun (L.getD i [])) s then
                  Option.some () else Option.none)
                ('\n' :: joinNlL (l2 :: ls2)) 0 true =
                lineScanO
                  (fun s => if nextHeaderHere (hashRun (L.getD i [])) s then
                    Option.some () else Option.none)
                  (joinNlL (l2 :: ls2)) 1 true := by
              rw [lineScanO, if_pos rfl]
              rw [show (if nextHeaderHere (hashRun (L.getD i []))
                    ('\n' :: joinNlL (l2 :: ls2)) then
                  Option.some () else Option.none) = Option.none from by
                rw [nextHeaderHere_nl]
                rfl]
              show lineScanO _ (joinNlL (l2 :: ls2)) (0 + 1)
                (decide (('\n' : Char) = '\n')) = _
              rw [show (decide (('\n' : Char) = '\n')) = true by simp]
            show (lineScanO
              (fun s => if nextHeaderHere (hashRun (L.getD i [])) s then
                Option.some () else Option.none)
              ('\n' :: joinNlL (l2 :: ls2)) 0 true).map Prod.fst = _
            rw [hstep]
            rw [lineScanO_lines
              (fun s => if nextHeaderHere (hashRun (L.getD i [])) s then
                Option.some () else Option.none)
              (fun l => if specNextHeaderLine (hashRun (L.getD i [])) l then
                Option.some () else Option.none)
              (nextHeaderTest_nil (hashRun (L.getD i [])))
              (fun l suffix h1 h2 h3 => hchar2 l suffix h1 h2 h3)
              (l2 :: ls2) (by simp) hok2 hnn2 1]
            rw [hiv2]
          rw [hnext]
          cases hfj : findIdxO (specNextHeaderLine (hashRun (L.getD i [])))
              (l2 :: ls2) with
          | none =>
              show Option.some ((joinNlL (L.drop i)).take (joinNlL L).length) =
                Option.some (joinNlL (L.drop i))
              rw [take_ge_length _ _ (by
                rw [hsplit]
                simp only [List.length_append]
                omega)]
          | some j =>
              have hjlt : j < (l2 :: ls2).length := findIdxO_lt _ _ j hfj
              show Option.some ((joinNlL (L.drop i)).take
                  (1 + (linesJoin ((l2 :: ls2).take j)).length +
                    (L.getD i []).length)) =
                Option.some (linesJoin ((L.drop i).take (j + 1)))
              have hsplit2 : joinNlL (l2 :: ls2) =
                  linesJoin ((l2 :: ls2).take j) ++
                    joinNlL ((l2 :: ls2).drop j) :=
                joinNlL_take_split (l2 :: ls2) j hjlt
              have hdropi2 : L.drop i = L.getD i [] :: l2 :: ls2 := by
                rw [hdropi, hL2]
              rw [hdi, hsplit2, hdropi2]
              rw [show 1 + (linesJoin ((l2 :: ls2).take j)).length +
                  (L.getD i []).length =
                (L.getD i []).length +
                  ((linesJoin ((l2 :: ls2).take j)).length + 1) from by omega]
              rw [List.take_append]
              rw [List.take_succ_cons]
              rw [List.take_succ_cons]
              rw [List.take_left]
              rfl

/-- C4 (amended): for every vault, note, and heading — the heading nonempty,
its first character (lowercased) neither whitespace nor `#`, its last
character not whitespace, no newline in it, and no line of the note content
a hash-run-plus-whitespace-only line — header-scoped embed extraction
returns the region from the first header line matching the heading
(case-insensitive, exact text after trimming) up to but excluding the next
header of equal or shallower level, or to end-of-document if there is none,
wrapped as a trimmed blank-line-delimited block; if no header matches, the
result is the warning block with the capitalized text
`Header not found: <heading> in <noteName>` (not the claim's lowercase
`header not found: ...`). -/
theorem getEmbeddedNoteContent_header_scoped
    (vault : String → Option String) (noteName N : String) (hn : List Char)
    (hv : vault noteName = Option.some N)
    (hok : ∀ l ∈ splitNl N.data, lineOkC4 l = true)
    (hhne : hn ≠ [])
    (hhead : ∀ c ∈ hn.take 1, jsSpace c.toLower = false ∧ c.toLower ≠ '#')
    (hlast : ∀ c ∈ hn.reverse.take 1, jsSpace c.toLower = false)
    (hnnl : ∀ c ∈ hn, c.toLower ≠ '\n') :
    getEmbeddedNoteContent vault noteName (Option.some (⟨'#' :: hn⟩ : String)) =
      (match headerRegionSpec hn N.data with
       | Option.some reg =>
           "\n\n" ++ (⟨jsTrimL (stripTrailingBlockRef reg)⟩ : String) ++ "\n\n"
       | Option.none =>
           "\n\n> [!warning] Header not found: " ++ (⟨hn⟩ : String) ++
             " in " ++ noteName ++ "\n\n") := by
  have hhead2 : ∀ c, hn.head? = Option.some c →
      jsSpace c.toLower = false ∧ c.toLower ≠ '#' := by
    intro c hc
    cases hn with
    | nil => exact absurd hc (by simp)
    | cons a t =>
        have h2 : a = c := by
          simp only [List.head?_cons, Option.some.injEq] at hc
          exact hc
        subst h2
        exact hhead a (by simp)
  have hlast2 : ∀ c, hn.getLast? = Option.some c →
      jsSpace c.toLower = false := by
    intro c hc
    rw [List.getLast?_eq_head?_reverse] at hc
    cases hr : hn.reverse with
    | nil => rw [hr] at hc; exact absurd hc (by simp)
    | cons a t =>
        rw [hr] at hc
        have h2 : a = c := by
          simp only [List.head?_cons, Option.some.injEq] at hc
          exact hc
        subst h2
        refine hlast a ?_
        rw [hr]
        simp
  have hunf : getEmbeddedNoteContent vault noteName
      (Option.some (⟨'#' :: hn⟩ : String)) =
      (match vault noteName with
       | Option.none =>
           "\n\n> [!warning] Embedded note not found: " ++ noteName ++
             (Option.some (⟨'#' :: hn⟩ : String)).getD "" ++ "\n\n"
       | Option.some noteContent =>
           match resolveReference noteName noteContent.data
               (Option.some (⟨'#' :: hn⟩ : String)) with
           | Except.error w => w
           | Except.ok c =>
               "\n\n" ++ (⟨jsTrimL (stripTrailingBlockRef c)⟩ : String) ++
                 "\n\n") := rfl
  rw [hunf, hv]
  show (match resolveReference noteName N.data
      (Option.some (⟨'#' :: hn⟩ : String)) with
    | Except.error w => w
    | Except.ok c =>
        "\n\n" ++ (⟨jsTrimL (stripTrailingBlockRef c)⟩ : String) ++ "\n\n") = _
  rw [resolveReference_headerRegionCode noteName N.data hn]
  have hjoin : joinNlL (splitNl N.data) = N.data := joinNlL_splitNl N.data
  have hcode := headerRegionCode_lines hn hhne hhead2 hlast2 hnnl
    (splitNl N.data) (splitNl_ne_nil N.data) hok
    (splitNl_mem_no_newline N.data)
  rw [hjoin] at hcode
  have hcs : headerRegionCode hn N.data = headerRegionSpec hn N.data := by
    rw [hcode]
    rfl
  rw [hcs]
  cases hreg : headerRegionSpec hn N.data with
  | none => rfl
  | some reg => rfl

theorem getEmbeddedNoteContent_header_scoped_witness :
    getEmbeddedNoteContent
        (fun n => if n = "Note" then Option.some "## Sec\nbody\n## Next\nmore"
          else Option.none)
        "Note" (Option.some (⟨'#' :: ("Sec".data)⟩ : String)) =
      "\n\n## Sec\nbody\n\n" ∧
    headerRegionSpec ("Sec".data) ("## Sec\nbody\n## Next\nmore".data) =
      Option.some ("## Sec\nbody\n".data) := by
  constructor
  · rw [getEmbeddedNoteContent_header_scoped
      (fun n => if n = "Note" then Option.some "## Sec\nbody\n## Next\nmore"
        else Option.none)
      "Note" "## Sec\nbody\n## Next\nmore" ("Sec".data)
      (by decide) (by decide) (by decide) (by decide) (by decide) (by decide)]
    decide
  · decide

end O2Q
